import Mathlib

/-!
# drasm: the assembler front end

A shallow embedding of the parser front end of `shepheb/drasm`:

* `core/operators.go`, `core/directives.go`  (namespace `Drasm.Core`)
* `dcpu/parser.go`                           (namespace `Drasm.Dcpu`)
* `mocha/parser.go`                          (namespace `Drasm.Mocha`)

The grammars are written with the combinator library `psec`
(namespace `Drasm.Psec`).  A parser is a function from the remaining input to
either a failure or a value together with the rest of the input; the values
are Go `interface{}` values, embedded as the universal type `Psec.Val`, so
that every semantic action can be written down with the type assertions and
slice indexing of its Go source.
-/

namespace Drasm

/-! ## `core`: operators and expressions -/

namespace Core

/-- Operator is `core.Operator`, the expression operators of `core/operators.go`. -/
inductive Operator
  | PLUS | MINUS | TIMES | DIVIDE | LANGLES | RANGLES | AND | OR | XOR | NOT | ILLEGAL
  deriving DecidableEq, Repr

/-- Numeric value of an operator: `PLUS Operator = iota + 300`. -/
def Operator.code : Operator → Nat
  | .PLUS => 300
  | .MINUS => 301
  | .TIMES => 302
  | .DIVIDE => 303
  | .LANGLES => 304
  | .RANGLES => 305
  | .AND => 306
  | .OR => 307
  | .XOR => 308
  | .NOT => 309
  | .ILLEGAL => 310

/-- OperatorNames is the map from operator spellings to operators
(a missing key is `none`). -/
def OperatorNames (s : String) : Option Operator :=
  if s = "+" then some .PLUS
  else if s = "-" then some .MINUS
  else if s = "*" then some .TIMES
  else if s = "/" then some .DIVIDE
  else if s = "<<" then some .LANGLES
  else if s = ">>" then some .RANGLES
  else if s = "&" then some .AND
  else if s = "|" then some .OR
  else if s = "^" then some .XOR
  else if s = "~" then some .NOT
  else none

/-- Modelled from the spec: the `core.Expression` tree, whose declaration is not
among the sources.  Variants as in the data model: Constant(numeric value),
SymbolReference(name), UnaryOp(operator, Expression), BinaryOp(operator,
Expression, Expression).  `Constant.Value` is a `uint32`. -/
inductive Expression
  | Constant (Value : Nat)
  | SymbolRef (name : String)
  | UnaryOp (op : Operator) (e : Expression)
  | BinaryOp (op : Operator) (l r : Expression)
  deriving DecidableEq, Repr

/-- Modelled from the spec: `core.Unary(op, e)`, the constructor of a UnaryOp
expression node (declaration not among the sources). -/
def Unary (op : Operator) (e : Expression) : Expression := .UnaryOp op e

/-- A Go `uint32(x)` conversion of a non-negative integer. -/
def uint32 (n : Nat) : Nat := n % 2 ^ 32

/-- The directive nodes built by `core/directives.go`: `&Org{Abs}`,
`&FillBlock{Value, Length}`, `&DatBlock{Values}`, the result of
`DefineSymbol(name, expr)` and `&MacroDef{name, body}`. -/
inductive Directive
  | Org (Abs : Expression)
  | FillBlock (Value Length : Expression)
  | DatBlock (Values : List Expression)
  | DefineSymbol (name : String) (value : Expression)
  | MacroDef (name body : String)
  deriving DecidableEq, Repr

end Core

/-! ## `dcpu`: operand and instruction nodes -/

namespace Dcpu

/-- The operand node `arg` of the DCPU grammar, with the four fields the parser
sets: `reg`, `special`, `indirect` and `offset` (a nil `offset` is `none`). -/
structure Arg where
  reg : Nat := 0
  special : Nat := 0
  indirect : Bool := false
  offset : Option Core.Expression := none
  deriving DecidableEq, Repr

/-- The instruction nodes `&binaryOp{opcode, b, a}` and `&unaryOp{opcode, a}`. -/
inductive Instr
  | binaryOp (opcode : Nat) (b a : Arg)
  | unaryOp (opcode : Nat) (a : Arg)
  deriving DecidableEq, Repr

end Dcpu

/-! ## `mocha`: operand and instruction nodes -/

namespace Mocha

/-- The addressing sub-mode of a `regSimple` operand: the constants
`rmIndirect`, `rmPredecrement`, `rmPostincrement` the parser assigns, and the
direct mode of a bare register. -/
inductive RegMode
  | rmDirect | rmIndirect | rmPredecrement | rmPostincrement
  deriving DecidableEq, Repr

/-- The operand nodes the Mocha grammar builds: `*regSimple` (fields `reg`,
`mode`), `&regOffset{reg, offset}`, `&regIndexed{reg, index}`,
`&pcRel{reg}` / `&pcRel{offset}`, `&spRel{adjustSP}` / `&spRel{offset}`,
`&specialReg{sp|pc|ex|ia}` and `&immediate{value, indirect}`.  A field the
source leaves out has its Go zero value (`0`, `false`, nil = `none`). -/
inductive Operand
  | regSimple (reg : Nat) (mode : RegMode)
  | regOffset (reg : Nat) (offset : Core.Expression)
  | regIndexed (reg index : Nat)
  | pcRel (reg : Nat) (offset : Option Core.Expression)
  | spRel (adjustSP : Bool) (offset : Option Core.Expression)
  | specialReg (sp pc ex ia : Bool)
  | immediate (value : Core.Expression) (indirect : Bool)
  deriving DecidableEq, Repr

/-- The instruction nodes the Mocha grammar builds.  `binaryOp` and
`immediateOp` are the results of the constructor calls
`binaryOp(opcode, operand, reg, reversed, longwords)` and
`immediateOp(op, dst, value, longwords)`; the others are the struct literals
of the source, a missing `target` / `linkWord` being nil (`none`). -/
inductive Instr
  | binaryOp (opcode : Nat) (operand : Operand) (reg : Nat) (reversed longwords : Bool)
  | immediateOp (opcode : Nat) (dst : Operand) (value : Core.Expression) (longwords : Bool)
  | bitTwiddlerOp (opcode : Nat) (longwords : Bool) (dst : Operand) (bit : Core.Expression)
  | unaryOp (opcode : Nat) (dst : Operand)
  | regOp (opcode : Nat) (reg : Nat) (linkWord : Option Core.Expression)
  | nullaryOp (opcode : Nat)
  | unaryBranchOp (opcode : Nat) (longwords : Bool) (dst : Operand)
      (target : Option Core.Expression)
  | binaryBranchOp (opcode : Nat) (longwords : Bool) (left right : Operand)
      (target : Option Core.Expression)
  | setOp (longwords : Bool) (src dst : Operand)
  | leaOp (reg : Nat) (src : Operand)
  deriving DecidableEq, Repr

end Mocha

/-! ## `psec`: the combinator substrate -/

namespace Psec

/-- How a parser or an action fails: `noMatch` is a grammar failure of the
combinators themselves, `failed msg` is the `error` an action returns
(`fmt.Errorf`), and `panic` is a Go run-time panic (a failed type assertion,
an index out of range, a nil dereference). -/
inductive Err
  | noMatch
  | failed (msg : String)
  | panic
  deriving DecidableEq, Repr

/-- The Go `interface{}` values that flow through the grammars. -/
inductive Val
  | nil
  | byte (c : Char)
  | str (s : String)
  | bool (b : Bool)
  | uint16 (n : Nat)
  | list (vs : List Val)
  | operator (o : Core.Operator)
  | expr (e : Core.Expression)
  | directive (d : Core.Directive)
  | arg (a : Dcpu.Arg)
  | dcpuInstr (i : Dcpu.Instr)
  | operand (o : Mocha.Operand)
  | mochaInstr (i : Mocha.Instr)

/-- The outcome of running a parser: failure, or a value and the rest of the input. -/
abbrev Result := Except Err (Val × List Char)

/-- A parser consumes a front part of the input (a list of bytes). -/
abbrev Parser := List Char → Result

/-- A semantic action (the location argument carries no value and is left out). -/
abbrev Action := Val → Except Err Val

/-- The type assertion `r.([]interface{})`. -/
def Val.asList : Val → Except Err (List Val)
  | .list vs => .ok vs
  | _ => .error .panic

/-- The type assertion `r.(string)`. -/
def Val.asString : Val → Except Err String
  | .str s => .ok s
  | _ => .error .panic

/-- The type assertion `r.(bool)`. -/
def Val.asBool : Val → Except Err Bool
  | .bool b => .ok b
  | _ => .error .panic

/-- The type assertion `r.(byte)`. -/
def Val.asByte : Val → Except Err Char
  | .byte c => .ok c
  | _ => .error .panic

/-- The type assertion `r.(uint16)`. -/
def Val.asUint16 : Val → Except Err Nat
  | .uint16 n => .ok n
  | _ => .error .panic

/-- The type assertion `r.(core.Expression)`. -/
def Val.asExpr : Val → Except Err Core.Expression
  | .expr e => .ok e
  | _ => .error .panic

/-- The type assertion `r.(core.Operator)`. -/
def Val.asOperator : Val → Except Err Core.Operator
  | .operator o => .ok o
  | _ => .error .panic

/-- The type assertion `r.(operand)` of the Mocha grammar. -/
def Val.asOperand : Val → Except Err Mocha.Operand
  | .operand o => .ok o
  | _ => .error .panic

/-- The type assertion `r.(*arg)` of the DCPU grammar. -/
def Val.asArg : Val → Except Err Dcpu.Arg
  | .arg a => .ok a
  | _ => .error .panic

/-- The test `s, ok := v.(string); ok && s == lit`. -/
def Val.isStr (v : Val) (lit : String) : Bool :=
  match v with
  | .str s => s = lit
  | _ => false

/-- Slice indexing `rs[i]`; out of range panics. -/
def idx (rs : List Val) (i : Nat) : Except Err Val :=
  match rs.get? i with
  | some v => .ok v
  | none => .error .panic

/-- ASCII lower-casing of one byte. -/
def lower (c : Char) : Char := c.toLower

/-- Strip the literal `pat` from the front of the input, comparing bytes
exactly or, with `fold`, up to ASCII letter case. -/
def stripLit (fold : Bool) : List Char → List Char → Option (List Char)
  | [], inp => some inp
  | _ :: _, [] => none
  | c :: cs, d :: ds =>
    if (if fold then lower c = lower d else c = d) then stripLit fold cs ds else none

/-- Modelled from the spec: `psec.Literal(s)`, the literal match of the
combinator substrate (an external library); it yields the string `s`. -/
def Literal (s : String) : Parser := fun inp =>
  match stripLit false s.data inp with
  | some rest => .ok (.str s, rest)
  | none => .error .noMatch

/-- Modelled from the spec: `psec.LiteralIC(s)`, the case-insensitive literal
match of the combinator substrate; it yields the literal `s` as the grammar
spells it, whatever the letter case of the input. -/
def LiteralIC (s : String) : Parser := fun inp =>
  match stripLit true s.data inp with
  | some rest => .ok (.str s, rest)
  | none => .error .noMatch

/-- Modelled from the spec: `psec.OneOf(chars)`, the character-class match; it
yields the matched byte. -/
def OneOf (chars : String) : Parser
  | [] => .error .noMatch
  | c :: rest => if c ∈ chars.data then .ok (.byte c, rest) else .error .noMatch

/-- Run the parsers one after the other and collect their values. -/
def seqList : List Parser → List Char → Except Err (List Val × List Char)
  | [], inp => .ok ([], inp)
  | p :: ps, inp =>
    match p inp with
    | .error e => .error e
    | .ok (v, rest) =>
      match seqList ps rest with
      | .error e => .error e
      | .ok (vs, rest') => .ok (v :: vs, rest')

/-- Modelled from the spec: `psec.Seq(ps...)`, sequencing; it yields the slice
of the parts' values and fails, consuming nothing, as soon as a part fails. -/
def Seq (ps : List Parser) : Parser := fun inp =>
  match seqList ps inp with
  | .error e => .error e
  | .ok (vs, rest) => .ok (.list vs, rest)

/-- Modelled from the spec: `psec.SeqAt(i, ps...)`, sequencing that yields the
value of part `i` only. -/
def SeqAt (i : Nat) (ps : List Parser) : Parser := fun inp =>
  match seqList ps inp with
  | .error e => .error e
  | .ok (vs, rest) =>
    match vs.get? i with
    | some v => .ok (v, rest)
    | none => .error .panic

/-- Modelled from the spec: `psec.Alt(ps...)`, ordered alternation with
backtracking: the first alternative that succeeds wins; a panic is not
caught. -/
def Alt : List Parser → Parser
  | [], _ => .error .noMatch
  | p :: ps, inp =>
    match p inp with
    | .ok r => .ok r
    | .error .panic => .error .panic
    | .error _ => Alt ps inp

/-- Modelled from the spec: `psec.Optional(p)`; when `p` fails it succeeds
with nil and consumes nothing. -/
def Optional (p : Parser) : Parser := fun inp =>
  match p inp with
  | .ok r => .ok r
  | .error .panic => .error .panic
  | .error _ => .ok (.nil, inp)

/-- The tail of a separated list: as many `sep p` pairs as match. -/
def sepByTail (p sep : Parser) : Nat → List Char → Except Err (List Val × List Char)
  | 0, inp => .ok ([], inp)
  | fuel + 1, inp =>
    match sep inp with
    | .error .panic => .error .panic
    | .error _ => .ok ([], inp)
    | .ok (_, rest) =>
      match p rest with
      | .error .panic => .error .panic
      | .error _ => .ok ([], inp)
      | .ok (v, rest') =>
        match sepByTail p sep fuel rest' with
        | .error e => .error e
        | .ok (vs, rest'') => .ok (v :: vs, rest'')

/-- Modelled from the spec: `psec.SepBy(p, sep)`, the separated list; it
yields the slice of the elements' values. -/
def SepBy (p sep : Parser) : Parser := fun inp =>
  match p inp with
  | .error .panic => .error .panic
  | .error _ => .ok (.list [], inp)
  | .ok (v, rest) =>
    match sepByTail p sep rest.length rest with
    | .error e => .error e
    | .ok (vs, rest') => .ok (.list (v :: vs), rest')

/-- Modelled from the spec: `g.WithAction(name, p, action)`, semantic-action
attachment: the action runs on the value `p` yields, and its error fails the
symbol. -/
def WithAction (p : Parser) (action : Action) : Parser := fun inp =>
  match p inp with
  | .error e => .error e
  | .ok (v, rest) =>
    match action v with
    | .error e => .error e
    | .ok w => .ok (w, rest)

/-- The Go map read `m[k]`: the zero value for a missing key. -/
def mapGet (m : String → Option Nat) (k : String) : Nat := (m k).getD 0

end Psec

/-! ## `core`: the shared lexical grammar and the directives -/

namespace Core

open Psec

/-- Modelled from the spec: the shared lexical grammar that
`core.AddBasicParsers` installs (its source is not among the files): the
whitespace symbols `ws`, `ws1` (mandatory width) and `wsline` (inline), and
the symbols `expr`, `identifier`, `string` and `unaryOp` with the Go type of
the value each yields (no action looks at the value of a whitespace symbol,
which is left out).  It is a parameter of every grammar below. -/
structure Lex where
  ws : List Char → Except Err (List Char)
  ws1 : List Char → Except Err (List Char)
  wsline : List Char → Except Err (List Char)
  expr : List Char → Except Err (Expression × List Char)
  identifier : List Char → Except Err (String × List Char)
  string : List Char → Except Err (String × List Char)
  unaryOp : List Char → Except Err (Operator × List Char)

/-- The symbol `ws` as a parser of `interface{}` values. -/
def Lex.wsP (L : Lex) : Parser := fun inp =>
  match L.ws inp with
  | .error e => .error e
  | .ok rest => .ok (.nil, rest)

/-- The symbol `ws1` as a parser of `interface{}` values. -/
def Lex.ws1P (L : Lex) : Parser := fun inp =>
  match L.ws1 inp with
  | .error e => .error e
  | .ok rest => .ok (.nil, rest)

/-- The symbol `wsline` as a parser of `interface{}` values. -/
def Lex.wslineP (L : Lex) : Parser := fun inp =>
  match L.wsline inp with
  | .error e => .error e
  | .ok rest => .ok (.nil, rest)

/-- The symbol `expr` as a parser of `interface{}` values. -/
def Lex.exprP (L : Lex) : Parser := fun inp =>
  match L.expr inp with
  | .error e => .error e
  | .ok (e, rest) => .ok (.expr e, rest)

/-- The symbol `identifier` as a parser of `interface{}` values. -/
def Lex.identifierP (L : Lex) : Parser := fun inp =>
  match L.identifier inp with
  | .error e => .error e
  | .ok (s, rest) => .ok (.str s, rest)

/-- The symbol `string` as a parser of `interface{}` values. -/
def Lex.stringP (L : Lex) : Parser := fun inp =>
  match L.string inp with
  | .error e => .error e
  | .ok (s, rest) => .ok (.str s, rest)

/-- The symbol `unaryOp` as a parser of `interface{}` values. -/
def Lex.unaryOpP (L : Lex) : Parser := fun inp =>
  match L.unaryOp inp with
  | .error e => .error e
  | .ok (o, rest) => .ok (.operator o, rest)

/-- Action of `dir:org`: `&Org{Abs: r.(Expression)}`. -/
def dirOrgAction : Action := fun r => do
  let e ← r.asExpr
  pure (.directive (.Org e))

/-- Symbol `dir:org`. -/
def dirOrg (L : Lex) : Parser :=
  WithAction (SeqAt 2 [LiteralIC "org", L.ws1P, L.exprP]) dirOrgAction

/-- Action of `dir:fill`: value, then length. -/
def dirFillAction : Action := fun r => do
  let rs ← r.asList
  let value ← (← idx rs 2).asExpr
  let length ← (← idx rs 6).asExpr
  pure (.directive (.FillBlock value length))

/-- Symbol `dir:fill`. -/
def dirFill (L : Lex) : Parser :=
  WithAction (Seq [LiteralIC "fill", L.ws1P, L.exprP, L.wsP, Literal ",", L.wsP, L.exprP])
    dirFillAction

/-- Action of `dir:reserve`: just the length, the value is `&Constant{Value: 0}`. -/
def dirReserveAction : Action := fun r => do
  let length ← r.asExpr
  pure (.directive (.FillBlock (.Constant 0) length))

/-- Symbol `dir:reserve`. -/
def dirReserve (L : Lex) : Parser :=
  WithAction (SeqAt 2 [LiteralIC "reserve", L.ws1P, L.exprP]) dirReserveAction

/-- Action of `dir:symbol`: `DefineSymbol(rs[2].(string), rs[6].(Expression))`. -/
def dirSymbolAction : Action := fun r => do
  let rs ← r.asList
  let name ← (← idx rs 2).asString
  let value ← (← idx rs 6).asExpr
  pure (.directive (.DefineSymbol name value))

/-- Symbol `dir:symbol`. -/
def dirSymbol (L : Lex) : Parser :=
  WithAction
    (Seq [Alt [LiteralIC "symbol", LiteralIC "sym", LiteralIC "equ",
            LiteralIC "set", LiteralIC "define", LiteralIC "def"],
          L.ws1P, L.identifierP, L.wsP, Literal ",", L.wsP, L.exprP])
    dirSymbolAction

/-- The Go loop `for _, b := range s`: ranging over a string yields its
code points (runes), not its bytes; a Go string is embedded as the text it
encodes. -/
def rangeString (s : String) : List Nat := s.data.map Char.toNat

/-- The number of bytes of a Go string, `len(s)`. -/
def goLen (s : String) : Nat := s.utf8ByteSize

/-- The first byte of the UTF-8 encoding of a code point. -/
def utf8FirstByte (c : Char) : Nat :=
  if c.toNat < 0x80 then c.toNat
  else if c.toNat < 0x800 then 0xC0 + c.toNat / 0x40
  else if c.toNat < 0x10000 then 0xE0 + c.toNat / 0x1000
  else 0xF0 + c.toNat / 0x40000

/-- The Go index expression `s[0]`: the first byte of the string; on the empty
string the index is out of range and the program panics. -/
def byte0 (s : String) : Except Err Nat :=
  match s.data with
  | [] => .error .panic
  | c :: _ => .ok (utf8FirstByte c)

/-- Go `unicode.ToLower` (standard library), as far as a comparison with ASCII
text can tell: ASCII capitals get their small letter, and the two code points
outside ASCII whose lower case is an ASCII letter get it (U+0130 gives `i`,
U+212A gives `k`); every other code point outside ASCII has its lower case
outside ASCII and is left as it is. -/
def unicodeToLower (c : Char) : Char :=
  if c = Char.ofNat 0x130 then 'i'
  else if c = Char.ofNat 0x212A then 'k'
  else c.toLower

/-- Go `strings.ToLower`: every code point through `unicode.ToLower`. -/
def ToLower (s : String) : String := String.mk (s.data.map unicodeToLower)

/-- The package-level state of `core` that the grammar builders touch: the
variable `core.ReservedWords` (nil is `none`) and, for each call of
`core.AddBasicParsers` so far, the value the variable had at that call. -/
structure Globals where
  ReservedWords : Option (String → Except Err Bool) := none
  basicParsersBuilt : List (Option (String → Except Err Bool)) := []

/-- Modelled from the spec: `core.AddBasicParsers(g)` (source not among the
files) adds the shared lexical grammar to the grammar; it reads
`core.ReservedWords` and never assigns it.  Of the call its moment is kept:
the value of the variable when the call is made. -/
def AddBasicParsers (G : Globals) : Globals :=
  { G with basicParsersBuilt := G.basicParsersBuilt ++ [G.ReservedWords] }

/-- One round of the outer loop of the `dir:dat` action: an Expression is
appended as it is, a string appends one Constant per element of its range
loop, any other value appends nothing. -/
def datStep (values : List Expression) (value : Val) : List Expression :=
  match value with
  | .expr e => values ++ [e]
  | .str s => (rangeString s).foldl (fun vs b => vs ++ [Expression.Constant (uint32 b)]) values
  | _ => values

/-- What one element of a `dat` list stands for, in the words of the spec: an
expression expands to itself, a string to one Constant per character code, in
left-to-right order (and a value that is neither contributes nothing). -/
def datExpansion : Val → List Expression
  | .expr e => [e]
  | .str s => s.data.map (fun ch => Expression.Constant ch.toNat)
  | _ => []

/-- Action of `dir:dat`. -/
def dirDatAction : Action := fun r => do
  let rs ← r.asList
  pure (.directive (.DatBlock (rs.foldl datStep [])))

/-- Symbol `dir:dat`. -/
def dirDat (L : Lex) : Parser :=
  WithAction
    (SeqAt 2 [LiteralIC "dat", L.ws1P,
      SepBy (Alt [L.stringP, L.exprP]) (Seq [L.wsP, Literal ",", L.wsP])])
    dirDatAction

end Core

/-! ## `dcpu`: the DCPU grammar -/

namespace Dcpu

open Psec Core

/-- The map `regNumbers` from register letters to register numbers. -/
def regNumbersTable : List (Char × Nat) :=
  [('A', 0), ('B', 1), ('C', 2), ('X', 3), ('Y', 4), ('Z', 5), ('I', 6), ('J', 7),
   ('a', 0), ('b', 1), ('c', 2), ('x', 3), ('y', 4), ('z', 5), ('i', 6), ('j', 7)]

/-- The map read `regNumbers[b]`. -/
def regNumbers (b : Char) : Nat := (regNumbersTable.lookup b).getD 0

/-- The slice `keywords`. -/
def keywords : List String := ["push", "pop", "peek", "pick", "pc", "ex", "sp"]

/-- The single-letter register names of the DCPU, in lower case. -/
def registerLetters : List String := ["a", "b", "c", "x", "y", "z", "i", "j"]

/-- Every code point of the string is ASCII. -/
def IsAscii (s : String) : Prop := ∀ c ∈ s.data, c.toNat < 128

instance (s : String) : Decidable (IsAscii s) := by
  unfold IsAscii
  infer_instance

/-- The function `reservedWords`: the byte `lc[0]` is read, once for each
letter of `"abcxyzij"`, only when `len(s) == 1`. -/
def reservedWords (s : String) : Except Err Bool :=
  let lc := ToLower s
  if goLen s = 1 then
    match byte0 lc with
    | .error e => .error e
    | .ok b0 =>
      if "abcxyzij".data.any (fun b => b0 = b.toNat) then .ok true
      else .ok (keywords.any (fun res => lc = res))
  else .ok (keywords.any (fun res => lc = res))

/-- The function `buildDcpuParser`, as what it does to the package-level state
of `core`: the call `core.AddBasicParsers(g)`, then the assignment
`core.ReservedWords = reservedWords`.  (The symbols the later calls add to the
grammar are the definitions below; they assign no package variable.) -/
def buildDcpuParser (G : Globals) : Globals :=
  let G := AddBasicParsers G
  { G with ReservedWords := some reservedWords }

/-- Action of `reg`: `&arg{reg: regNumbers[r.(byte)]}`. -/
def regAction : Action := fun r => do
  let b ← r.asByte
  pure (.arg { reg := regNumbers b })

/-- Symbol `reg`. -/
def reg : Parser := WithAction (OneOf "ABCXYZIJabcxyzij") regAction

/-- Action of `[reg]`. -/
def bracketRegAction : Action := fun r => do
  let a ← r.asArg
  pure (.arg { a with indirect := true })

/-- Symbol `[reg]`. -/
def bracketReg (L : Lex) : Parser :=
  WithAction (SeqAt 2 [Literal "[", L.wsP, reg, L.wsP, Literal "]"]) bracketRegAction

/-- Symbol `sp`. -/
def sp : Parser := WithAction (LiteralIC "sp") (fun _ => .ok (.arg { special := 0x1b }))

/-- Symbol `pc`. -/
def pc : Parser := WithAction (LiteralIC "pc") (fun _ => .ok (.arg { special := 0x1c }))

/-- Symbol `ex`. -/
def ex : Parser := WithAction (LiteralIC "ex") (fun _ => .ok (.arg { special := 0x1d }))

/-- Symbol `peek`. -/
def peek : Parser :=
  WithAction (Alt [LiteralIC "peek", LiteralIC "[sp]"]) (fun _ => .ok (.arg { special := 0x19 }))

/-- Symbol `pushPop`. -/
def pushPop : Parser :=
  WithAction (Alt [LiteralIC "push", LiteralIC "pop", LiteralIC "[--sp]", LiteralIC "[sp++]"])
    (fun _ => .ok (.arg { special := 0x18 }))

/-- Symbol `specialArgs`. -/
def specialArgs : Parser := Alt [sp, pc, ex, pushPop, peek]

/-- The base of `[reg+index]`: the `*arg` of a register, a fresh
`&arg{special: 0x1a}` for the string `sp` in any letter case, and otherwise the
nil pointer the variable `a` starts as. -/
def regIndexBase : Val → Option Arg
  | .arg a => some a
  | .str s => if ToLower s = "sp" then some { special := 0x1a } else none
  | _ => none

/-- Action of `[reg+index]`; reading a field of the nil base panics. -/
def regIndexAction : Action := fun r => do
  let rs ← r.asList
  let a := regIndexBase (← idx rs 2)
  let op ← (← idx rs 4).asOperator
  let index ← (← idx rs 6).asExpr
  if op = .NOT then
    .error (.failed "expected + or -, or ], not ~")
  else
    let index := if op = .MINUS then Unary .MINUS index else index
    match a with
    | none => .error .panic
    | some a =>
      pure (.arg { reg := a.reg, special := a.special, indirect := true, offset := some index })

/-- Symbol `[reg+index]`. -/
def regIndex (L : Lex) : Parser :=
  WithAction
    (Psec.Seq [Literal "[", L.wsP, Alt [reg, LiteralIC "sp"], L.wsP, L.unaryOpP, L.wsP,
      L.exprP, L.wsP, Literal "]"])
    regIndexAction

/-- Action of `pick`. -/
def pickAction : Action := fun r => do
  let e ← r.asExpr
  pure (.arg { special := 0x1a, offset := some e })

/-- Symbol `pick`. -/
def pick (L : Lex) : Parser :=
  WithAction (SeqAt 2 [LiteralIC "pick", L.ws1P, L.exprP]) pickAction

/-- Action of `[lit]`. -/
def bracketLitAction : Action := fun r => do
  let e ← r.asExpr
  pure (.arg { special := 0x1e, indirect := true, offset := some e })

/-- Symbol `[lit]`. -/
def bracketLit (L : Lex) : Parser :=
  WithAction (SeqAt 2 [Literal "[", L.wsP, L.exprP, L.wsP, Literal "]"]) bracketLitAction

/-- Action of `lit arg`. -/
def litArgAction : Action := fun r => do
  let e ← r.asExpr
  pure (.arg { special := 0x1f, offset := some e })

/-- Symbol `lit arg`. -/
def litArg (L : Lex) : Parser := WithAction L.exprP litArgAction

/-- Symbol `arg`. -/
def arg (L : Lex) : Parser :=
  Alt [litArg L, pick L, specialArgs, bracketLit L, reg, bracketReg L, regIndex L]

/-- The map `binaryOpcodes`, as the list of its entries. -/
def binaryOpcodesTable : List (String × Nat) :=
  [("set", 1), ("add", 2), ("sub", 3), ("mul", 4), ("mli", 5), ("div", 6), ("dvi", 7),
   ("mod", 8), ("mdi", 9), ("and", 10), ("bor", 11), ("xor", 12), ("shr", 13),
   ("asr", 14), ("shl", 15), ("ifb", 16), ("ifc", 17), ("ife", 18), ("ifn", 19),
   ("ifg", 20), ("ifa", 21), ("ifl", 22), ("ifu", 23), ("adx", 0x1a), ("sbx", 0x1b),
   ("sti", 0x1e), ("std", 0x1f)]

/-- The map `binaryOpcodes`. -/
def binaryOpcodes (k : String) : Option Nat := binaryOpcodesTable.lookup k

/-- The map `unaryOpcodes`, as the list of its entries. -/
def unaryOpcodesTable : List (String × Nat) :=
  [("jsr", 1), ("int", 8), ("iag", 9), ("ias", 10), ("rfi", 11), ("iaq", 12),
   ("hwn", 16), ("hwq", 17), ("hwi", 18), ("log", 19), ("brk", 20), ("hlt", 21)]

/-- The map `unaryOpcodes`. -/
def unaryOpcodes (k : String) : Option Nat := unaryOpcodesTable.lookup k

/-- Action of `binary opcode`: `binaryOpcodes[r.(string)]`. -/
def binaryOpcodeAction : Action := fun r => do
  let s ← r.asString
  pure (.uint16 (mapGet binaryOpcodes s))

/-- Symbol `binary opcode`: the alternation of `litIC(op)` over the keys of
`binaryOpcodes`, in the order `order` in which the `range` loop over the map
delivers them (Go leaves that order unspecified). -/
def binaryOpcode (order : List String) : Parser :=
  WithAction (Alt (order.map LiteralIC)) binaryOpcodeAction

/-- Action of `unary opcode`: `unaryOpcodes[r.(string)]`. -/
def unaryOpcodeAction : Action := fun r => do
  let s ← r.asString
  pure (.uint16 (mapGet unaryOpcodes s))

/-- Symbol `unary opcode`, over the keys of `unaryOpcodes` in the order of
the `range` loop. -/
def unaryOpcode (order : List String) : Parser :=
  WithAction (Alt (order.map LiteralIC)) unaryOpcodeAction

/-- Action of `binary instruction`. -/
def binaryInstructionAction : Action := fun r => do
  let rs ← r.asList
  let op ← (← idx rs 0).asUint16
  let b ← (← idx rs 2).asArg
  let a ← (← idx rs 6).asArg
  pure (.dcpuInstr (.binaryOp op b a))

/-- Symbol `binary instruction`. -/
def binaryInstruction (L : Lex) (order : List String) : Parser :=
  WithAction
    (Psec.Seq [binaryOpcode order, L.ws1P, arg L, L.wsP, Literal ",", L.wsP, arg L])
    binaryInstructionAction

/-- Action of `unary instruction`. -/
def unaryInstructionAction : Action := fun r => do
  let rs ← r.asList
  let op ← (← idx rs 0).asUint16
  let a ← (← idx rs 2).asArg
  pure (.dcpuInstr (.unaryOp op a))

/-- Symbol `unary instruction`. -/
def unaryInstruction (L : Lex) (order : List String) : Parser :=
  WithAction (Psec.Seq [unaryOpcode order, L.ws1P, arg L]) unaryInstructionAction

/-- An order in which a `range` loop can deliver the keys of a map: every key
once. -/
def IsKeyOrder (table : List (String × Nat)) (order : List String) : Prop :=
  order.Perm (table.map Prod.fst)

end Dcpu

/-! ## `mocha`: the Mocha grammar -/

namespace Mocha

open Psec Core

/-- The helper `alts(names...)`: the alternation of `litIC(s)` over the names. -/
def alts (names : List String) : Parser := Alt (names.map LiteralIC)

/-- The map `regNumbers` from register letters to register numbers. -/
def regNumbersTable : List (Char × Nat) :=
  [('A', 0), ('B', 1), ('C', 2), ('X', 3), ('Y', 4), ('Z', 5), ('I', 6), ('J', 7),
   ('a', 0), ('b', 1), ('c', 2), ('x', 3), ('y', 4), ('z', 5), ('i', 6), ('j', 7)]

/-- The map read `regNumbers[b]`. -/
def regNumbers (b : Char) : Nat := (regNumbersTable.lookup b).getD 0

/-- The declarations of package `mocha` the parser uses whose source is not
among the files: the opcode maps (a missing key is `none`) and the operand
method `ErrLabel`.  They are parameters of the grammar. -/
structure Decls where
  binaryOpcodes : String → Option Nat
  immediateOpcodes : String → Option Nat
  bitTwiddlerOpcodes : String → Option Nat
  unaryOpcodes : String → Option Nat
  regOpcodes : String → Option Nat
  nullaryOpcodes : String → Option Nat
  unaryBranchOpcodes : String → Option Nat
  binaryBranchOpcodes : String → Option Nat
  ErrLabel : Operand → String

/-- Modelled from the spec: `regDirect(n)`, the constructor of a bare direct
register operand (a `*regSimple`; declaration not among the sources). -/
def regDirect (n : Nat) : Operand := .regSimple n .rmDirect

/-- Modelled from the spec: `isDirectReg(op)`, true exactly of a bare direct
register (declaration not among the sources). -/
def isDirectReg : Operand → Bool
  | .regSimple _ .rmDirect => true
  | _ => false

/-- Modelled from the spec: the operand method `HasEffectiveAddress`
(declaration not among the sources): "false only for bare Immediate and for
push/pop/peek pseudo-operands". -/
def HasEffectiveAddress : Operand → Bool
  | .immediate _ false => false
  | .spRel _ none => false
  | _ => true

/-- The type assertion `op.(*regSimple).reg`. -/
def regOf : Operand → Except Err Nat
  | .regSimple r _ => .ok r
  | _ => .error .panic

/-- The function `buildMochaParser`, as what it does to the package-level
state of `core`: the call `core.AddBasicParsers(g)`; the function assigns no
package variable.  (The symbols it adds to the grammar are the definitions
below.) -/
def buildMochaParser (G : Globals) : Globals := AddBasicParsers G

/-- Action of `gpReg`: `regDirect(regNumbers[r.(byte)])`. -/
def gpRegAction : Action := fun r => do
  let b ← r.asByte
  pure (.operand (regDirect (regNumbers b)))

/-- Symbol `gpReg`. -/
def gpReg : Parser := WithAction (OneOf "ABCXYZIJabcxyzij") gpRegAction

/-- Symbol `sp`. -/
def sp : Parser :=
  WithAction (LiteralIC "sp") (fun _ => .ok (.operand (.specialReg true false false false)))

/-- Symbol `pc`. -/
def pc : Parser :=
  WithAction (LiteralIC "pc") (fun _ => .ok (.operand (.specialReg false true false false)))

/-- Symbol `ex`. -/
def ex : Parser :=
  WithAction (LiteralIC "ex") (fun _ => .ok (.operand (.specialReg false false true false)))

/-- Symbol `ia`. -/
def ia : Parser :=
  WithAction (LiteralIC "ia") (fun _ => .ok (.operand (.specialReg false false false true)))

/-- Symbol `comma`. -/
def comma (L : Lex) : Parser := Seq [L.wslineP, Literal ",", L.wslineP]

/-- Action of `suffix`: a string is the size (`size == ".l"`), anything else
is the missing suffix (the call of the hook `core.AsmError` leaves the result
as it is). -/
def suffixAction : Action := fun r =>
  match r with
  | .str size => .ok (.bool (size = ".l"))
  | _ => .error (.failed "size suffix required")

/-- The calls of the hook `core.AsmError(loc, msg)` that the action of `suffix`
makes at the location `loc`, in order. -/
def suffixAsmErrors {Loc : Type} (r : Val) (loc : Loc) : List (Loc × String) :=
  match r with
  | .str _ => []
  | _ => [(loc, "size suffix required")]

/-- Symbol `suffix`. -/
def suffix : Parser :=
  WithAction (Optional (Alt [LiteralIC ".l", LiteralIC ".w"])) suffixAction

/-- Symbol `am push/pop`. -/
def amPushPop : Parser :=
  WithAction (Alt [LiteralIC "push", LiteralIC "pop", LiteralIC "-[SP]", LiteralIC "[SP]+"])
    (fun _ => .ok (.operand (.spRel true none)))

/-- Symbol `am peek`. -/
def amPeek : Parser :=
  WithAction (Alt [LiteralIC "peek", LiteralIC "[sp]"])
    (fun _ => .ok (.operand (.spRel false none)))

/-- Symbol `am special reg`. -/
def amSpecialReg : Parser := Alt [pc, sp, ia, ex]

/-- Action of the offset symbol (named plus, slash, minus, `offset` in the grammar). -/
def offsetAction : Action := fun r => do
  let rs ← r.asList
  let expr ← (← idx rs 2).asExpr
  let sign ← (← idx rs 0).asByte
  if sign = '-' then pure (.expr (Unary .MINUS expr)) else pure (.expr expr)

/-- The offset symbol (named plus, slash, minus, `offset` in the grammar): a sign,
inline whitespace, an expression. -/
def offset (L : Lex) : Parser :=
  WithAction (Seq [OneOf "+-", L.wslineP, L.exprP]) offsetAction

/-- Action of `am pc-rel`: either an Expression or a `*regSimple`. -/
def amPcRelAction : Action := fun r =>
  match r with
  | .expr e => .ok (.operand (.pcRel 0 (some e)))
  | .operand (.regSimple reg _) => .ok (.operand (.pcRel reg none))
  | _ => .error (.failed "can't happen: pc-rel type mismatch")

/-- Symbol `am pc-rel`. -/
def amPcRel (L : Lex) : Parser :=
  WithAction
    (SeqAt 3 [Literal "[", L.wslineP, LiteralIC "pc",
      Alt [SeqAt 1 [comma L, gpReg], offset L], L.wslineP, Literal "]"])
    amPcRelAction

/-- Action of `am sp-rel`. -/
def amSpRelAction : Action := fun r => do
  let e ← r.asExpr
  pure (.operand (.spRel false (some e)))

/-- Symbol `am sp-rel`. -/
def amSpRel (L : Lex) : Parser :=
  WithAction
    (SeqAt 4 [Literal "[", L.wslineP, LiteralIC "sp", L.wslineP, offset L, L.wslineP,
      Literal "]"])
    amSpRelAction

/-- Action of `am reg indirect`: the index is nil, an Expression (offset) or a
`*regSimple`. -/
def amRegIndirectAction : Action := fun r => do
  let rs ← r.asList
  let base ← regOf (← (← idx rs 2).asOperand)
  match ← idx rs 4 with
  | .expr e => pure (.operand (.regOffset base e))
  | .operand (.regSimple index _) => pure (.operand (.regIndexed base index))
  | _ => pure (.operand (.regSimple base .rmIndirect))

/-- Symbol `am reg indirect`. -/
def amRegIndirect (L : Lex) : Parser :=
  WithAction
    (Seq [Literal "[", L.wslineP, gpReg, L.wslineP,
      Optional (Alt [offset L, SeqAt 1 [comma L, gpReg]]), L.wslineP, Literal "]"])
    amRegIndirectAction

/-- Action of `just reg indirect`. -/
def justRegIndirectAction : Action := fun r => do
  let reg ← regOf (← r.asOperand)
  pure (.operand (.regSimple reg .rmIndirect))

/-- Symbol `just reg indirect`. -/
def justRegIndirect (L : Lex) : Parser :=
  WithAction (SeqAt 2 [Literal "[", L.wslineP, gpReg, L.wslineP, Literal "]"])
    justRegIndirectAction

/-- Action of `am reg increment`. -/
def amRegIncrementAction : Action := fun r => do
  let rs ← r.asList
  let base ← regOf (← (← idx rs 1).asOperand)
  if (← idx rs 0).isStr "-" then pure (.operand (.regSimple base .rmPredecrement))
  else if (← idx rs 2).isStr "+" then pure (.operand (.regSimple base .rmPostincrement))
  else pure (.operand (.regSimple base .rmIndirect))

/-- Symbol `am reg increment`. -/
def amRegIncrement (L : Lex) : Parser :=
  WithAction
    (Seq [Optional (SeqAt 0 [Literal "-", L.wslineP]), justRegIndirect L,
      Optional (SeqAt 1 [L.wslineP, Literal "+"])])
    amRegIncrementAction

/-- Action of `am lit indirect`. -/
def amLitIndirectAction : Action := fun r => do
  let e ← r.asExpr
  pure (.operand (.immediate e true))

/-- Symbol `am lit indirect`. -/
def amLitIndirect (L : Lex) : Parser :=
  WithAction (SeqAt 2 [Literal "[", L.wslineP, L.exprP, L.wslineP, Literal "]"])
    amLitIndirectAction

/-- Action of `am lit`. -/
def amLitAction : Action := fun r => do
  let e ← r.asExpr
  pure (.operand (.immediate e false))

/-- Symbol `am lit`. -/
def amLit (L : Lex) : Parser := WithAction L.exprP amLitAction

/-- Symbol `operand`. -/
def operand (L : Lex) : Parser :=
  Alt [amPushPop, amPeek, amSpecialReg, amPcRel L, amSpRel L, gpReg, amRegIncrement L,
    amRegIndirect L, amLitIndirect L, amLit L]

/-- Symbol `binary opcodes`. -/
def binaryOpcodesSym : Parser :=
  Alt [LiteralIC "add", LiteralIC "adx", LiteralIC "sub", LiteralIC "sbx", LiteralIC "mul",
    LiteralIC "mli", LiteralIC "div", LiteralIC "dvi", LiteralIC "and", LiteralIC "bor",
    LiteralIC "xor", LiteralIC "shr", LiteralIC "shl", LiteralIC "asr"]

/-- The text of the error of the `binary instruction` action:
`"cannot assemble %s %s, %s, one argument must be a register"`. -/
def oneRegisterMsg (D : Decls) (opcode : String) (dst src : Operand) : String :=
  "cannot assemble " ++ opcode ++ " " ++ D.ErrLabel dst ++ ", " ++ D.ErrLabel src ++
    ", one argument must be a register"

/-- Action of `binary instruction`. -/
def binaryInstructionAction (D : Decls) : Action := fun r => do
  let rs ← r.asList
  let opcode ← (← idx rs 0).asString
  let longwords ← (← idx rs 1).asBool
  let dst ← (← idx rs 3).asOperand
  let src ← (← idx rs 5).asOperand
  if isDirectReg dst then
    pure (.mochaInstr (.binaryOp (mapGet D.binaryOpcodes opcode) src (← regOf dst)
      false longwords))
  else if isDirectReg src then
    pure (.mochaInstr (.binaryOp (mapGet D.binaryOpcodes opcode) dst (← regOf src)
      true longwords))
  else
    match src, D.immediateOpcodes opcode with
    | .immediate value false, some op =>
      pure (.mochaInstr (.immediateOp op dst value longwords))
    | _, _ => .error (.failed (oneRegisterMsg D opcode dst src))

/-- Symbol `binary instruction`. -/
def binaryInstruction (L : Lex) (D : Decls) : Parser :=
  WithAction (Seq [binaryOpcodesSym, suffix, L.ws1P, operand L, comma L, operand L])
    (binaryInstructionAction D)

/-- Symbol `twiddler opcode`. -/
def twiddlerOpcode : Parser := alts ["btx", "bts", "btc", "btm"]

/-- Action of `twiddler instruction`. -/
def twiddlerInstructionAction (D : Decls) : Action := fun r => do
  let rs ← r.asList
  let op ← (← idx rs 0).asString
  let longwords ← (← idx rs 1).asBool
  let dst ← (← idx rs 3).asOperand
  let opcode := mapGet D.bitTwiddlerOpcodes op
  match ← idx rs 5 with
  | .expr e => pure (.mochaInstr (.bitTwiddlerOp opcode longwords dst e))
  | v => do
    let reg ← regOf (← v.asOperand)
    pure (.mochaInstr (.bitTwiddlerOp (opcode ||| 4) longwords dst (.Constant (uint32 reg))))

/-- Symbol `twiddler instruction`. -/
def twiddlerInstruction (L : Lex) (D : Decls) : Parser :=
  WithAction
    (Seq [twiddlerOpcode, suffix, L.ws1P, operand L, comma L, Alt [gpReg, L.exprP]])
    (twiddlerInstructionAction D)

/-- Symbol `unary basic opcodes`. -/
def unaryBasicOpcodes : Parser := alts ["swp", "pea", "ext", "int"]

/-- Symbol `unary suffixed opcodes`. -/
def unarySuffixedOpcodes : Parser := alts ["not", "neg", "jsr", "iaq", "log", "hwi"]

/-- The text `"cannot use PEA with %s; it has no address"`. -/
def peaMsg (D : Decls) (dst : Operand) : String :=
  "cannot use PEA with " ++ D.ErrLabel dst ++ "; it has no address"

/-- Action of `unary basic instruction`. -/
def unaryBasicInstructionAction (D : Decls) : Action := fun r => do
  let rs ← r.asList
  let op ← (← idx rs 0).asString
  let dst ← (← idx rs 2).asOperand
  if op = "pea" ∧ ¬ HasEffectiveAddress dst then
    .error (.failed (peaMsg D dst))
  else
    pure (.mochaInstr (.unaryOp (mapGet D.unaryOpcodes op) dst))

/-- Symbol `unary basic instruction`. -/
def unaryBasicInstruction (L : Lex) (D : Decls) : Parser :=
  WithAction (Seq [unaryBasicOpcodes, L.ws1P, operand L]) (unaryBasicInstructionAction D)

/-- Action of `unary suffixed instruction`: the L bit is mixed in. -/
def unarySuffixedInstructionAction (D : Decls) : Action := fun r => do
  let rs ← r.asList
  let opcode := mapGet D.unaryOpcodes (← (← idx rs 0).asString)
  let long ← (← idx rs 1).asBool
  let dst ← (← idx rs 3).asOperand
  pure (.mochaInstr (.unaryOp (if long then opcode ||| 1 else opcode) dst))

/-- Symbol `unary suffixed instruction`. -/
def unarySuffixedInstruction (L : Lex) (D : Decls) : Parser :=
  WithAction (Seq [unarySuffixedOpcodes, suffix, L.ws1P, operand L])
    (unarySuffixedInstructionAction D)

/-- Symbol `unary instruction`. -/
def unaryInstruction (L : Lex) (D : Decls) : Parser :=
  Alt [unaryBasicInstruction L D, unarySuffixedInstruction L D]

/-- Symbol `reg opcodes`. -/
def regOpcodesSym : Parser := alts ["ulk", "hwn", "hwq"]

/-- Action of `reg instruction 2`. -/
def regInstruction2Action (D : Decls) : Action := fun r => do
  let rs ← r.asList
  let opcode := mapGet D.regOpcodes (← (← idx rs 0).asString)
  let reg ← regOf (← (← idx rs 2).asOperand)
  pure (.mochaInstr (.regOp opcode reg none))

/-- Symbol `reg instruction 2`. -/
def regInstruction2 (L : Lex) (D : Decls) : Parser :=
  WithAction (Seq [regOpcodesSym, L.ws1P, gpReg]) (regInstruction2Action D)

/-- Action of `lnk instruction`. -/
def lnkInstructionAction (D : Decls) : Action := fun r => do
  let rs ← r.asList
  let reg ← regOf (← (← idx rs 2).asOperand)
  let expr ← (← idx rs 4).asExpr
  pure (.mochaInstr (.regOp (mapGet D.regOpcodes "lnk") reg (some expr)))

/-- Symbol `lnk instruction`. -/
def lnkInstruction (L : Lex) (D : Decls) : Parser :=
  WithAction (Seq [LiteralIC "lnk", L.ws1P, gpReg, comma L, L.exprP]) (lnkInstructionAction D)

/-- Symbol `reg instruction`. -/
def regInstruction (L : Lex) (D : Decls) : Parser :=
  Alt [lnkInstruction L D, regInstruction2 L D]

/-- Action of `nullary instruction`. -/
def nullaryInstructionAction (D : Decls) : Action := fun r => do
  let s ← r.asString
  pure (.mochaInstr (.nullaryOp (mapGet D.nullaryOpcodes s)))

/-- Symbol `nullary instruction`. -/
def nullaryInstruction (D : Decls) : Parser :=
  WithAction (alts ["nop", "rfi", "brk", "hlt", "ret"]) (nullaryInstructionAction D)

/-- The mnemonics of `unary branch opcode`, in the order of the alternation. -/
def unaryBranchNames : List String :=
  ["bzrd", "bnzd", "bngd", "bpsd", "bzr", "bnz", "bpo", "bng"]

/-- Symbol `unary branch opcode`. -/
def unaryBranchOpcode : Parser := alts unaryBranchNames

/-- Action of `unary branch instruction`. -/
def unaryBranchInstructionAction (D : Decls) : Action := fun r => do
  let rs ← r.asList
  let opcode := mapGet D.unaryBranchOpcodes (← (← idx rs 0).asString)
  let longwords ← (← idx rs 1).asBool
  let dst ← (← idx rs 3).asOperand
  let target ← (← idx rs 5).asExpr
  pure (.mochaInstr (.unaryBranchOp opcode longwords dst (some target)))

/-- Symbol `unary branch instruction`. -/
def unaryBranchInstruction (L : Lex) (D : Decls) : Parser :=
  WithAction (Seq [unaryBranchOpcode, suffix, L.ws1P, operand L, comma L, L.exprP])
    (unaryBranchInstructionAction D)

/-- The mnemonics of `unary skip opcode`, in the order of the alternation. -/
def unarySkipNames : List String :=
  ["szrd", "snzd", "sngd", "spsd", "szr", "snz", "sps", "sng"]

/-- Symbol `unary skip opcode`. -/
def unarySkipOpcode : Parser := alts unarySkipNames

/-- Action of `unary skip instruction`. -/
def unarySkipInstructionAction (D : Decls) : Action := fun r => do
  let rs ← r.asList
  let opcode := mapGet D.unaryBranchOpcodes (← (← idx rs 0).asString)
  let longwords ← (← idx rs 1).asBool
  let dst ← (← idx rs 3).asOperand
  pure (.mochaInstr (.unaryBranchOp opcode longwords dst none))

/-- Symbol `unary skip instruction`. -/
def unarySkipInstruction (L : Lex) (D : Decls) : Parser :=
  WithAction (Seq [unarySkipOpcode, suffix, L.ws1P, operand L])
    (unarySkipInstructionAction D)

/-- The mnemonics of `binary branch opcode`, in the order of the alternation. -/
def binaryBranchNames : List String :=
  ["brb", "brc", "bre", "brn", "brg", "bra", "brl", "bru"]

/-- Symbol `binary branch opcode`. -/
def binaryBranchOpcode : Parser := alts binaryBranchNames

/-- Action of `binary branch instruction`. -/
def binaryBranchInstructionAction (D : Decls) : Action := fun r => do
  let rs ← r.asList
  let opcode := mapGet D.binaryBranchOpcodes (← (← idx rs 0).asString)
  let longwords ← (← idx rs 1).asBool
  let left ← (← idx rs 3).asOperand
  let right ← (← idx rs 5).asOperand
  let target ← (← idx rs 7).asExpr
  pure (.mochaInstr (.binaryBranchOp opcode longwords left right (some target)))

/-- Symbol `binary branch instruction`. -/
def binaryBranchInstruction (L : Lex) (D : Decls) : Parser :=
  WithAction
    (Seq [binaryBranchOpcode, suffix, L.ws1P, operand L, comma L, operand L, comma L, L.exprP])
    (binaryBranchInstructionAction D)

/-- The mnemonics of `binary skip opcode`, in the order of the alternation. -/
def binarySkipNames : List String :=
  ["ifb", "ifc", "ife", "ifn", "ifg", "ifa", "ifl", "ifu"]

/-- Symbol `binary skip opcode`. -/
def binarySkipOpcode : Parser := alts binarySkipNames

/-- Action of `binary skip instruction`. -/
def binarySkipInstructionAction (D : Decls) : Action := fun r => do
  let rs ← r.asList
  let opcode := mapGet D.binaryBranchOpcodes (← (← idx rs 0).asString)
  let longwords ← (← idx rs 1).asBool
  let left ← (← idx rs 3).asOperand
  let right ← (← idx rs 5).asOperand
  pure (.mochaInstr (.binaryBranchOp opcode longwords left right none))

/-- Symbol `binary skip instruction`. -/
def binarySkipInstruction (L : Lex) (D : Decls) : Parser :=
  WithAction (Seq [binarySkipOpcode, suffix, L.ws1P, operand L, comma L, operand L])
    (binarySkipInstructionAction D)

/-- Symbol `branch instruction`. -/
def branchInstruction (L : Lex) (D : Decls) : Parser :=
  Alt [unaryBranchInstruction L D, unarySkipInstruction L D,
    binaryBranchInstruction L D, binarySkipInstruction L D]

/-- Action of `set instruction`. -/
def setInstructionAction : Action := fun r => do
  let rs ← r.asList
  let longwords ← (← idx rs 1).asBool
  let src ← (← idx rs 5).asOperand
  let dst ← (← idx rs 3).asOperand
  pure (.mochaInstr (.setOp longwords src dst))

/-- Symbol `set instruction`. -/
def setInstruction (L : Lex) : Parser :=
  WithAction (Seq [LiteralIC "set", suffix, L.ws1P, operand L, comma L, operand L])
    setInstructionAction

/-- The text `"cannot use LEA with %s; it has no address"`. -/
def leaMsg (D : Decls) (src : Operand) : String :=
  "cannot use LEA with " ++ D.ErrLabel src ++ "; it has no address"

/-- Action of `lea instruction`. -/
def leaInstructionAction (D : Decls) : Action := fun r => do
  let rs ← r.asList
  let src ← (← idx rs 4).asOperand
  if ¬ HasEffectiveAddress src then
    .error (.failed (leaMsg D src))
  else
    let reg ← regOf (← (← idx rs 2).asOperand)
    pure (.mochaInstr (.leaOp reg src))

/-- Symbol `lea instruction`. -/
def leaInstruction (L : Lex) (D : Decls) : Parser :=
  WithAction (Seq [LiteralIC "lea", L.ws1P, gpReg, comma L, operand L]) (leaInstructionAction D)

/-- Symbol `instruction`. -/
def instruction (L : Lex) (D : Decls) : Parser :=
  Alt [binaryInstruction L D, unaryInstruction L D, regInstruction L D, nullaryInstruction D,
    twiddlerInstruction L D, branchInstruction L D, setInstruction L, leaInstruction L D]

end Mocha

/-! ## Assumptions on the lexical grammar, and a concrete instance -/

namespace Psec

/-- The input does not start with the literal `s` in any letter case. -/
def NotAhead (s : String) (inp : List Char) : Prop :=
  ∀ a rest, inp = a ++ rest → ¬ a.map lower = s.data.map lower

/-- The bytes `inp` spell the literal `s` in some letter case. -/
def CaseVariant (s : String) (inp : List Char) : Prop := inp.map lower = s.data.map lower

instance (s : String) (inp : List Char) : Decidable (CaseVariant s inp) := by
  unfold CaseVariant
  infer_instance

end Psec

namespace Core

open Psec

/-- Whether the input starts with a whitespace byte. -/
def startsBlank : List Char → Bool
  | [] => false
  | c :: _ => c = ' ' || c = '\t' || c = '\n' || c = '\r'

/-- What the theorems ask of the whitespace symbols: in front of a byte that
is not whitespace (or at the end of the input) `ws` and `wsline` succeed and
consume nothing, and `ws1`, which wants at least one whitespace byte, fails. -/
structure Lex.Sane (L : Lex) : Prop where
  ws_skip : ∀ inp, startsBlank inp = false → L.ws inp = .ok inp
  wsline_skip : ∀ inp, startsBlank inp = false → L.wsline inp = .ok inp
  ws1_fail : ∀ inp, startsBlank inp = false → L.ws1 inp = .error .noMatch

/-- Whether a byte is a blank or a tab. -/
def isInline (c : Char) : Bool := c = ' ' || c = '\t'

/-- Whether a byte is whitespace. -/
def isSpace (c : Char) : Bool := c = ' ' || c = '\t' || c = '\n' || c = '\r'

/-- The value of a run of decimal digits. -/
def digitsValue (ds : List Char) : Nat := ds.foldl (fun n d => 10 * n + (d.toNat - 48)) 0

/-- A concrete lexical grammar, small enough to evaluate: whitespace is blanks,
tabs and line ends (`wsline`: blanks and tabs), an expression is an unsigned
decimal literal or a name, a string is text between double quotes, a unary
operator is one of the bytes `+`, `-`, `~`.  It instantiates the theorems
below at concrete inputs. -/
def demoLex : Lex where
  ws := fun inp => .ok (inp.dropWhile isSpace)
  wsline := fun inp => .ok (inp.dropWhile isInline)
  ws1 := fun inp =>
    match inp with
    | [] => .error .noMatch
    | c :: rest => if isSpace c then .ok (rest.dropWhile isSpace) else .error .noMatch
  expr := fun inp =>
    match inp with
    | [] => .error .noMatch
    | c :: rest =>
      if c.isDigit then
        .ok (.Constant (digitsValue (c :: rest.takeWhile Char.isDigit)),
          rest.dropWhile Char.isDigit)
      else if c.isAlpha then
        .ok (.SymbolRef (String.mk (c :: rest.takeWhile Char.isAlphanum)),
          rest.dropWhile Char.isAlphanum)
      else .error .noMatch
  identifier := fun inp =>
    match inp with
    | [] => .error .noMatch
    | c :: rest =>
      if c.isAlpha then
        .ok (String.mk (c :: rest.takeWhile Char.isAlphanum), rest.dropWhile Char.isAlphanum)
      else .error .noMatch
  string := fun inp =>
    match inp with
    | '"' :: rest =>
      match rest.dropWhile (fun c => c != '"') with
      | [] => .error .noMatch
      | _ :: rest' => .ok (String.mk (rest.takeWhile (fun c => c != '"')), rest')
    | _ => .error .noMatch
  unaryOp := fun inp =>
    match inp with
    | '+' :: rest => .ok (.PLUS, rest)
    | '-' :: rest => .ok (.MINUS, rest)
    | '~' :: rest => .ok (.NOT, rest)
    | _ => .error .noMatch

end Core

namespace Mocha

open Psec Core

/-- The bytes that `gpReg` accepts: the letters of the general-purpose
registers, `psec.OneOf("ABCXYZIJabcxyzij")`. -/
def IsGpLetter (c : Char) : Prop := c ∈ "ABCXYZIJabcxyzij".data

instance (c : Char) : Decidable (IsGpLetter c) := by
  unfold IsGpLetter
  infer_instance

/-- The mnemonics of `binary opcodes`, in the order of the alternation. -/
def binaryNames : List String :=
  ["add", "adx", "sub", "sbx", "mul", "mli", "div", "dvi", "and", "bor", "xor", "shr", "shl",
   "asr"]

/-- Modelled from the spec: the keys of the map `immediateOpcodes` (declaration
not among the sources), "the restricted subset supporting an immediate-form
encoding (ADD/SUB/AND/BOR/XOR/ADX/SBX/STI/STD)". -/
def specImmediateNames : List String :=
  ["add", "sub", "and", "bor", "xor", "adx", "sbx", "sti", "std"]

/-- The map `immediateOpcodes` has exactly the keys the spec lists. -/
def Decls.ImmediateAsSpec (D : Decls) : Prop :=
  ∀ k, (D.immediateOpcodes k).isSome = true ↔ k ∈ specImmediateNames

/-- A concrete set of the missing declarations of package `mocha`, to
instantiate the theorems at concrete inputs: every opcode map sends its
mnemonics to sample numbers, the immediate forms are those the spec lists,
and the label of an operand is a fixed word for its kind. -/
def demoDecls : Decls where
  binaryOpcodes := fun k =>
    [("add", 16), ("adx", 17), ("sub", 18), ("sbx", 19), ("mul", 20), ("mli", 21),
     ("div", 22), ("dvi", 23), ("and", 24), ("bor", 25), ("xor", 26), ("shr", 27),
     ("shl", 28), ("asr", 29)].lookup k
  immediateOpcodes := fun k =>
    if k ∈ specImmediateNames then some (32 + specImmediateNames.indexOf k) else none
  bitTwiddlerOpcodes := fun k => [("btx", 8), ("bts", 9), ("btc", 10), ("btm", 11)].lookup k
  unaryOpcodes := fun k =>
    [("swp", 2), ("pea", 4), ("ext", 6), ("int", 8), ("not", 10), ("neg", 12), ("jsr", 14),
     ("iaq", 16), ("log", 18), ("hwi", 20)].lookup k
  regOpcodes := fun k => [("lnk", 1), ("ulk", 2), ("hwn", 3), ("hwq", 4)].lookup k
  nullaryOpcodes := fun k =>
    [("nop", 0), ("rfi", 1), ("brk", 2), ("hlt", 3), ("ret", 4)].lookup k
  unaryBranchOpcodes := fun k =>
    [("bzr", 0), ("bnz", 1), ("bpo", 2), ("bng", 3), ("bzrd", 4), ("bnzd", 5), ("bpsd", 6),
     ("bngd", 7), ("szr", 8), ("snz", 9), ("sps", 10), ("sng", 11), ("szrd", 12),
     ("snzd", 13), ("spsd", 14), ("sngd", 15)].lookup k
  binaryBranchOpcodes := fun k =>
    [("brb", 0), ("brc", 1), ("bre", 2), ("brn", 3), ("brg", 4), ("bra", 5), ("brl", 6),
     ("bru", 7), ("ifb", 8), ("ifc", 9), ("ife", 10), ("ifn", 11), ("ifg", 12), ("ifa", 13),
     ("ifl", 14), ("ifu", 15)].lookup k
  ErrLabel := fun o =>
    match o with
    | .regSimple _ _ => "register"
    | .regOffset _ _ => "register offset"
    | .regIndexed _ _ => "register indexed"
    | .pcRel _ _ => "pc-relative"
    | .spRel _ _ => "sp-relative"
    | .specialReg _ _ _ _ => "special register"
    | .immediate _ _ => "immediate"

end Mocha

/-! ## The order of the literals in the alternations -/

namespace Psec

/-- The literal `a` is, up to letter case, a proper prefix of the literal `b`. -/
def ProperPrefixIC (a b : String) : Prop :=
  a.data.map lower <+: b.data.map lower ∧ a.data.length < b.data.length

instance (a b : String) : Decidable (ProperPrefixIC a b) := by
  unfold ProperPrefixIC
  infer_instance

/-- In the ordered alternation `names` no literal is a proper prefix of a
literal that comes after it: of two literals, one a proper prefix of the
other, the longer one is tried first. -/
def LongestFirst (names : List String) : Prop :=
  names.Pairwise (fun a b => ¬ ProperPrefixIC a b)

instance (names : List String) : Decidable (LongestFirst names) := by
  unfold LongestFirst
  infer_instance

end Psec

/-- The alternations of case-insensitive literals that the grammars write out,
each in the order of its alternatives: `dir:symbol` of package core; `peek`,
`pushPop` and the literals of `specialArgs` of package dcpu; of package mocha
`suffix`, `am push/pop`, `am peek`, `am special reg`, the literals at the head
of `operand` (push/pop, peek, special registers), `binary opcodes`,
`twiddler opcode`, `unary basic opcodes`, `unary suffixed opcodes`,
`reg opcodes`, `nullary instruction` and the four branch and skip opcode
lists. -/
def literalAlternations : List (List String) :=
  [["symbol", "sym", "equ", "set", "define", "def"],
   ["peek", "[sp]"],
   ["push", "pop", "[--sp]", "[sp++]"],
   ["sp", "pc", "ex", "push", "pop", "[--sp]", "[sp++]", "peek", "[sp]"],
   [".l", ".w"],
   ["push", "pop", "-[SP]", "[SP]+"],
   ["peek", "[sp]"],
   ["pc", "sp", "ia", "ex"],
   ["push", "pop", "-[SP]", "[SP]+", "peek", "[sp]", "pc", "sp", "ia", "ex"],
   Mocha.binaryNames,
   ["btx", "bts", "btc", "btm"],
   ["swp", "pea", "ext", "int"],
   ["not", "neg", "jsr", "iaq", "log", "hwi"],
   ["ulk", "hwn", "hwq"],
   ["nop", "rfi", "brk", "hlt", "ret"],
   Mocha.unaryBranchNames,
   Mocha.unarySkipNames,
   Mocha.binaryBranchNames,
   Mocha.binarySkipNames]

end Drasm

/-! ## Theorems -/

namespace Drasm

open Psec Core Mocha

/-! ### The combinators -/

theorem stripLit_isSome_congr (pat : List Char) :
    ∀ (m1 m2 t : List Char), m1.map lower = m2.map lower →
      (stripLit true pat (m1 ++ t)).isSome = (stripLit true pat (m2 ++ t)).isSome := by
  induction pat with
  | nil => intro m1 m2 t _; simp [stripLit]
  | cons c cs ih =>
    intro m1 m2 t h
    cases m1 with
    | nil =>
      cases m2 with
      | nil => rfl
      | cons d2 r2 => simp at h
    | cons d1 r1 =>
      cases m2 with
      | nil => simp at h
      | cons d2 r2 =>
        simp only [List.map_cons, List.cons.injEq] at h
        simp only [List.cons_append, stripLit, if_true, h.1]
        split_ifs
        · exact ih r1 r2 t h.2
        · rfl

theorem stripLit_exact (pat : List Char) :
    ∀ (a t : List Char), pat.length = a.length →
      stripLit true pat (a ++ t) = if pat.map lower = a.map lower then some t else none := by
  induction pat with
  | nil =>
    intro a t h
    cases a with
    | nil => simp [stripLit]
    | cons d r => simp at h
  | cons c cs ih =>
    intro a t h
    cases a with
    | nil => simp at h
    | cons d r =>
      simp only [List.length_cons, Nat.add_right_cancel_iff] at h
      simp only [List.cons_append, stripLit, if_true, List.map_cons, List.cons.injEq]
      by_cases hc : lower c = lower d <;> simp [hc, ih r t h]

theorem stripLit_length (fold : Bool) (pat : List Char) :
    ∀ (inp r : List Char), stripLit fold pat inp = some r → inp.length = pat.length + r.length := by
  induction pat with
  | nil => intro inp r h; simp [stripLit] at h; simp [h]
  | cons c cs ih =>
    intro inp r h
    cases inp with
    | nil => simp [stripLit] at h
    | cons d ds =>
      simp only [stripLit] at h
      split_ifs at h
      all_goals
        have hl := ih ds r h
        simp only [List.length_cons]
        omega

/-- A case-insensitive literal reads a spelling in another letter case the
same way, as long as it consumes exactly the spelling. -/
theorem LiteralIC_variant (k : String) (a1 a2 b1 b2 t : List Char)
    (ha : a1.map lower = a2.map lower)
    (h : LiteralIC k (a2 ++ (b2 ++ t)) = .ok (.str k, b2 ++ t)) :
    LiteralIC k (a1 ++ (b1 ++ t)) = .ok (.str k, b1 ++ t) := by
  have hlen : a1.length = a2.length := by simpa using congrArg List.length ha
  simp only [LiteralIC] at h ⊢
  cases hs : stripLit true k.data (a2 ++ (b2 ++ t)) with
  | none => simp [hs] at h
  | some r =>
    simp only [hs, Except.ok.injEq, Prod.mk.injEq, true_and] at h
    subst h
    have hl := stripLit_length true k.data _ _ hs
    simp only [List.length_append] at hl
    have hk : k.data.length = a2.length := by omega
    rw [stripLit_exact k.data a2 _ hk] at hs
    rw [stripLit_exact k.data a1 _ (by omega)]
    split_ifs at hs with hc
    simp [ha, hc]

theorem LiteralIC_fail_variant (k : String) (m1 m2 t : List Char)
    (hm : m1.map lower = m2.map lower)
    (h : LiteralIC k (m2 ++ t) = .error .noMatch) :
    LiteralIC k (m1 ++ t) = .error .noMatch := by
  have hc := stripLit_isSome_congr k.data m1 m2 t hm
  simp only [LiteralIC] at h ⊢
  cases hs : stripLit true k.data (m2 ++ t) with
  | some r => simp [hs] at h
  | none =>
    rw [hs] at hc
    cases hs1 : stripLit true k.data (m1 ++ t) with
    | some r => simp [hs1] at hc
    | none => rfl

theorem LiteralIC_cases (k : String) (inp : List Char) :
    LiteralIC k inp = .error .noMatch ∨ ∃ r, LiteralIC k inp = .ok (.str k, r) := by
  simp only [LiteralIC]
  cases stripLit true k.data inp with
  | none => exact Or.inl rfl
  | some r => exact Or.inr ⟨r, rfl⟩

/-- An alternation of case-insensitive literals that reads the spelling `a2` of
a name (followed by `b2`) as the literal `k` reads every other spelling of the
name in the same way. -/
theorem Alt_LiteralIC_variant (names : List String) (k : String) (a1 a2 b1 b2 t : List Char)
    (ha : a1.map lower = a2.map lower) (hb : b1.map lower = b2.map lower)
    (h : Alt (names.map LiteralIC) (a2 ++ (b2 ++ t)) = .ok (.str k, b2 ++ t)) :
    Alt (names.map LiteralIC) (a1 ++ (b1 ++ t)) = .ok (.str k, b1 ++ t) := by
  induction names with
  | nil => simp [Alt] at h
  | cons n ns ih =>
    simp only [List.map_cons, Alt] at h ⊢
    rcases LiteralIC_cases n (a2 ++ (b2 ++ t)) with hn | ⟨r, hn⟩
    · have hn1 : LiteralIC n (a1 ++ (b1 ++ t)) = .error .noMatch := by
        rw [← List.append_assoc] at hn ⊢
        exact LiteralIC_fail_variant n (a1 ++ b1) (a2 ++ b2) t (by simp [ha, hb]) hn
      rw [hn] at h
      rw [hn1]
      exact ih h
    · rw [hn] at h
      simp only [Except.ok.injEq, Prod.mk.injEq, Val.str.injEq] at h
      obtain ⟨hk, hr⟩ := h
      subst hk
      subst hr
      rw [LiteralIC_variant n a1 a2 b1 b2 t ha hn]

/-- An alternation of case-insensitive literals that fails on one spelling
fails on every other letter case of it. -/
theorem Alt_LiteralIC_fail_variant (names : List String) (m1 m2 t : List Char)
    (hm : m1.map lower = m2.map lower)
    (h : Alt (names.map LiteralIC) (m2 ++ t) = .error .noMatch) :
    Alt (names.map LiteralIC) (m1 ++ t) = .error .noMatch := by
  induction names with
  | nil => rfl
  | cons n ns ih =>
    simp only [List.map_cons, Alt] at h ⊢
    rcases LiteralIC_cases n (m2 ++ t) with hn | ⟨r, hn⟩
    · rw [LiteralIC_fail_variant n m1 m2 t hm hn]
      rw [hn] at h
      exact ih h
    · rw [hn] at h
      simp at h

/-! ### The Mocha `binary instruction` action -/

theorem isDirectReg_iff (o : Operand) :
    isDirectReg o = true ↔ ∃ r, o = .regSimple r .rmDirect := by
  cases o with
  | regSimple r m => cases m <;> simp [isDirectReg]
  | _ => simp [isDirectReg]

/-- The `binary instruction` action on the slice the sequence delivers, in terms
of the three tests the source makes. -/
theorem binaryInstructionAction_eval (D : Decls) (opcode : String) (longwords : Bool)
    (dst src : Operand) (w c : Val) :
    binaryInstructionAction D
        (.list [.str opcode, .bool longwords, w, .operand dst, c, .operand src]) =
      if isDirectReg dst then
        (match regOf dst with
          | .ok r => .ok (.mochaInstr
              (.binaryOp (mapGet D.binaryOpcodes opcode) src r false longwords))
          | .error e => .error e)
      else if isDirectReg src then
        (match regOf src with
          | .ok r => .ok (.mochaInstr
              (.binaryOp (mapGet D.binaryOpcodes opcode) dst r true longwords))
          | .error e => .error e)
      else
        match src, D.immediateOpcodes opcode with
        | .immediate value false, some op =>
          .ok (.mochaInstr (.immediateOp op dst value longwords))
        | _, _ => .error (.failed (oneRegisterMsg D opcode dst src)) := by
  simp only [binaryInstructionAction, Val.asList, idx, Val.asString, Val.asBool, Val.asOperand,
    bind, Except.bind, pure, Except.pure, List.get?]
  split_ifs <;> first | rfl | (cases regOf dst <;> rfl) | (cases regOf src <;> rfl)

/-- C1: in the Mocha `binary instruction` action, for every mnemonic, size
flag and operand pair: when dst is a bare direct register the result is the
register-form binary op with operand = src, register = the register of dst
and reversed = false (also when src is a bare direct register too); otherwise,
when src is a bare direct register, the result is the register-form binary op
with operand = dst, register = the register of src and reversed = true.  The
opcode is the entry of the mnemonic in `binaryOpcodes` and the size flag is
passed through. -/
theorem mocha_binary_register_form (D : Decls) (opcode : String) (longwords : Bool)
    (dst src : Operand) (w c : Val) :
    (isDirectReg dst = true →
      ∃ r, dst = .regSimple r .rmDirect ∧
        binaryInstructionAction D
            (.list [.str opcode, .bool longwords, w, .operand dst, c, .operand src]) =
          .ok (.mochaInstr
            (.binaryOp (mapGet D.binaryOpcodes opcode) src r false longwords))) ∧
    (isDirectReg dst = false → isDirectReg src = true →
      ∃ r, src = .regSimple r .rmDirect ∧
        binaryInstructionAction D
            (.list [.str opcode, .bool longwords, w, .operand dst, c, .operand src]) =
          .ok (.mochaInstr
            (.binaryOp (mapGet D.binaryOpcodes opcode) dst r true longwords))) := by
  rw [binaryInstructionAction_eval]
  constructor
  · intro h
    obtain ⟨r, rfl⟩ := (isDirectReg_iff dst).1 h
    exact ⟨r, rfl, by simp [isDirectReg, regOf]⟩
  · intro hd hs
    obtain ⟨r, rfl⟩ := (isDirectReg_iff src).1 hs
    exact ⟨r, rfl, by simp only [hd, hs, Bool.false_eq_true, if_false, if_true, regOf]⟩

/-- C1 at concrete inputs: `add.l A, [B]`, `add.w A, B` and `sub.w [B], X` with
the sample opcode numbers. -/
theorem mocha_binary_register_form_witness :
    binaryInstructionAction demoDecls
        (.list [.str "add", .bool true, .nil, .operand (.regSimple 0 .rmDirect), .nil,
          .operand (.regSimple 1 .rmIndirect)]) =
      .ok (.mochaInstr (.binaryOp 16 (.regSimple 1 .rmIndirect) 0 false true)) ∧
    binaryInstructionAction demoDecls
        (.list [.str "add", .bool false, .nil, .operand (.regSimple 0 .rmDirect), .nil,
          .operand (.regSimple 1 .rmDirect)]) =
      .ok (.mochaInstr (.binaryOp 16 (.regSimple 1 .rmDirect) 0 false false)) ∧
    binaryInstructionAction demoDecls
        (.list [.str "sub", .bool false, .nil, .operand (.regSimple 1 .rmIndirect), .nil,
          .operand (.regSimple 3 .rmDirect)]) =
      .ok (.mochaInstr (.binaryOp 18 (.regSimple 1 .rmIndirect) 3 true false)) := by
  obtain ⟨r1, e1, h1⟩ := (mocha_binary_register_form demoDecls "add" true
    (.regSimple 0 .rmDirect) (.regSimple 1 .rmIndirect) .nil .nil).1 rfl
  obtain ⟨r2, e2, h2⟩ := (mocha_binary_register_form demoDecls "add" false
    (.regSimple 0 .rmDirect) (.regSimple 1 .rmDirect) .nil .nil).1 rfl
  obtain ⟨r3, e3, h3⟩ := (mocha_binary_register_form demoDecls "sub" false
    (.regSimple 1 .rmIndirect) (.regSimple 3 .rmDirect) .nil .nil).2 rfl rfl
  cases e1
  cases e2
  cases e3
  exact ⟨h1, h2, h3⟩

/-- C2: the `binary instruction` action fails if and only if neither dst nor
src is a bare direct register and it is not the case that src is a non-indirect
immediate and the mnemonic has an immediate-form opcode; and whenever it fails
the error is `cannot assemble <mnemonic> <dst label>, <src label>, one argument
must be a register`, with the `ErrLabel` of dst, then of src. -/
theorem mocha_binary_failure (D : Decls) (opcode : String) (longwords : Bool)
    (dst src : Operand) (w c : Val) :
    ((∃ e, binaryInstructionAction D
        (.list [.str opcode, .bool longwords, w, .operand dst, c, .operand src]) = .error e) ↔
      (isDirectReg dst = false ∧ isDirectReg src = false ∧
        ¬ ((∃ v, src = .immediate v false) ∧ (D.immediateOpcodes opcode).isSome = true))) ∧
    (∀ e, binaryInstructionAction D
        (.list [.str opcode, .bool longwords, w, .operand dst, c, .operand src]) = .error e →
      e = .failed ("cannot assemble " ++ opcode ++ " " ++ D.ErrLabel dst ++ ", " ++
        D.ErrLabel src ++ ", one argument must be a register")) := by
  rw [binaryInstructionAction_eval]
  by_cases hd : isDirectReg dst = true
  · obtain ⟨r, rfl⟩ := (isDirectReg_iff dst).1 hd
    simp [isDirectReg, regOf]
  · have hd2 : isDirectReg dst = false := by simpa using hd
    by_cases hs : isDirectReg src = true
    · obtain ⟨r, rfl⟩ := (isDirectReg_iff src).1 hs
      simp only [hd2, hs, Bool.false_eq_true, if_false, if_true, regOf]
      simp
    · have hs2 : isDirectReg src = false := by simpa using hs
      simp only [hd2, hs2, Bool.false_eq_true, if_false, true_and]
      cases src with
      | immediate v ind =>
        cases ind <;> cases hi : D.immediateOpcodes opcode <;> simp [oneRegisterMsg]
      | _ => simp [oneRegisterMsg]

/-- C2 at concrete inputs: `mul.w [A], 5` fails with the diagnostic, `add.w [A], 5`
does not fail. -/
theorem mocha_binary_failure_witness :
    binaryInstructionAction demoDecls
        (.list [.str "mul", .bool false, .nil, .operand (.regSimple 0 .rmIndirect), .nil,
          .operand (.immediate (.Constant 5) false)]) =
      .error (.failed
        "cannot assemble mul register, immediate, one argument must be a register") ∧
    binaryInstructionAction demoDecls
        (.list [.str "add", .bool false, .nil, .operand (.regSimple 0 .rmIndirect), .nil,
          .operand (.immediate (.Constant 5) false)]) =
      .ok (.mochaInstr (.immediateOp 32 (.regSimple 0 .rmIndirect) (.Constant 5) false)) := by
  have h := mocha_binary_failure demoDecls "mul" false (.regSimple 0 .rmIndirect)
    (.immediate (.Constant 5) false) .nil .nil
  obtain ⟨e, he⟩ := h.1.2 ⟨rfl, rfl, fun hh => absurd hh.2 (by decide)⟩
  have hm := h.2 e he
  subst hm
  exact ⟨he, rfl⟩

/-! ### Mnemonics and the size suffix of the Mocha grammar -/

/-- The alternation `binary opcodes` reads every letter case of one of its 14
mnemonics as that mnemonic. -/
theorem binaryOpcodesSym_variant (m : String) (hm : m ∈ binaryNames) (m' t : List Char)
    (hcase : CaseVariant m m') :
    binaryOpcodesSym (m' ++ t) = .ok (.str m, t) := by
  have key : Alt (binaryNames.map LiteralIC) (m.data ++ ([] ++ t)) = .ok (.str m, [] ++ t) := by
    simp only [binaryNames, List.mem_cons, List.mem_singleton, List.not_mem_nil, or_false] at hm
    rcases hm with h | h | h | h | h | h | h | h | h | h | h | h | h | h <;> subst h <;> rfl
  exact Alt_LiteralIC_variant binaryNames m m' m.data [] [] t hcase rfl key

/-- The `suffix` symbol reads `.l` as true and `.w` as false, in either letter
case. -/
theorem suffix_variant (long : Bool) (sfx t : List Char)
    (hsfx : CaseVariant (if long then ".l" else ".w") sfx) :
    suffix (sfx ++ t) = .ok (.bool long, t) := by
  have key : Alt ([".l", ".w"].map LiteralIC) (sfx ++ ([] ++ t)) =
      .ok (.str (if long then ".l" else ".w"), [] ++ t) := by
    refine Alt_LiteralIC_variant [".l", ".w"] _ sfx (if long then ".l" else ".w").data [] [] t
      hsfx rfl ?_
    cases long <;> rfl
  simp only [List.nil_append, List.map_cons, List.map_nil] at key
  simp only [suffix, WithAction, Optional, key]
  cases long <;> rfl

/-- C3 (amended): for each mnemonic of ADD, SUB, AND, BOR, XOR, ADX and SBX, in
any letter case, a binary instruction with a size suffix whose destination is
not a bare direct register and whose source is a non-indirect immediate with
value e parses to the immediate-form op (the immediate opcode of the mnemonic,
dst, literal e, size flag); for MUL, MLI, DIV, DVI, SHR, SHL and ASR the same
operands are rejected with the one-register diagnostic; STI and STD are not
mnemonics of the binary instruction, which fails on them at the mnemonic. -/
theorem mocha_binary_immediate_form (L : Lex) (D : Decls) (hD : D.ImmediateAsSpec)
    (m : String) (m' sfx r0 r1 r2 r3 r4 : List Char) (long : Bool) (cv : Val)
    (dst : Operand) (e : Expression)
    (hcase : CaseVariant m m')
    (hsfx : CaseVariant (if long then ".l" else ".w") sfx)
    (hws : L.ws1 r0 = .ok r1)
    (hdst : operand L r1 = .ok (.operand dst, r2))
    (hnd : isDirectReg dst = false)
    (hcomma : comma L r2 = .ok (cv, r3))
    (hsrc : operand L r3 = .ok (.operand (.immediate e false), r4)) :
    (m ∈ ["add", "sub", "and", "bor", "xor", "adx", "sbx"] →
      ∃ op, D.immediateOpcodes m = some op ∧
        binaryInstruction L D (m' ++ (sfx ++ r0)) =
          .ok (.mochaInstr (.immediateOp op dst e long), r4)) ∧
    (m ∈ ["mul", "mli", "div", "dvi", "shr", "shl", "asr"] →
      binaryInstruction L D (m' ++ (sfx ++ r0)) =
        .error (.failed (oneRegisterMsg D m dst (.immediate e false)))) ∧
    (m ∈ ["sti", "std"] → ∀ rest, binaryInstruction L D (m' ++ rest) = .error .noMatch) := by
  have run : m ∈ binaryNames →
      binaryInstruction L D (m' ++ (sfx ++ r0)) =
        match binaryInstructionAction D (.list [.str m, .bool long, .nil, .operand dst, cv,
            .operand (.immediate e false)]) with
        | .error err => .error err
        | .ok v => .ok (v, r4) := by
    intro hm
    simp only [binaryInstruction, WithAction, Psec.Seq, seqList,
      binaryOpcodesSym_variant m hm m' _ hcase, suffix_variant long sfx r0 hsfx, Lex.ws1P, hws,
      hdst, hcomma, hsrc]
  have hsrcnd : isDirectReg (.immediate e false) = false := rfl
  refine ⟨?_, ?_, ?_⟩
  · intro hm
    have hin : m ∈ binaryNames := by
      simp only [List.mem_cons, List.mem_singleton, List.not_mem_nil, or_false] at hm
      rcases hm with h | h | h | h | h | h | h <;> subst h <;> decide
    have hk : m ∈ specImmediateNames := by
      simp only [List.mem_cons, List.mem_singleton, List.not_mem_nil, or_false] at hm
      rcases hm with h | h | h | h | h | h | h <;> subst h <;> decide
    obtain ⟨op, hop⟩ := Option.isSome_iff_exists.1 ((hD m).2 hk)
    refine ⟨op, hop, ?_⟩
    rw [run hin, binaryInstructionAction_eval]
    simp only [hnd, hsrcnd, hop, Bool.false_eq_true, if_false]
  · intro hm
    have hin : m ∈ binaryNames := by
      simp only [List.mem_cons, List.mem_singleton, List.not_mem_nil, or_false] at hm
      rcases hm with h | h | h | h | h | h | h <;> subst h <;> decide
    have hk : m ∉ specImmediateNames := by
      simp only [List.mem_cons, List.mem_singleton, List.not_mem_nil, or_false] at hm
      rcases hm with h | h | h | h | h | h | h <;> subst h <;> decide
    have hop : D.immediateOpcodes m = none := by
      cases hq : D.immediateOpcodes m with
      | none => rfl
      | some op => exact absurd ((hD m).1 (by simp [hq])) hk
    rw [run hin, binaryInstructionAction_eval]
    simp only [hnd, hsrcnd, hop, Bool.false_eq_true, if_false]
  · intro hm rest
    have key : Alt (binaryNames.map LiteralIC) (m.data ++ rest) = .error .noMatch := by
      simp only [List.mem_cons, List.mem_singleton, List.not_mem_nil, or_false] at hm
      rcases hm with h | h <;> subst h <;> rfl
    have hfail : binaryOpcodesSym (m' ++ rest) = .error .noMatch :=
      Alt_LiteralIC_fail_variant binaryNames m' m.data rest hcase key
    simp only [binaryInstruction, WithAction, Psec.Seq, seqList, hfail]

/-- C3 at concrete inputs: `ADD.L [A], 5` parses to the immediate form,
`Mul.w [A], 5` is rejected, `STI.w [A], 5` fails at the mnemonic. -/
theorem mocha_binary_immediate_form_witness :
    binaryInstruction demoLex demoDecls "ADD.L [A], 5".data =
      .ok (.mochaInstr (.immediateOp 32 (.regSimple 0 .rmIndirect) (.Constant 5) true), []) ∧
    binaryInstruction demoLex demoDecls "Mul.w [A], 5".data =
      .error (.failed
        "cannot assemble mul register, immediate, one argument must be a register") ∧
    binaryInstruction demoLex demoDecls "STI.w [A], 5".data = .error .noMatch := by
  have hD : demoDecls.ImmediateAsSpec := by
    intro k
    by_cases hk : k ∈ specImmediateNames <;> simp [demoDecls, hk]
  have h1 := (mocha_binary_immediate_form demoLex demoDecls hD "add" "ADD".data ".L".data
    " [A], 5".data "[A], 5".data ", 5".data "5".data [] true
    (.list [.nil, .str ",", .nil]) (.regSimple 0 .rmIndirect) (.Constant 5)
    (by decide) (by decide) rfl rfl rfl rfl rfl).1 (by decide)
  have h2 := (mocha_binary_immediate_form demoLex demoDecls hD "mul" "Mul".data ".w".data
    " [A], 5".data "[A], 5".data ", 5".data "5".data [] false
    (.list [.nil, .str ",", .nil]) (.regSimple 0 .rmIndirect) (.Constant 5)
    (by decide) (by decide) rfl rfl rfl rfl rfl).2.1 (by decide)
  have h3 := (mocha_binary_immediate_form demoLex demoDecls hD "sti" "STI".data ".w".data
    " [A], 5".data "[A], 5".data ", 5".data "5".data [] false
    (.list [.nil, .str ",", .nil]) (.regSimple 0 .rmIndirect) (.Constant 5)
    (by decide) (by decide) rfl rfl rfl rfl rfl).2.2 (by decide) ".w [A], 5".data
  obtain ⟨op, hop, h1⟩ := h1
  cases hop
  exact ⟨h1, h2, h3⟩

/-- C3 as stated fails: `STI.w [A], 5` and `std.l [A], 5`, with a destination
that is not a bare register and a non-indirect immediate source, do not parse
as a binary instruction, whatever the lexical grammar and the opcode maps. -/
theorem mocha_binary_sti_std_not_parsed :
    (¬ ∃ (L : Lex) (D : Decls) (r : Val × List Char),
      binaryInstruction L D "STI.w [A], 5".data = .ok r) ∧
    (¬ ∃ (L : Lex) (D : Decls) (r : Val × List Char),
      binaryInstruction L D "std.l [A], 5".data = .ok r) := by
  constructor
  · rintro ⟨L, D, r, h⟩
    have hf : binaryInstruction L D "STI.w [A], 5".data = .error .noMatch := rfl
    rw [hf] at h
    cases h
  · rintro ⟨L, D, r, h⟩
    have hf : binaryInstruction L D "std.l [A], 5".data = .error .noMatch := rfl
    rw [hf] at h
    cases h

/-! ### PEA and LEA -/

/-- C4: for every operand o and register number r, the action for `PEA o`
succeeds exactly when o has an effective address and otherwise fails with
`cannot use PEA with <label of o>; it has no address`; the action for
`LEA r, o` succeeds, with LeaOp(r, o), exactly when o has an effective address
and otherwise fails with `cannot use LEA with <label of o>; it has no address`.
A bare immediate has no effective address, so both fail on it; `[A]` has one,
so both succeed on it. -/
theorem mocha_pea_lea_effective_address (D : Decls) (o : Operand) (r : Nat) (w c : Val)
    (e : Expression) :
    (HasEffectiveAddress o = true →
      unaryBasicInstructionAction D (.list [.str "pea", w, .operand o]) =
        .ok (.mochaInstr (.unaryOp (mapGet D.unaryOpcodes "pea") o))) ∧
    (HasEffectiveAddress o = false →
      unaryBasicInstructionAction D (.list [.str "pea", w, .operand o]) =
        .error (.failed ("cannot use PEA with " ++ D.ErrLabel o ++ "; it has no address"))) ∧
    (HasEffectiveAddress o = true →
      leaInstructionAction D (.list [.str "lea", w, .operand (regDirect r), c, .operand o]) =
        .ok (.mochaInstr (.leaOp r o))) ∧
    (HasEffectiveAddress o = false →
      leaInstructionAction D (.list [.str "lea", w, .operand (regDirect r), c, .operand o]) =
        .error (.failed ("cannot use LEA with " ++ D.ErrLabel o ++ "; it has no address"))) ∧
    HasEffectiveAddress (.immediate e false) = false ∧
    HasEffectiveAddress (.regSimple 0 .rmIndirect) = true := by
  refine ⟨?_, ?_, ?_, ?_, rfl, rfl⟩
  · intro h
    simp [unaryBasicInstructionAction, Val.asList, idx, Val.asString, Val.asOperand, h, bind,
      Except.bind, pure, Except.pure]
  · intro h
    simp [unaryBasicInstructionAction, Val.asList, idx, Val.asString, Val.asOperand, h, bind,
      Except.bind, peaMsg]
  · intro h
    simp [leaInstructionAction, Val.asList, idx, Val.asOperand, h, bind, Except.bind, pure,
      Except.pure, regOf, regDirect]
  · intro h
    simp [leaInstructionAction, Val.asList, idx, Val.asOperand, h, bind, Except.bind, leaMsg]

/-- C4 at concrete inputs: `PEA 5` and `LEA B, 5` fail with the diagnostic,
`PEA [A]` and `LEA B, [A]` parse. -/
theorem mocha_pea_lea_effective_address_witness :
    unaryBasicInstruction demoLex demoDecls "PEA 5".data =
      .error (.failed "cannot use PEA with immediate; it has no address") ∧
    leaInstruction demoLex demoDecls "LEA B, 5".data =
      .error (.failed "cannot use LEA with immediate; it has no address") ∧
    unaryBasicInstruction demoLex demoDecls "PEA [A]".data =
      .ok (.mochaInstr (.unaryOp 4 (.regSimple 0 .rmIndirect)), []) ∧
    leaInstruction demoLex demoDecls "LEA B, [A]".data =
      .ok (.mochaInstr (.leaOp 1 (.regSimple 0 .rmIndirect)), []) := by
  have h := mocha_pea_lea_effective_address demoDecls (.immediate (.Constant 5) false) 1
    .nil (.list [.nil, .str ",", .nil]) (.Constant 5)
  have h2 := mocha_pea_lea_effective_address demoDecls (.regSimple 0 .rmIndirect) 1
    .nil (.list [.nil, .str ",", .nil]) (.Constant 5)
  refine ⟨?_, ?_, ?_, ?_⟩
  · have hp := h.2.1 rfl
    simp only [unaryBasicInstruction, WithAction]
    exact (congrArg (fun x => match x with
      | .error err => (Except.error err : Result)
      | .ok v => .ok (v, [])) hp)
  · have hp := h.2.2.2.1 rfl
    simp only [leaInstruction, WithAction]
    exact (congrArg (fun x => match x with
      | .error err => (Except.error err : Result)
      | .ok v => .ok (v, [])) hp)
  · have hp := h2.1 rfl
    simp only [unaryBasicInstruction, WithAction]
    exact (congrArg (fun x => match x with
      | .error err => (Except.error err : Result)
      | .ok v => .ok (v, [])) hp)
  · have hp := h2.2.2.1 rfl
    simp only [leaInstruction, WithAction]
    exact (congrArg (fun x => match x with
      | .error err => (Except.error err : Result)
      | .ok v => .ok (v, [])) hp)

/-! ### The DCPU opcode tables -/

theorem LiteralIC_self_variant (k : String) (a t : List Char) (h : CaseVariant k a) :
    LiteralIC k (a ++ t) = .ok (.str k, t) := by
  have hlen : k.data.length = a.length := by
    have := congrArg List.length h
    simpa using this.symm
  simp only [LiteralIC, stripLit_exact k.data a t hlen]
  rw [if_pos h.symm]

theorem dcpu_keys_lowercase :
    ∀ k ∈ (Dcpu.binaryOpcodesTable ++ Dcpu.unaryOpcodesTable).map Prod.fst,
      k.data.map lower = k.data ∧ k.data.length = 3 := by
  decide

theorem dcpu_binary_lookup :
    ∀ p ∈ Dcpu.binaryOpcodesTable, Dcpu.binaryOpcodes p.1 = some p.2 := by
  decide

theorem dcpu_unary_lookup :
    ∀ p ∈ Dcpu.unaryOpcodesTable, Dcpu.unaryOpcodes p.1 = some p.2 := by
  decide

/-- On a spelling of `m`, an alternation of case-insensitive literals that
holds `m` and otherwise only names of the same length that differ from `m`
beyond letter case yields `m`, wherever `m` stands in it. -/
theorem Alt_LiteralIC_any_order (order : List String) (m : String) (m' rest : List Char)
    (hcase : CaseVariant m m') (hm : m ∈ order)
    (hkeys : ∀ k ∈ order, k.data.length = m.data.length ∧
      (k.data.map lower = m.data.map lower → k = m)) :
    Alt (order.map LiteralIC) (m' ++ rest) = .ok (.str m, rest) := by
  have hlen : m'.length = m.data.length := by simpa using congrArg List.length hcase
  induction order with
  | nil => simp at hm
  | cons k ks ih =>
    simp only [List.map_cons, Alt]
    by_cases hk : k = m
    · subst hk
      rw [LiteralIC_self_variant k m' rest hcase]
    · have hkl := hkeys k (List.mem_cons_self k ks)
      have hfail : LiteralIC k (m' ++ rest) = .error .noMatch := by
        simp only [LiteralIC, stripLit_exact k.data m' rest (by omega)]
        rw [if_neg]
        intro hh
        exact hk (hkl.2 (hh.trans hcase))
      rw [hfail]
      have hm2 : m ∈ ks := by
        rcases List.mem_cons.1 hm with h | h
        · exact absurd h.symm hk
        · exact h
      exact ih hm2 (fun k2 hk2 => hkeys k2 (List.mem_cons_of_mem k hk2))

/-- C7: for every entry (m, v) of the DCPU map `binaryOpcodes` (respectively
`unaryOpcodes`), every order in which the map delivers its keys to the
alternation, and every spelling m' of m in another letter case, the
`binary opcode` (respectively `unary opcode`) parser succeeds on m' and yields
exactly v. -/
theorem dcpu_opcode_roundtrip (order : List String) (m : String) (v : Nat)
    (m' rest : List Char) (hcase : CaseVariant m m') :
    ((m, v) ∈ Dcpu.binaryOpcodesTable → Dcpu.IsKeyOrder Dcpu.binaryOpcodesTable order →
      Dcpu.binaryOpcode order (m' ++ rest) = .ok (.uint16 v, rest)) ∧
    ((m, v) ∈ Dcpu.unaryOpcodesTable → Dcpu.IsKeyOrder Dcpu.unaryOpcodesTable order →
      Dcpu.unaryOpcode order (m' ++ rest) = .ok (.uint16 v, rest)) := by
  have low := dcpu_keys_lowercase
  have sep : ∀ (tbl : List (String × Nat)),
      (∀ k ∈ tbl.map Prod.fst, k.data.map lower = k.data ∧ k.data.length = 3) →
      (m, v) ∈ tbl → order.Perm (tbl.map Prod.fst) →
      Alt (order.map LiteralIC) (m' ++ rest) = .ok (.str m, rest) := by
    intro tbl hl hmem hperm
    have hmk : m ∈ tbl.map Prod.fst := List.mem_map.2 ⟨(m, v), hmem, rfl⟩
    refine Alt_LiteralIC_any_order order m m' rest hcase (hperm.mem_iff.2 hmk) ?_
    intro k hk
    have hk2 := hl k (hperm.mem_iff.1 hk)
    have hm2 := hl m hmk
    refine ⟨by omega, ?_⟩
    intro hh
    rw [hk2.1, hm2.1] at hh
    exact String.ext hh
  constructor
  · intro hmem hord
    have h1 := sep Dcpu.binaryOpcodesTable
      (fun k hk => low k (by
        simp only [List.map_append, List.mem_append]
        exact Or.inl hk)) hmem hord
    have h2 := dcpu_binary_lookup (m, v) hmem
    simp only [Dcpu.binaryOpcode, WithAction, h1, Dcpu.binaryOpcodeAction, Val.asString, bind,
      Except.bind, pure, Except.pure, mapGet]
    simp only at h2
    rw [h2]
    rfl
  · intro hmem hord
    have h1 := sep Dcpu.unaryOpcodesTable
      (fun k hk => low k (by
        simp only [List.map_append, List.mem_append]
        exact Or.inr hk)) hmem hord
    have h2 := dcpu_unary_lookup (m, v) hmem
    simp only [Dcpu.unaryOpcode, WithAction, h1, Dcpu.unaryOpcodeAction, Val.asString, bind,
      Except.bind, pure, Except.pure, mapGet]
    simp only at h2
    rw [h2]
    rfl

/-- C7 at concrete inputs: `StD` parses to 0x1f with the keys in the order of
the source text, and `HWI` parses to 18 with the keys in the opposite order. -/
theorem dcpu_opcode_roundtrip_witness :
    Dcpu.binaryOpcode (Dcpu.binaryOpcodesTable.map Prod.fst) "StD a, 1".data =
      .ok (.uint16 0x1f, " a, 1".data) ∧
    Dcpu.unaryOpcode (Dcpu.unaryOpcodesTable.map Prod.fst).reverse "HWI a".data =
      .ok (.uint16 18, " a".data) :=
  ⟨(dcpu_opcode_roundtrip (Dcpu.binaryOpcodesTable.map Prod.fst) "std" 0x1f "StD".data
      " a, 1".data (by decide)).1 (by decide) (List.Perm.refl _),
   (dcpu_opcode_roundtrip (Dcpu.unaryOpcodesTable.map Prod.fst).reverse "hwi" 18 "HWI".data
      " a".data (by decide)).2 (by decide) (List.reverse_perm _)⟩

/-! ### The directives `fill`, `reserve` and `dat` -/

/-- C8: for every length expression n, `reserve n` produces the FillBlock that
`fill 0, n` produces: its Length is the Expression parsed from n and its Value
is Constant(0).  The texts are read by the lexical grammar: whitespace, then
the expression (`0` being read as Constant(0)), for `fill` a comma between
whitespace and the second expression. -/
theorem reserve_is_fill_zero (L : Lex) (n : Expression) (kr kf a0 a1 a2 : List Char)
    (b0 b1 b2 b3 b4 b5 b6 : List Char)
    (hkr : CaseVariant "reserve" kr) (hkf : CaseVariant "fill" kf)
    (ha0 : L.ws1 a0 = .ok a1) (ha1 : L.expr a1 = .ok (n, a2))
    (hb0 : L.ws1 b0 = .ok b1) (hb1 : L.expr b1 = .ok (.Constant 0, b2))
    (hb2 : L.ws b2 = .ok b3) (hb3 : b3 = ',' :: b4)
    (hb4 : L.ws b4 = .ok b5) (hb5 : L.expr b5 = .ok (n, b6)) :
    dirReserve L (kr ++ a0) = .ok (.directive (.FillBlock (.Constant 0) n), a2) ∧
    dirFill L (kf ++ b0) = .ok (.directive (.FillBlock (.Constant 0) n), b6) := by
  subst hb3
  constructor
  · simp only [dirReserve, WithAction, SeqAt, seqList, LiteralIC_self_variant _ kr a0 hkr,
      Lex.ws1P, ha0, Lex.exprP, ha1, List.get?, dirReserveAction, Val.asExpr, bind, Except.bind, pure,
      Except.pure]
  · have hc : Literal "," (',' :: b4) = .ok (.str ",", b4) := rfl
    simp only [dirFill, WithAction, Psec.Seq, seqList, LiteralIC_self_variant _ kf b0 hkf,
      Lex.ws1P, Lex.wsP, hb0, Lex.exprP, hb1, hb2, hc, hb4, hb5, dirFillAction, Val.asList, idx, List.get?, Val.asExpr,
      bind, Except.bind, pure, Except.pure]

/-- C8 at a concrete input: `RESERVE 16` and `fill 0, 16`. -/
theorem reserve_is_fill_zero_witness :
    dirReserve demoLex "RESERVE 16".data = .ok (.directive (.FillBlock (.Constant 0)
      (.Constant 16)), []) ∧
    dirFill demoLex "fill 0, 16".data = .ok (.directive (.FillBlock (.Constant 0)
      (.Constant 16)), []) :=
  reserve_is_fill_zero demoLex (.Constant 16) "RESERVE".data "fill".data " 16".data "16".data []
    " 0, 16".data "0, 16".data ", 16".data ", 16".data " 16".data "16".data []
    (by decide) (by decide) rfl rfl rfl rfl rfl rfl rfl rfl

theorem char_toNat_uint32 (ch : Char) : uint32 ch.toNat = ch.toNat := by
  have h : ch.toNat < 2 ^ 32 := by
    have := ch.val.toNat_lt
    simpa [Char.toNat] using this
  exact Nat.mod_eq_of_lt h

theorem foldl_append_singleton {α β : Type} (f : α → β) (xs : List α) (acc : List β) :
    xs.foldl (fun vs b => vs ++ [f b]) acc = acc ++ xs.map f := by
  induction xs generalizing acc with
  | nil => simp
  | cons x xs ih => simp [ih]

theorem datStep_eq (values : List Expression) (value : Val) :
    datStep values value = values ++ datExpansion value := by
  cases value with
  | expr e => rfl
  | str s =>
    simp only [datStep, datExpansion, rangeString, foldl_append_singleton, List.map_map]
    congr 1
    apply List.map_congr_left
    intro ch _
    simp [char_toNat_uint32]
  | _ => simp [datStep, datExpansion]

theorem foldl_datStep (rs : List Val) (acc : List Expression) :
    rs.foldl datStep acc = acc ++ rs.flatMap datExpansion := by
  induction rs generalizing acc with
  | nil => simp
  | cons v vs ih => simp [ih, datStep_eq]

/-- C9: the Values of the DatBlock the `dat` action builds are the
concatenation, in element order, of the expansions of the elements, where an
expression expands to itself and a string to its Constants in left-to-right
order: nothing is dropped, duplicated or reordered.  `dat "AB", 3` yields
[Constant(65), Constant(66), Constant(3)]. -/
theorem dat_values_concat (rs : List Val) :
    dirDatAction (.list rs) = .ok (.directive (.DatBlock (rs.flatMap datExpansion))) ∧
    dirDatAction (.list [.str "AB", .expr (.Constant 3)]) =
      .ok (.directive (.DatBlock [.Constant 65, .Constant 66, .Constant 3])) := by
  refine ⟨?_, rfl⟩
  simp only [dirDatAction, Val.asList, bind, Except.bind, pure, Except.pure, foldl_datStep,
    List.nil_append]

/-- C9 at a concrete input, through the parser: `dat "AB", 3`. -/
theorem dat_values_concat_witness :
    dirDat demoLex "dat \"AB\", 3".data =
      .ok (.directive (.DatBlock [.Constant 65, .Constant 66, .Constant 3]), []) := by
  have h := (dat_values_concat [.str "AB", .expr (.Constant 3)]).2
  simp only [dirDat, WithAction]
  exact (congrArg (fun x => match x with
    | .error err => (Except.error err : Result)
    | .ok v => .ok (v, [])) h)

/-- C10, the code at the failing input: the string `€` is 3 bytes long, and
the `dat` action gives it one Constant, 8364, the code point; so the string
does not contribute one Constant per byte, each below 256. -/
theorem dat_string_runes_not_bytes :
    goLen "€" = 3 ∧
    dirDatAction (.list [.str "€"]) = .ok (.directive (.DatBlock [.Constant 8364])) ∧
    ¬ (8364 < 256) := by
  refine ⟨by decide, rfl, by decide⟩

/-! ### Branch and skip instructions -/

/-- An alternation of mnemonics that reads `m` in front of the size suffix
reads every letter case of `m` and of the suffix. -/
theorem alts_mnemonic_suffix (names : List String) (m : String) (m' sfx t : List Char)
    (long : Bool) (hcase : CaseVariant m m')
    (hsfx : CaseVariant (if long then ".l" else ".w") sfx)
    (key : ∀ b : Bool, Alt (names.map LiteralIC)
        (m.data ++ ((if b then ".l" else ".w" : String).data ++ t)) =
      .ok (.str m, (if b then ".l" else ".w" : String).data ++ t)) :
    alts names (m' ++ (sfx ++ t)) = .ok (.str m, sfx ++ t) :=
  Alt_LiteralIC_variant names m m' m.data sfx _ t hcase hsfx (key long)

theorem alts_fail (names : List String) (m : String) (m' t : List Char)
    (hcase : CaseVariant m m')
    (key : Alt (names.map LiteralIC) (m.data ++ t) = .error .noMatch) :
    alts names (m' ++ t) = .error .noMatch :=
  Alt_LiteralIC_fail_variant names m' m.data t hcase key

theorem unaryBranchOpcode_variant (m : String) (hm : m ∈ unaryBranchNames)
    (m' sfx t : List Char) (long : Bool) (hcase : CaseVariant m m')
    (hsfx : CaseVariant (if long then ".l" else ".w") sfx) :
    unaryBranchOpcode (m' ++ (sfx ++ t)) = .ok (.str m, sfx ++ t) := by
  refine alts_mnemonic_suffix unaryBranchNames m m' sfx t long hcase hsfx ?_
  intro b
  simp only [unaryBranchNames, List.mem_cons, List.mem_singleton, List.not_mem_nil,
    or_false] at hm
  rcases hm with h | h | h | h | h | h | h | h <;> subst h <;> cases b <;> rfl

theorem unarySkipOpcode_variant (m : String) (hm : m ∈ unarySkipNames)
    (m' sfx t : List Char) (long : Bool) (hcase : CaseVariant m m')
    (hsfx : CaseVariant (if long then ".l" else ".w") sfx) :
    unarySkipOpcode (m' ++ (sfx ++ t)) = .ok (.str m, sfx ++ t) := by
  refine alts_mnemonic_suffix unarySkipNames m m' sfx t long hcase hsfx ?_
  intro b
  simp only [unarySkipNames, List.mem_cons, List.mem_singleton, List.not_mem_nil,
    or_false] at hm
  rcases hm with h | h | h | h | h | h | h | h <;> subst h <;> cases b <;> rfl

theorem binaryBranchOpcode_variant (m : String) (hm : m ∈ binaryBranchNames)
    (m' sfx t : List Char) (long : Bool) (hcase : CaseVariant m m')
    (hsfx : CaseVariant (if long then ".l" else ".w") sfx) :
    binaryBranchOpcode (m' ++ (sfx ++ t)) = .ok (.str m, sfx ++ t) := by
  refine alts_mnemonic_suffix binaryBranchNames m m' sfx t long hcase hsfx ?_
  intro b
  simp only [binaryBranchNames, List.mem_cons, List.mem_singleton, List.not_mem_nil,
    or_false] at hm
  rcases hm with h | h | h | h | h | h | h | h <;> subst h <;> cases b <;> rfl

theorem binarySkipOpcode_variant (m : String) (hm : m ∈ binarySkipNames)
    (m' sfx t : List Char) (long : Bool) (hcase : CaseVariant m m')
    (hsfx : CaseVariant (if long then ".l" else ".w") sfx) :
    binarySkipOpcode (m' ++ (sfx ++ t)) = .ok (.str m, sfx ++ t) := by
  refine alts_mnemonic_suffix binarySkipNames m m' sfx t long hcase hsfx ?_
  intro b
  simp only [binarySkipNames, List.mem_cons, List.mem_singleton, List.not_mem_nil,
    or_false] at hm
  rcases hm with h | h | h | h | h | h | h | h <;> subst h <;> cases b <;> rfl

/-- A mnemonic of a later family of the `branch instruction` alternation is
not read by the opcode alternation of an earlier family. -/
theorem branch_families_disjoint (m : String) (m' t : List Char) (hcase : CaseVariant m m') :
    (m ∈ unarySkipNames → unaryBranchOpcode (m' ++ t) = .error .noMatch) ∧
    (m ∈ binaryBranchNames → unaryBranchOpcode (m' ++ t) = .error .noMatch ∧
      unarySkipOpcode (m' ++ t) = .error .noMatch) ∧
    (m ∈ binarySkipNames → unaryBranchOpcode (m' ++ t) = .error .noMatch ∧
      unarySkipOpcode (m' ++ t) = .error .noMatch ∧
      binaryBranchOpcode (m' ++ t) = .error .noMatch) := by
  refine ⟨?_, ?_, ?_⟩
  · intro hm
    refine alts_fail _ m m' t hcase ?_
    simp only [unarySkipNames, List.mem_cons, List.mem_singleton, List.not_mem_nil,
      or_false] at hm
    rcases hm with h | h | h | h | h | h | h | h <;> subst h <;> rfl
  · intro hm
    simp only [binaryBranchNames, List.mem_cons, List.mem_singleton, List.not_mem_nil,
      or_false] at hm
    constructor
    · refine alts_fail _ m m' t hcase ?_
      rcases hm with h | h | h | h | h | h | h | h <;> subst h <;> rfl
    · refine alts_fail _ m m' t hcase ?_
      rcases hm with h | h | h | h | h | h | h | h <;> subst h <;> rfl
  · intro hm
    simp only [binarySkipNames, List.mem_cons, List.mem_singleton, List.not_mem_nil,
      or_false] at hm
    refine ⟨?_, ?_, ?_⟩
    · refine alts_fail _ m m' t hcase ?_
      rcases hm with h | h | h | h | h | h | h | h <;> subst h <;> rfl
    · refine alts_fail _ m m' t hcase ?_
      rcases hm with h | h | h | h | h | h | h | h <;> subst h <;> rfl
    · refine alts_fail _ m m' t hcase ?_
      rcases hm with h | h | h | h | h | h | h | h <;> subst h <;> rfl

/-- C5 (amended): a branch mnemonic (BZR, BNZ, ..., BRB, ..., BRU), in any
letter case and with a size suffix, followed by its operands and a trailing
`, target` parses as the branch form whose target field is that expression; a
skip mnemonic (SZR, SNZ, ..., IFB, ..., IFU) followed by its operands alone
parses as the skip form whose target field is empty.  Both forms of a family
are the same node type and take the opcode from the same map
(`unaryBranchOpcodes`, `binaryBranchOpcodes`), each under its own mnemonic. -/
theorem mocha_branch_and_skip_forms (L : Lex) (D : Decls) (m : String)
    (m' sfx r0 r1 r2 : List Char) (long : Bool) (dst : Operand)
    (hcase : CaseVariant m m')
    (hsfx : CaseVariant (if long then ".l" else ".w") sfx)
    (hws : L.ws1 r0 = .ok r1)
    (hdst : operand L r1 = .ok (.operand dst, r2)) :
    (m ∈ unaryBranchNames → ∀ cv r3 target r4,
      comma L r2 = .ok (cv, r3) → L.expr r3 = .ok (target, r4) →
      branchInstruction L D (m' ++ (sfx ++ r0)) =
        .ok (.mochaInstr (.unaryBranchOp (mapGet D.unaryBranchOpcodes m) long dst
          (some target)), r4)) ∧
    (m ∈ unarySkipNames →
      branchInstruction L D (m' ++ (sfx ++ r0)) =
        .ok (.mochaInstr (.unaryBranchOp (mapGet D.unaryBranchOpcodes m) long dst none), r2)) ∧
    (m ∈ binaryBranchNames → ∀ cv r3 right r4 cv2 r5 target r6,
      comma L r2 = .ok (cv, r3) → operand L r3 = .ok (.operand right, r4) →
      comma L r4 = .ok (cv2, r5) → L.expr r5 = .ok (target, r6) →
      branchInstruction L D (m' ++ (sfx ++ r0)) =
        .ok (.mochaInstr (.binaryBranchOp (mapGet D.binaryBranchOpcodes m) long dst right
          (some target)), r6)) ∧
    (m ∈ binarySkipNames → ∀ cv r3 right r4,
      comma L r2 = .ok (cv, r3) → operand L r3 = .ok (.operand right, r4) →
      branchInstruction L D (m' ++ (sfx ++ r0)) =
        .ok (.mochaInstr (.binaryBranchOp (mapGet D.binaryBranchOpcodes m) long dst right
          none), r4)) := by
  have hsuf := suffix_variant long sfx r0 hsfx
  have hdis := branch_families_disjoint m m' (sfx ++ r0) hcase
  refine ⟨?_, ?_, ?_, ?_⟩
  · intro hm cv r3 target r4 hc he
    simp only [branchInstruction, Alt, unaryBranchInstruction, WithAction, Psec.Seq, seqList,
      unaryBranchOpcode_variant m hm m' sfx r0 long hcase hsfx, hsuf, Lex.ws1P, hws, hdst, hc, Lex.exprP,
      he, unaryBranchInstructionAction, Val.asList, idx, List.get?, Val.asString, Val.asBool,
      Val.asOperand, Val.asExpr, bind, Except.bind, pure, Except.pure]
  · intro hm
    simp only [branchInstruction, Alt, unaryBranchInstruction, unarySkipInstruction, WithAction,
      Psec.Seq, seqList, hdis.1 hm,
      unarySkipOpcode_variant m hm m' sfx r0 long hcase hsfx, hsuf, Lex.ws1P, hws, hdst,
      unarySkipInstructionAction, Val.asList, idx, List.get?, Val.asString, Val.asBool,
      Val.asOperand, bind, Except.bind, pure, Except.pure]
  · intro hm cv r3 right r4 cv2 r5 target r6 hc1 ho hc2 he
    simp only [branchInstruction, Alt, unaryBranchInstruction, unarySkipInstruction,
      binaryBranchInstruction, WithAction, Psec.Seq, seqList, (hdis.2.1 hm).1, (hdis.2.1 hm).2,
      binaryBranchOpcode_variant m hm m' sfx r0 long hcase hsfx, hsuf, Lex.ws1P, hws, hdst, hc1, ho, hc2,
      Lex.exprP, he, binaryBranchInstructionAction, Val.asList, idx, List.get?, Val.asString,
      Val.asBool, Val.asOperand, Val.asExpr, bind, Except.bind, pure, Except.pure]
  · intro hm cv r3 right r4 hc1 ho
    simp only [branchInstruction, Alt, unaryBranchInstruction, unarySkipInstruction,
      binaryBranchInstruction, binarySkipInstruction, WithAction, Psec.Seq, seqList,
      (hdis.2.2 hm).1, (hdis.2.2 hm).2.1, (hdis.2.2 hm).2.2,
      binarySkipOpcode_variant m hm m' sfx r0 long hcase hsfx, hsuf, Lex.ws1P, hws, hdst, hc1, ho,
      binarySkipInstructionAction, Val.asList, idx, List.get?, Val.asString, Val.asBool,
      Val.asOperand, bind, Except.bind, pure, Except.pure]

/-- C5 (amended) at concrete inputs: `BZR.W A, 7` is a branch with target 7,
`SZR.l A` is a skip with no target. -/
theorem mocha_branch_and_skip_forms_witness :
    branchInstruction demoLex demoDecls "BZR.W A, 7".data =
      .ok (.mochaInstr (.unaryBranchOp 0 false (.regSimple 0 .rmDirect)
        (some (.Constant 7))), []) ∧
    branchInstruction demoLex demoDecls "SZR.l A".data =
      .ok (.mochaInstr (.unaryBranchOp 8 true (.regSimple 0 .rmDirect) none), []) :=
  ⟨(mocha_branch_and_skip_forms demoLex demoDecls "bzr" "BZR".data ".W".data " A, 7".data
      "A, 7".data ", 7".data false (.regSimple 0 .rmDirect) (by decide) (by decide)
      rfl rfl).1 (by decide) (.list [.nil, .str ",", .nil]) "7".data (.Constant 7) [] rfl rfl,
   (mocha_branch_and_skip_forms demoLex demoDecls "szr" "SZR".data ".l".data " A".data
      "A".data [] true (.regSimple 0 .rmDirect) (by decide) (by decide)
      rfl rfl).2.1 (by decide)⟩

/-- C5 as stated fails: the branch mnemonics `bzr` and `bre` with the comma and
the target left out (`bzr.w A`, `bre.w A, B`) do not parse as the skip form, nor
as any branch instruction, whatever the opcode maps hold. -/
theorem mocha_branch_without_target_not_skip :
    (¬ ∃ (D : Decls) (r : Val × List Char),
      branchInstruction demoLex D "bzr.w A".data = .ok r) ∧
    (¬ ∃ (D : Decls) (r : Val × List Char),
      branchInstruction demoLex D "bre.w A, B".data = .ok r) := by
  constructor
  · rintro ⟨D, r, h⟩
    have hf : branchInstruction demoLex D "bzr.w A".data = .error .noMatch := rfl
    rw [hf] at h
    cases h
  · rintro ⟨D, r, h⟩
    have hf : branchInstruction demoLex D "bre.w A, B".data = .error .noMatch := rfl
    rw [hf] at h
    cases h

/-! ### The bracketed addressing modes of the Mocha `operand` -/

theorem gp_cases (R : Char) (hR : IsGpLetter R) :
    R = 'A' ∨ R = 'B' ∨ R = 'C' ∨ R = 'X' ∨ R = 'Y' ∨ R = 'Z' ∨ R = 'I' ∨ R = 'J' ∨
    R = 'a' ∨ R = 'b' ∨ R = 'c' ∨ R = 'x' ∨ R = 'y' ∨ R = 'z' ∨ R = 'i' ∨ R = 'j' := by
  have h : R ∈ ['A', 'B', 'C', 'X', 'Y', 'Z', 'I', 'J', 'a', 'b', 'c', 'x', 'y', 'z', 'i',
      'j'] := hR
  simpa using h

theorem gpReg_gp (R : Char) (hR : IsGpLetter R) (t : List Char) :
    gpReg (R :: t) = .ok (.operand (.regSimple (regNumbers R) .rmDirect), t) := by
  have h : R ∈ "ABCXYZIJabcxyzij".data := hR
  simp only [gpReg, WithAction, OneOf, h, if_true, gpRegAction, Val.asByte, bind, Except.bind,
    pure, Except.pure, regDirect]

/-- What the literals of the grammar do in front of a register letter. -/
theorem gp_facts (R : Char) (hR : IsGpLetter R) (t : List Char) :
    startsBlank (R :: t) = false ∧
    LiteralIC "pc" (R :: t) = .error .noMatch ∧
    LiteralIC "sp" (R :: t) = .error .noMatch ∧
    amPushPop ('[' :: R :: t) = .error .noMatch ∧
    amPeek ('[' :: R :: t) = .error .noMatch ∧
    amPushPop ('-' :: '[' :: R :: t) = .error .noMatch := by
  rcases gp_cases R hR with h | h | h | h | h | h | h | h | h | h | h | h | h | h | h | h <;>
    subst h <;> exact ⟨rfl, rfl, rfl, rfl, rfl, rfl⟩

/-- In front of `[R`, with R a register letter, the `operand` alternation
comes down to its four bracket forms after the SP and PC forms. -/
theorem operand_bracket_gp (L : Lex) (hS : L.Sane) (R : Char) (hR : IsGpLetter R)
    (t : List Char) :
    operand L ('[' :: R :: t) =
      Alt [amRegIncrement L, amRegIndirect L, amLitIndirect L, amLit L] ('[' :: R :: t) := by
  obtain ⟨hb, hpc, hsp, hpp, hpk, _⟩ := gp_facts R hR t
  have hw := hS.wsline_skip (R :: t) hb
  have h3 : amSpecialReg ('[' :: R :: t) = .error .noMatch := rfl
  have hl : Literal "[" ('[' :: R :: t) = .ok (.str "[", R :: t) := rfl
  have h4 : amPcRel L ('[' :: R :: t) = .error .noMatch := by
    simp only [amPcRel, WithAction, SeqAt, seqList, hl, Lex.wslineP, hw, hpc]
  have h5 : amSpRel L ('[' :: R :: t) = .error .noMatch := by
    simp only [amSpRel, WithAction, SeqAt, seqList, hl, Lex.wslineP, hw, hsp]
  have h6 : gpReg ('[' :: R :: t) = .error .noMatch := rfl
  simp only [operand, Alt, hpp, hpk, h3, h4, h5, h6]

/-- The symbol `just reg indirect` reads `[R]`. -/
theorem justRegIndirect_gp (L : Lex) (hS : L.Sane) (R : Char) (hR : IsGpLetter R)
    (t : List Char) :
    justRegIndirect L ('[' :: R :: ']' :: t) =
      .ok (.operand (.regSimple (regNumbers R) .rmIndirect), t) := by
  have hb := (gp_facts R hR (']' :: t)).1
  have hw := hS.wsline_skip (R :: ']' :: t) hb
  have hw2 := hS.wsline_skip (']' :: t) rfl
  have hl : Literal "[" ('[' :: R :: ']' :: t) = .ok (.str "[", R :: ']' :: t) := rfl
  have hr : Literal "]" (']' :: t) = .ok (.str "]", t) := rfl
  simp only [justRegIndirect, WithAction, SeqAt, seqList, hl, Lex.wslineP, hw, gpReg_gp R hR,
    hw2, hr, List.get?, justRegIndirectAction, Val.asOperand, regOf, bind, Except.bind, pure,
    Except.pure]

/-- The symbol `just reg indirect` fails on `[R` followed by a byte that is
neither whitespace nor `]`. -/
theorem justRegIndirect_fail (L : Lex) (hS : L.Sane) (R : Char) (hR : IsGpLetter R)
    (c : Char) (t : List Char) (hc : startsBlank (c :: t) = false)
    (hc2 : Literal "]" (c :: t) = .error .noMatch) :
    justRegIndirect L ('[' :: R :: c :: t) = .error .noMatch := by
  have hb := (gp_facts R hR (c :: t)).1
  have hw := hS.wsline_skip (R :: c :: t) hb
  have hw2 := hS.wsline_skip (c :: t) hc
  have hl : Literal "[" ('[' :: R :: c :: t) = .ok (.str "[", R :: c :: t) := rfl
  simp only [justRegIndirect, WithAction, SeqAt, seqList, hl, Lex.wslineP, hw, gpReg_gp R hR,
    hw2, hc2]

theorem amRegIncrement_fail (L : Lex) (hS : L.Sane) (R : Char) (hR : IsGpLetter R)
    (c : Char) (t : List Char) (hc : startsBlank (c :: t) = false)
    (hc2 : Literal "]" (c :: t) = .error .noMatch) :
    amRegIncrement L ('[' :: R :: c :: t) = .error .noMatch := by
  have hm : Literal "-" ('[' :: R :: c :: t) = .error .noMatch := rfl
  simp only [amRegIncrement, WithAction, Psec.Seq, seqList, Optional, SeqAt, hm,
    justRegIndirect_fail L hS R hR c t hc hc2]

/-- The offset symbol reads a sign and an expression. -/
theorem offset_sign (L : Lex) (hS : L.Sane) (sign : Char) (hs : sign = '+' ∨ sign = '-')
    (ntext : List Char) (n : Expression) (rest : List Char)
    (hblank : startsBlank ntext = false) (hexpr : L.expr ntext = .ok (n, rest)) :
    offset L (sign :: ntext) =
      .ok (.expr (if sign = '-' then Unary .MINUS n else n), rest) := by
  have hw := hS.wsline_skip ntext hblank
  rcases hs with h | h <;> subst h
  · have ho : OneOf "+-" ('+' :: ntext) = .ok (.byte '+', ntext) := rfl
    simp only [offset, WithAction, Psec.Seq, seqList, ho, Lex.wslineP, hw, Lex.exprP, hexpr,
      offsetAction, Val.asList, idx, List.get?, Val.asExpr, Val.asByte, bind, Except.bind, pure,
      Except.pure]
    rfl
  · have ho : OneOf "+-" ('-' :: ntext) = .ok (.byte '-', ntext) := rfl
    simp only [offset, WithAction, Psec.Seq, seqList, ho, Lex.wslineP, hw, Lex.exprP, hexpr,
      offsetAction, Val.asList, idx, List.get?, Val.asExpr, Val.asByte, bind, Except.bind, pure,
      Except.pure]
    rfl

/-- The operand `[R+n]` or `[R-n]`. -/
theorem operand_reg_offset (L : Lex) (hS : L.Sane) (R : Char) (hR : IsGpLetter R)
    (sign : Char) (hs : sign = '+' ∨ sign = '-')
    (ntext : List Char) (n : Expression) (rest : List Char)
    (hblank : startsBlank (ntext ++ ']' :: rest) = false)
    (hexpr : L.expr (ntext ++ ']' :: rest) = .ok (n, ']' :: rest)) :
    operand L ('[' :: R :: sign :: (ntext ++ ']' :: rest)) =
      .ok (.operand (.regOffset (regNumbers R) (if sign = '-' then Unary .MINUS n else n)),
        rest) := by
  have hsb : startsBlank (sign :: (ntext ++ ']' :: rest)) = false := by
    rcases hs with h | h <;> subst h <;> rfl
  have hsl : Literal "]" (sign :: (ntext ++ ']' :: rest)) = .error .noMatch := by
    rcases hs with h | h <;> subst h <;> rfl
  have hinc := amRegIncrement_fail L hS R hR sign _ hsb hsl
  have hb := (gp_facts R hR (sign :: (ntext ++ ']' :: rest))).1
  have hw := hS.wsline_skip _ hb
  have hw2 := hS.wsline_skip _ hsb
  have hw3 := hS.wsline_skip (']' :: rest) rfl
  have hl : Literal "[" ('[' :: R :: sign :: (ntext ++ ']' :: rest)) =
      .ok (.str "[", R :: sign :: (ntext ++ ']' :: rest)) := rfl
  have hr : Literal "]" (']' :: rest) = .ok (.str "]", rest) := rfl
  have hoff := offset_sign L hS sign hs _ n _ hblank hexpr
  rw [operand_bracket_gp L hS R hR]
  simp only [Alt, hinc, amRegIndirect, WithAction, Psec.Seq, seqList, hl, Lex.wslineP, hw,
    gpReg_gp R hR, hw2, Optional, hoff, hw3, hr, amRegIndirectAction, Val.asList, idx,
    List.get?, Val.asOperand, regOf, bind, Except.bind, pure, Except.pure]

/-- The operand `[R,R2]`. -/
theorem operand_reg_indexed (L : Lex) (hS : L.Sane) (R R2 : Char) (hR : IsGpLetter R)
    (hR2 : IsGpLetter R2) (rest : List Char) :
    operand L ('[' :: R :: ',' :: R2 :: ']' :: rest) =
      .ok (.operand (.regIndexed (regNumbers R) (regNumbers R2)), rest) := by
  have hinc := amRegIncrement_fail L hS R hR ',' (R2 :: ']' :: rest) rfl rfl
  have hb := (gp_facts R hR (',' :: R2 :: ']' :: rest)).1
  have hw := hS.wsline_skip _ hb
  have hw2 := hS.wsline_skip (',' :: R2 :: ']' :: rest) rfl
  have hw3 := hS.wsline_skip (R2 :: ']' :: rest) (gp_facts R2 hR2 _).1
  have hw4 := hS.wsline_skip (']' :: rest) rfl
  have hl : Literal "[" ('[' :: R :: ',' :: R2 :: ']' :: rest) =
      .ok (.str "[", R :: ',' :: R2 :: ']' :: rest) := rfl
  have hr : Literal "]" (']' :: rest) = .ok (.str "]", rest) := rfl
  have hc : Literal "," (',' :: R2 :: ']' :: rest) = .ok (.str ",", R2 :: ']' :: rest) := rfl
  have ho : OneOf "+-" (',' :: R2 :: ']' :: rest) = .error .noMatch := rfl
  rw [operand_bracket_gp L hS R hR]
  simp only [Alt, hinc, amRegIndirect, WithAction, Psec.Seq, seqList, hl, Lex.wslineP, hw,
    gpReg_gp R hR, hw2, Optional, offset, ho, SeqAt, comma, hc, hw3, gpReg_gp R2 hR2, hw4, hr,
    amRegIndirectAction, Val.asList, idx, List.get?, Val.asOperand, regOf, bind, Except.bind,
    pure, Except.pure]

/-- The operand `-[R]`. -/
theorem operand_predecrement (L : Lex) (hS : L.Sane) (R : Char) (hR : IsGpLetter R)
    (rest : List Char) (hrest : startsBlank rest = false)
    (hplus : Literal "+" rest = .error .noMatch) :
    operand L ('-' :: '[' :: R :: ']' :: rest) =
      .ok (.operand (.regSimple (regNumbers R) .rmPredecrement), rest) := by
  have hpp := (gp_facts R hR (']' :: rest)).2.2.2.2.2
  have h2 : amPeek ('-' :: '[' :: R :: ']' :: rest) = .error .noMatch := rfl
  have h3 : amSpecialReg ('-' :: '[' :: R :: ']' :: rest) = .error .noMatch := rfl
  have hl : Literal "[" ('-' :: '[' :: R :: ']' :: rest) = .error .noMatch := rfl
  have h4 : amPcRel L ('-' :: '[' :: R :: ']' :: rest) = .error .noMatch := by
    simp only [amPcRel, WithAction, SeqAt, seqList, hl]
  have h5 : amSpRel L ('-' :: '[' :: R :: ']' :: rest) = .error .noMatch := by
    simp only [amSpRel, WithAction, SeqAt, seqList, hl]
  have h6 : gpReg ('-' :: '[' :: R :: ']' :: rest) = .error .noMatch := rfl
  have hm : Literal "-" ('-' :: '[' :: R :: ']' :: rest) =
      .ok (.str "-", '[' :: R :: ']' :: rest) := rfl
  have hw := hS.wsline_skip ('[' :: R :: ']' :: rest) rfl
  have hw2 := hS.wsline_skip rest hrest
  simp only [operand, Alt, hpp, h2, h3, h4, h5, h6, amRegIncrement, WithAction, Psec.Seq,
    seqList, Optional, SeqAt, hm, Lex.wslineP, hw, List.get?, justRegIndirect_gp L hS R hR,
    hw2, hplus, amRegIncrementAction, Val.asList, idx, Val.asOperand, regOf, Val.isStr, bind,
    Except.bind, pure, Except.pure]
  rfl

/-- The operand `[R]+`. -/
theorem operand_postincrement (L : Lex) (hS : L.Sane) (R : Char) (hR : IsGpLetter R)
    (rest : List Char) :
    operand L ('[' :: R :: ']' :: '+' :: rest) =
      .ok (.operand (.regSimple (regNumbers R) .rmPostincrement), rest) := by
  have hm : Literal "-" ('[' :: R :: ']' :: '+' :: rest) = .error .noMatch := rfl
  have hw := hS.wsline_skip ('+' :: rest) rfl
  have hp : Literal "+" ('+' :: rest) = .ok (.str "+", rest) := rfl
  rw [operand_bracket_gp L hS R hR]
  simp only [Alt, amRegIncrement, WithAction, Psec.Seq, seqList, Optional, SeqAt, hm,
    justRegIndirect_gp L hS R hR, Lex.wslineP, hw, hp, List.get?, amRegIncrementAction,
    Val.asList, idx, Val.asOperand, regOf, Val.isStr, bind, Except.bind, pure, Except.pure]
  rfl

theorem demoLex_sane : demoLex.Sane := by
  refine ⟨?_, ?_, ?_⟩
  · intro inp h
    cases inp with
    | nil => rfl
    | cons c t =>
      have hc : isSpace c = false := h
      simp [demoLex, List.dropWhile, hc]
  · intro inp h
    cases inp with
    | nil => rfl
    | cons c t =>
      have hc : (c = ' ' || c = '\t' || c = '\n' || c = '\r') = false := h
      have hi : isInline c = false := by
        simp only [Bool.or_eq_false_iff] at hc
        simp [isInline, hc.1.1.1, hc.1.1.2]
      simp [demoLex, List.dropWhile, hi]
  · intro inp h
    cases inp with
    | nil => rfl
    | cons c t =>
      have hc : isSpace c = false := h
      simp [demoLex, hc]

theorem Alt_ok_inv (ps : List Parser) (inp : List Char) (x : Val × List Char)
    (h : Alt ps inp = .ok x) : ∃ p ∈ ps, p inp = .ok x := by
  induction ps with
  | nil => simp [Alt] at h
  | cons p ps ih =>
    simp only [Alt] at h
    cases hp : p inp with
    | ok r =>
      rw [hp] at h
      exact ⟨p, List.mem_cons_self p ps, by rw [hp]; exact h⟩
    | error e =>
      rw [hp] at h
      cases e with
      | panic => simp at h
      | noMatch =>
        obtain ⟨q, hq, hq2⟩ := ih h
        exact ⟨q, List.mem_cons_of_mem p hq, hq2⟩
      | failed msg =>
        obtain ⟨q, hq, hq2⟩ := ih h
        exact ⟨q, List.mem_cons_of_mem p hq, hq2⟩

theorem WithAction_ok_inv (p : Parser) (a : Action) (inp : List Char) (w : Val)
    (r : List Char) (h : WithAction p a inp = .ok (w, r)) :
    ∃ v, p inp = .ok (v, r) ∧ a v = .ok w := by
  simp only [WithAction] at h
  cases hp : p inp with
  | error e => simp [hp] at h
  | ok x =>
    obtain ⟨v, r2⟩ := x
    rw [hp] at h
    cases ha : a v with
    | error e => simp [ha] at h
    | ok w2 =>
      simp only [ha, Except.ok.injEq, Prod.mk.injEq] at h
      obtain ⟨h1, h2⟩ := h
      subst h1
      subst h2
      exact ⟨v, rfl, ha⟩

/-- The literal forms of the operand yield an immediate. -/
theorem amLit_shape (L : Lex) (inp : List Char) (w : Val) (r : List Char) :
    (amLitIndirect L inp = .ok (w, r) → ∃ e, w = .operand (.immediate e true)) ∧
    (amLit L inp = .ok (w, r) → ∃ e, w = .operand (.immediate e false)) := by
  constructor
  · intro h
    obtain ⟨v, _, hv⟩ := WithAction_ok_inv _ _ _ _ _ h
    cases v <;> simp [amLitIndirectAction, Val.asExpr, bind, Except.bind, pure, Except.pure] at hv
    exact ⟨_, hv.symm⟩
  · intro h
    obtain ⟨v, _, hv⟩ := WithAction_ok_inv _ _ _ _ _ h
    cases v <;> simp [amLitAction, Val.asExpr, bind, Except.bind, pure, Except.pure] at hv
    exact ⟨_, hv.symm⟩

/-- The form `am reg indirect` never yields a post-increment or pre-decrement
operand. -/
theorem amRegIndirect_shape (L : Lex) (inp : List Char) (w : Val) (r : List Char)
    (h : amRegIndirect L inp = .ok (w, r)) :
    ∀ reg, w ≠ .operand (.regSimple reg .rmPostincrement) ∧
      w ≠ .operand (.regSimple reg .rmPredecrement) := by
  obtain ⟨v, _, hv⟩ := WithAction_ok_inv _ _ _ _ _ h
  intro reg
  simp only [amRegIndirectAction, bind, Except.bind, pure, Except.pure] at hv
  cases h1 : v.asList with
  | error e => simp [h1] at hv
  | ok rs =>
    simp only [h1] at hv
    cases h2 : idx rs 2 with
    | error e => simp [h2] at hv
    | ok v2 =>
      simp only [h2] at hv
      cases h3 : v2.asOperand with
      | error e => simp [h3] at hv
      | ok o =>
        simp only [h3] at hv
        cases h4 : regOf o with
        | error e => simp [h4] at hv
        | ok base =>
          simp only [h4] at hv
          cases h5 : idx rs 4 with
          | error e => simp [h5] at hv
          | ok v4 =>
            simp only [h5] at hv
            split at hv <;> cases hv <;> simp

/-- C6 (amended): for a lexical grammar whose whitespace symbols consume
nothing in front of a byte that is not whitespace, all register letters R and
R2 and every expression n (read by `expr` from a text that stops at `]`), the
Mocha `operand` parser succeeds on `[R+n]`, `[R-n]`, `[R,R2]`, `-[R]` and
`[R]+` and yields register-offset (R, n), register-offset (R, unary minus of
n), register-indexed (R, R2), pre-decrement on R and post-increment on R; in
none of the five cases is the result the plain-indirect operand on R. -/
theorem mocha_operand_addressing_modes (L : Lex) (hS : L.Sane) (R R2 : Char)
    (hR : IsGpLetter R) (hR2 : IsGpLetter R2) (ntext : List Char) (n : Expression)
    (rest : List Char)
    (hblank : startsBlank (ntext ++ ']' :: rest) = false)
    (hexpr : L.expr (ntext ++ ']' :: rest) = .ok (n, ']' :: rest))
    (hrest : startsBlank rest = false) (hplus : rest.head? ≠ some '+') :
    operand L ('[' :: R :: '+' :: (ntext ++ ']' :: rest)) =
      .ok (.operand (.regOffset (regNumbers R) n), rest) ∧
    operand L ('[' :: R :: '-' :: (ntext ++ ']' :: rest)) =
      .ok (.operand (.regOffset (regNumbers R) (Unary .MINUS n)), rest) ∧
    operand L ('[' :: R :: ',' :: R2 :: ']' :: rest) =
      .ok (.operand (.regIndexed (regNumbers R) (regNumbers R2)), rest) ∧
    operand L ('-' :: '[' :: R :: ']' :: rest) =
      .ok (.operand (.regSimple (regNumbers R) .rmPredecrement), rest) ∧
    operand L ('[' :: R :: ']' :: '+' :: rest) =
      .ok (.operand (.regSimple (regNumbers R) .rmPostincrement), rest) ∧
    (∀ inp ∈ [('[' :: R :: '+' :: (ntext ++ ']' :: rest)),
        ('[' :: R :: '-' :: (ntext ++ ']' :: rest)), ('[' :: R :: ',' :: R2 :: ']' :: rest),
        ('-' :: '[' :: R :: ']' :: rest), ('[' :: R :: ']' :: '+' :: rest)],
      ∀ r, operand L inp ≠ .ok (.operand (.regSimple (regNumbers R) .rmIndirect), r)) := by
  have hp : Literal "+" rest = .error .noMatch := by
    cases rest with
    | nil => rfl
    | cons c t =>
      have hc : ¬ ('+' = c) := by
        intro hh
        exact hplus (by rw [← hh]; rfl)
      simp [Literal, stripLit, hc]
  have h1 := operand_reg_offset L hS R hR '+' (Or.inl rfl) ntext n rest hblank hexpr
  have h2 := operand_reg_offset L hS R hR '-' (Or.inr rfl) ntext n rest hblank hexpr
  have h3 := operand_reg_indexed L hS R R2 hR hR2 rest
  have h4 := operand_predecrement L hS R hR rest hrest hp
  have h5 := operand_postincrement L hS R hR rest
  have e1 : (if ('+' : Char) = '-' then Unary .MINUS n else n) = n := rfl
  have e2 : (if ('-' : Char) = '-' then Unary .MINUS n else n) = Unary .MINUS n := rfl
  rw [e1] at h1
  rw [e2] at h2
  refine ⟨h1, h2, h3, h4, h5, ?_⟩
  intro inp hin r
  simp only [List.mem_cons, List.mem_singleton, List.not_mem_nil, or_false] at hin
  rcases hin with h | h | h | h | h <;> subst h
  · rw [h1]; simp
  · rw [h2]; simp
  · rw [h3]; simp
  · rw [h4]; simp
  · rw [h5]; simp

/-- C6 (amended) at concrete inputs: `[A+12]`, `[A-12]`, `[A,b]`, `-[A]` and
`[A]+`. -/
theorem mocha_operand_addressing_modes_witness :
    operand demoLex "[A+12]".data = .ok (.operand (.regOffset 0 (.Constant 12)), []) ∧
    operand demoLex "[A-12]".data =
      .ok (.operand (.regOffset 0 (.UnaryOp .MINUS (.Constant 12))), []) ∧
    operand demoLex "[A,b]".data = .ok (.operand (.regIndexed 0 1), []) ∧
    operand demoLex "-[A]".data = .ok (.operand (.regSimple 0 .rmPredecrement), []) ∧
    operand demoLex "[A]+".data = .ok (.operand (.regSimple 0 .rmPostincrement), []) := by
  have h := mocha_operand_addressing_modes demoLex demoLex_sane 'A' 'b' (by decide) (by decide)
    "12".data (.Constant 12) [] rfl rfl rfl (by decide)
  exact ⟨h.1, h.2.1, h.2.2.1, h.2.2.2.1, h.2.2.2.2.1⟩

/-- C6 as stated fails: with the sign inside the brackets, `[-A]` does not
parse to the pre-decrement operand on A and `[A+]` does not parse to the
post-increment operand on A, for any lexical grammar whose whitespace symbols
consume nothing in front of a byte that is not whitespace (such as the sample
one, on which the `operand` parser fails on both). -/
theorem mocha_sign_inside_brackets_not_inc_dec :
    (¬ ∃ (L : Lex) (r : List Char), L.Sane ∧
      operand L "[-A]".data = .ok (.operand (.regSimple 0 .rmPredecrement), r)) ∧
    (¬ ∃ (L : Lex) (r : List Char), L.Sane ∧
      operand L "[A+]".data = .ok (.operand (.regSimple 0 .rmPostincrement), r)) ∧
    demoLex.Sane ∧
    operand demoLex "[-A]".data = .error .noMatch ∧
    operand demoLex "[A+]".data = .error .noMatch := by
  refine ⟨?_, ?_, demoLex_sane, rfl, rfl⟩
  · rintro ⟨L, r, hS, h⟩
    have hw := hS.wsline_skip "-A]".data rfl
    have hl : Literal "[" "[-A]".data = .ok (.str "[", "-A]".data) := rfl
    have h1 : amPushPop "[-A]".data = .error .noMatch := rfl
    have h2 : amPeek "[-A]".data = .error .noMatch := rfl
    have h3 : amSpecialReg "[-A]".data = .error .noMatch := rfl
    have hpc : LiteralIC "pc" "-A]".data = .error .noMatch := rfl
    have hsp : LiteralIC "sp" "-A]".data = .error .noMatch := rfl
    have hg : gpReg "-A]".data = .error .noMatch := rfl
    have hm : Literal "-" "[-A]".data = .error .noMatch := rfl
    have h4 : amPcRel L "[-A]".data = .error .noMatch := by
      simp only [amPcRel, WithAction, SeqAt, seqList, hl, Lex.wslineP, hw, hpc]
    have h5 : amSpRel L "[-A]".data = .error .noMatch := by
      simp only [amSpRel, WithAction, SeqAt, seqList, hl, Lex.wslineP, hw, hsp]
    have h6 : gpReg "[-A]".data = .error .noMatch := rfl
    have h7 : amRegIncrement L "[-A]".data = .error .noMatch := by
      simp only [amRegIncrement, WithAction, Psec.Seq, seqList, Optional, SeqAt, hm,
        justRegIndirect, hl, Lex.wslineP, hw, hg]
    have h8 : amRegIndirect L "[-A]".data = .error .noMatch := by
      simp only [amRegIndirect, WithAction, Psec.Seq, seqList, hl, Lex.wslineP, hw, hg]
    simp only [operand, Alt, h1, h2, h3, h4, h5, h6, h7, h8] at h
    obtain ⟨p, hp, hp2⟩ := Alt_ok_inv [amLitIndirect L, amLit L] _ _
      (by simpa only [Alt] using h)
    simp only [List.mem_cons, List.mem_singleton, List.not_mem_nil, or_false] at hp
    rcases hp with hp | hp <;> subst hp
    · obtain ⟨e, he⟩ := (amLit_shape L _ _ _).1 hp2
      simp at he
    · obtain ⟨e, he⟩ := (amLit_shape L _ _ _).2 hp2
      simp at he
  · rintro ⟨L, r, hS, h⟩
    have hA : IsGpLetter 'A' := by decide
    rw [show "[A+]".data = '[' :: 'A' :: '+' :: [']'] from rfl,
      operand_bracket_gp L hS 'A' hA] at h
    obtain ⟨p, hp, hp2⟩ := Alt_ok_inv _ _ _ h
    simp only [List.mem_cons, List.mem_singleton, List.not_mem_nil, or_false] at hp
    rcases hp with hp | hp | hp | hp <;> subst hp
    · rw [amRegIncrement_fail L hS 'A' hA '+' [']'] rfl rfl] at hp2
      simp at hp2
    · exact (amRegIndirect_shape L _ _ _ hp2 0).1 rfl
    · obtain ⟨e, he⟩ := (amLit_shape L _ _ _).1 hp2
      simp at he
    · obtain ⟨e, he⟩ := (amLit_shape L _ _ _).2 hp2
      simp at he

/-! ### The directive `symbol` and its synonyms -/

/-- The alternation of the six spellings reads each of them, in any letter
case, in front of whitespace: the longer spellings come first. -/
theorem dirSymbol_keyword (k : String)
    (hk : k ∈ ["symbol", "sym", "equ", "set", "define", "def"]) (k' r0 : List Char)
    (hcase : CaseVariant k k') (hblank : startsBlank r0 = true) :
    Alt (["symbol", "sym", "equ", "set", "define", "def"].map LiteralIC) (k' ++ r0) =
      .ok (.str k, r0) := by
  cases r0 with
  | nil => simp [startsBlank] at hblank
  | cons c t =>
    have hc : c = ' ' ∨ c = '\t' ∨ c = '\n' ∨ c = '\r' := by
      simpa [startsBlank, or_assoc] using hblank
    have key : Alt (["symbol", "sym", "equ", "set", "define", "def"].map LiteralIC)
        (k.data ++ ([] ++ c :: t)) = .ok (.str k, [] ++ c :: t) := by
      simp only [List.mem_cons, List.mem_singleton, List.not_mem_nil, or_false] at hk
      rcases hc with h | h | h | h <;> subst h <;>
        rcases hk with h | h | h | h | h | h <;> subst h <;> rfl
    exact Alt_LiteralIC_variant _ k k' k.data [] [] (c :: t) hcase rfl key

/-- C11: each of the six spellings symbol, sym, equ, set, define and def, in
every letter case, followed by whitespace, an identifier x, a comma between
optional whitespace and an expression e, is accepted by `dir:symbol`, and all
of them yield DefineSymbol(x, e); the longer spellings `symbol` and `define`
are read whole, not cut short to `sym` and `def`. -/
theorem dirSymbol_synonyms (L : Lex) (k : String) (k' r0 r1 r2 r3 r4 r5 r6 : List Char)
    (x : String) (e : Expression)
    (hk : k ∈ ["symbol", "sym", "equ", "set", "define", "def"])
    (hcase : CaseVariant k k') (hblank : startsBlank r0 = true)
    (h0 : L.ws1 r0 = .ok r1) (h1 : L.identifier r1 = .ok (x, r2))
    (h2 : L.ws r2 = .ok r3) (h3 : r3 = ',' :: r4)
    (h4 : L.ws r4 = .ok r5) (h5 : L.expr r5 = .ok (e, r6)) :
    dirSymbol L (k' ++ r0) = .ok (.directive (.DefineSymbol x e), r6) ∧
    Alt (["symbol", "sym", "equ", "set", "define", "def"].map LiteralIC) (k' ++ r0) =
      .ok (.str k, r0) := by
  subst h3
  have hkey := dirSymbol_keyword k hk k' r0 hcase hblank
  refine ⟨?_, hkey⟩
  simp only [List.map_cons, List.map_nil] at hkey
  have hc : Literal "," (',' :: r4) = .ok (.str ",", r4) := rfl
  simp only [dirSymbol, WithAction, Psec.Seq, seqList, hkey, Lex.ws1P, h0, Lex.identifierP, h1,
    Lex.wsP, h2, hc, h4, Lex.exprP, h5, dirSymbolAction, Val.asList, idx, List.get?,
    Val.asString, Val.asExpr, bind, Except.bind, pure, Except.pure]

/-- C11 at concrete inputs: `SYMBOL counter, 5`, `Define counter, 5` and
`def counter, 5` all give DefineSymbol("counter", 5). -/
theorem dirSymbol_synonyms_witness :
    dirSymbol demoLex "SYMBOL counter, 5".data =
      .ok (.directive (.DefineSymbol "counter" (.Constant 5)), []) ∧
    dirSymbol demoLex "Define counter, 5".data =
      .ok (.directive (.DefineSymbol "counter" (.Constant 5)), []) ∧
    dirSymbol demoLex "def counter, 5".data =
      .ok (.directive (.DefineSymbol "counter" (.Constant 5)), []) :=
  ⟨(dirSymbol_synonyms demoLex "symbol" "SYMBOL".data " counter, 5".data "counter, 5".data
      ", 5".data ", 5".data " 5".data "5".data [] "counter" (.Constant 5) (by decide)
      (by decide) rfl rfl rfl rfl rfl rfl rfl).1,
   (dirSymbol_synonyms demoLex "define" "Define".data " counter, 5".data "counter, 5".data
      ", 5".data ", 5".data " 5".data "5".data [] "counter" (.Constant 5) (by decide)
      (by decide) rfl rfl rfl rfl rfl rfl rfl).1,
   (dirSymbol_synonyms demoLex "def" "def".data " counter, 5".data "counter, 5".data
      ", 5".data ", 5".data " 5".data "5".data [] "counter" (.Constant 5) (by decide)
      (by decide) rfl rfl rfl rfl rfl rfl rfl).1⟩

/-! ### The DCPU form `[reg+index]` -/

/-- C14: in the action of the DCPU form `[reg+index]`, for every base the
alternation can yield (the `*arg` of a register, or the string `sp` in any
letter case) and every expression e: with the operator `~` the action fails
with `expected + or -, or ], not ~`; with `+` it yields the indirect operand
with the register number and special code of the base (0x1a for SP) and
offset e; with `-` the same operand with offset UnaryOp(MINUS, e).  In none of
these cases is the base nil when its fields are read. -/
theorem dcpu_reg_index_action (e : Expression) (v0 v1 v3 v5 v7 v8 : Val) :
    (∀ a : Dcpu.Arg,
      Dcpu.regIndexAction (.list [v0, v1, .arg a, v3, .operator .NOT, v5, .expr e, v7, v8]) =
        .error (.failed "expected + or -, or ], not ~") ∧
      Dcpu.regIndexAction (.list [v0, v1, .arg a, v3, .operator .PLUS, v5, .expr e, v7, v8]) =
        .ok (.arg { reg := a.reg, special := a.special, indirect := true, offset := some e }) ∧
      Dcpu.regIndexAction (.list [v0, v1, .arg a, v3, .operator .MINUS, v5, .expr e, v7, v8]) =
        .ok (.arg
          { reg := a.reg, special := a.special, indirect := true,
            offset := some (.UnaryOp .MINUS e) })) ∧
    (∀ s ∈ ["sp", "SP", "Sp", "sP"],
      Dcpu.regIndexAction (.list [v0, v1, .str s, v3, .operator .NOT, v5, .expr e, v7, v8]) =
        .error (.failed "expected + or -, or ], not ~") ∧
      Dcpu.regIndexAction (.list [v0, v1, .str s, v3, .operator .PLUS, v5, .expr e, v7, v8]) =
        .ok (.arg { reg := 0, special := 0x1a, indirect := true, offset := some e }) ∧
      Dcpu.regIndexAction (.list [v0, v1, .str s, v3, .operator .MINUS, v5, .expr e, v7, v8]) =
        .ok (.arg
          { reg := 0, special := 0x1a, indirect := true,
            offset := some (.UnaryOp .MINUS e) })) := by
  constructor
  · intro a
    exact ⟨rfl, rfl, rfl⟩
  · intro s hs
    simp only [List.mem_cons, List.mem_singleton, List.not_mem_nil, or_false] at hs
    rcases hs with h | h | h | h <;> subst h <;> exact ⟨rfl, rfl, rfl⟩

/-- C14 at concrete inputs, through the parser: `[a+1]`, `[SP - 2]` and `[a~1]`. -/
theorem dcpu_reg_index_action_witness :
    Dcpu.regIndex demoLex "[a+1]".data =
      .ok (.arg { reg := 0, special := 0, indirect := true, offset := some (.Constant 1) }, []) ∧
    Dcpu.regIndex demoLex "[SP - 2]".data =
      .ok (.arg
        { reg := 0, special := 0x1a, indirect := true,
          offset := some (.UnaryOp .MINUS (.Constant 2)) }, []) ∧
    Dcpu.regIndex demoLex "[a~1]".data = .error (.failed "expected + or -, or ], not ~") := by
  have h := (dcpu_reg_index_action (.Constant 1) (.str "[") .nil .nil .nil .nil
    (.str "]")).1 { reg := 0 }
  refine ⟨?_, rfl, ?_⟩
  · have hp := h.2.1
    simp only [Dcpu.regIndex, WithAction]
    exact (congrArg (fun x => match x with
      | .error err => (Except.error err : Result)
      | .ok v => .ok (v, [])) hp)
  · have hp := h.1
    simp only [Dcpu.regIndex, WithAction]
    exact (congrArg (fun x => match x with
      | .error err => (Except.error err : Result)
      | .ok v => .ok (v, [])) hp)

/-! ### The bit-twiddler instructions -/

/-- C16: in the action of `twiddler instruction`, for every mnemonic with
table opcode v, size flag s and destination d: when the bit index is a bare
register with number k (0..7) the node has opcode v OR 4, bit Constant(k), dst
d and size flag s; when it is an expression e the node has opcode v, bit e,
dst d and size flag s. -/
theorem mocha_twiddler_bit_index (D : Decls) (op : String) (s : Bool) (d : Operand)
    (k : Nat) (e : Expression) (w c : Val) (hk : k ≤ 7) :
    twiddlerInstructionAction D
        (.list [.str op, .bool s, w, .operand d, c, .operand (regDirect k)]) =
      .ok (.mochaInstr (.bitTwiddlerOp (mapGet D.bitTwiddlerOpcodes op ||| 4) s d
        (.Constant k))) ∧
    twiddlerInstructionAction D (.list [.str op, .bool s, w, .operand d, c, .expr e]) =
      .ok (.mochaInstr (.bitTwiddlerOp (mapGet D.bitTwiddlerOpcodes op) s d e)) := by
  have hu : uint32 k = k := Nat.mod_eq_of_lt (by omega)
  constructor
  · simp only [twiddlerInstructionAction, Val.asList, idx, List.get?, Val.asString, Val.asBool,
      Val.asOperand, regDirect, regOf, hu, bind, Except.bind, pure, Except.pure]
  · simp only [twiddlerInstructionAction, Val.asList, idx, List.get?, Val.asString, Val.asBool,
      Val.asOperand, bind, Except.bind, pure, Except.pure]

/-- C16 at concrete inputs, through the parser: `BTS.w [A], c` and `bts.w [A], 3`. -/
theorem mocha_twiddler_bit_index_witness :
    twiddlerInstruction demoLex demoDecls "BTS.w [A], c".data =
      .ok (.mochaInstr (.bitTwiddlerOp 13 false (.regSimple 0 .rmIndirect) (.Constant 2)), []) ∧
    twiddlerInstruction demoLex demoDecls "bts.w [A], 3".data =
      .ok (.mochaInstr (.bitTwiddlerOp 9 false (.regSimple 0 .rmIndirect) (.Constant 3)), []) := by
  have h := mocha_twiddler_bit_index demoDecls "bts" false (.regSimple 0 .rmIndirect) 2
    (.Constant 3) .nil (.list [.nil, .str ",", .nil]) (by decide)
  refine ⟨?_, ?_⟩
  · have hp := h.1
    simp only [twiddlerInstruction, WithAction]
    exact (congrArg (fun x => match x with
      | .error err => (Except.error err : Result)
      | .ok v => .ok (v, [])) hp)
  · have hp := h.2
    simp only [twiddlerInstruction, WithAction]
    exact (congrArg (fun x => match x with
      | .error err => (Except.error err : Result)
      | .ok v => .ok (v, [])) hp)

/-! ### The size of the DCPU binary opcode table -/

/-- C17 (amended): the DCPU map `binaryOpcodes` (SET, ADD, SUB, ..., STD) has
exactly 27 entries, under 27 different mnemonics. -/
theorem dcpu_binary_table_size :
    Dcpu.binaryOpcodesTable.length = 27 ∧
    (Dcpu.binaryOpcodesTable.map Prod.fst).Nodup ∧
    Dcpu.unaryOpcodesTable.length = 12 := by
  refine ⟨rfl, by decide, rfl⟩

/-- C17 as stated fails: the map `binaryOpcodes` does not have 28 entries. -/
theorem dcpu_binary_table_not_28 : ¬ (Dcpu.binaryOpcodesTable.length = 28) := by
  decide

/-! ### The Mocha form `am reg increment` -/

theorem amRegIncrement_run (L : Lex) (hS : L.Sane) (R : Char) (hR : IsGpLetter R)
    (rest : List Char) (hrest : startsBlank rest = false)
    (hplus : Literal "+" rest = .error .noMatch) :
    amRegIncrement L ('-' :: '[' :: R :: ']' :: '+' :: rest) =
      .ok (.operand (.regSimple (regNumbers R) .rmPredecrement), rest) ∧
    amRegIncrement L ('-' :: '[' :: R :: ']' :: rest) =
      .ok (.operand (.regSimple (regNumbers R) .rmPredecrement), rest) ∧
    amRegIncrement L ('[' :: R :: ']' :: '+' :: rest) =
      .ok (.operand (.regSimple (regNumbers R) .rmPostincrement), rest) ∧
    amRegIncrement L ('[' :: R :: ']' :: rest) =
      .ok (.operand (.regSimple (regNumbers R) .rmIndirect), rest) := by
  have hm : ∀ t, Literal "-" ('-' :: t) = .ok (.str "-", t) := fun _ => rfl
  have hm2 : ∀ t, Literal "-" ('[' :: t) = .error .noMatch := fun _ => rfl
  have hw : ∀ t, L.wsline ('[' :: t) = .ok ('[' :: t) := fun t => hS.wsline_skip _ rfl
  have hw2 := hS.wsline_skip rest hrest
  have hw3 := hS.wsline_skip ('+' :: rest) rfl
  have hp : Literal "+" ('+' :: rest) = .ok (.str "+", rest) := rfl
  refine ⟨?_, ?_, ?_, ?_⟩
  · simp only [amRegIncrement, WithAction, Psec.Seq, seqList, Optional, SeqAt, hm, Lex.wslineP,
      hw, List.get?, justRegIndirect_gp L hS R hR, hw3, hp, amRegIncrementAction, Val.asList,
      idx, Val.asOperand, regOf, Val.isStr, bind, Except.bind, pure, Except.pure]
    rfl
  · simp only [amRegIncrement, WithAction, Psec.Seq, seqList, Optional, SeqAt, hm, Lex.wslineP,
      hw, List.get?, justRegIndirect_gp L hS R hR, hw2, hplus, amRegIncrementAction, Val.asList,
      idx, Val.asOperand, regOf, Val.isStr, bind, Except.bind, pure, Except.pure]
    rfl
  · simp only [amRegIncrement, WithAction, Psec.Seq, seqList, Optional, SeqAt, hm2,
      justRegIndirect_gp L hS R hR, Lex.wslineP, hw3, hp, List.get?, amRegIncrementAction,
      Val.asList, idx, Val.asOperand, regOf, Val.isStr, bind, Except.bind, pure, Except.pure]
    rfl
  · simp only [amRegIncrement, WithAction, Psec.Seq, seqList, Optional, SeqAt, hm2,
      justRegIndirect_gp L hS R hR, Lex.wslineP, hw2, hplus, List.get?, amRegIncrementAction,
      Val.asList, idx, Val.asOperand, regOf, Val.isStr, bind, Except.bind, pure, Except.pure]
    rfl

/-- C18: for every combination of an optional leading `-` and an optional
trailing `+` around `[R]`, the action of `am reg increment` returns the
register-indirect operand on R, register number unchanged, with one
addressing sub-mode: pre-decrement exactly when the leading `-` is there (also
with a trailing `+`), otherwise post-increment exactly when the trailing `+`
is there, otherwise plain indirect.  The symbol reads the four texts `-[R]+`,
`-[R]`, `[R]+` and `[R]` accordingly. -/
theorem mocha_reg_increment_modes (L : Lex) (hS : L.Sane) (n : Nat) (R : Char)
    (hR : IsGpLetter R) (rest : List Char) (hrest : startsBlank rest = false)
    (hplus : rest.head? ≠ some '+') :
    (amRegIncrementAction (.list [.str "-", .operand (.regSimple n .rmIndirect), .str "+"]) =
        .ok (.operand (.regSimple n .rmPredecrement)) ∧
      amRegIncrementAction (.list [.str "-", .operand (.regSimple n .rmIndirect), .nil]) =
        .ok (.operand (.regSimple n .rmPredecrement)) ∧
      amRegIncrementAction (.list [.nil, .operand (.regSimple n .rmIndirect), .str "+"]) =
        .ok (.operand (.regSimple n .rmPostincrement)) ∧
      amRegIncrementAction (.list [.nil, .operand (.regSimple n .rmIndirect), .nil]) =
        .ok (.operand (.regSimple n .rmIndirect))) ∧
    (amRegIncrement L ('-' :: '[' :: R :: ']' :: '+' :: rest) =
        .ok (.operand (.regSimple (regNumbers R) .rmPredecrement), rest) ∧
      amRegIncrement L ('-' :: '[' :: R :: ']' :: rest) =
        .ok (.operand (.regSimple (regNumbers R) .rmPredecrement), rest) ∧
      amRegIncrement L ('[' :: R :: ']' :: '+' :: rest) =
        .ok (.operand (.regSimple (regNumbers R) .rmPostincrement), rest) ∧
      amRegIncrement L ('[' :: R :: ']' :: rest) =
        .ok (.operand (.regSimple (regNumbers R) .rmIndirect), rest)) := by
  have hp : Literal "+" rest = .error .noMatch := by
    cases rest with
    | nil => rfl
    | cons c t =>
      have hc : ¬ ('+' = c) := by
        intro hh
        exact hplus (by rw [← hh]; rfl)
      simp [Literal, stripLit, hc]
  exact ⟨⟨rfl, rfl, rfl, rfl⟩, amRegIncrement_run L hS R hR rest hrest hp⟩

/-- C18 at concrete inputs: `-[x]+`, `-[x]`, `[x]+` and `[x]`. -/
theorem mocha_reg_increment_modes_witness :
    amRegIncrement demoLex "-[x]+".data = .ok (.operand (.regSimple 3 .rmPredecrement), []) ∧
    amRegIncrement demoLex "-[x]".data = .ok (.operand (.regSimple 3 .rmPredecrement), []) ∧
    amRegIncrement demoLex "[x]+".data = .ok (.operand (.regSimple 3 .rmPostincrement), []) ∧
    amRegIncrement demoLex "[x]".data = .ok (.operand (.regSimple 3 .rmIndirect), []) :=
  (mocha_reg_increment_modes demoLex demoLex_sane 3 'x' (by decide) [] rfl (by decide)).2

/-! ### The Mocha unary instructions -/

/-- C20: for every suffixed unary mnemonic (NOT, NEG, JSR, IAQ, LOG, HWI) with
table opcode v and every operand d, the parsed node has dst d and opcode
v OR 1 when the size suffix is `.l` and opcode v when it is `.w`; for the
basic unary mnemonics (SWP, PEA, EXT, INT) the opcode of the node is the table
opcode as it is. -/
theorem mocha_unary_opcode_bits (L : Lex) (D : Decls) (m : String)
    (m' sfx r0 r1 r2 : List Char) (long : Bool) (d : Operand)
    (hcase : CaseVariant m m')
    (hsfx : CaseVariant (if long then ".l" else ".w") sfx)
    (hws : L.ws1 r0 = .ok r1)
    (hdst : operand L r1 = .ok (.operand d, r2)) :
    (m ∈ ["not", "neg", "jsr", "iaq", "log", "hwi"] →
      unarySuffixedInstruction L D (m' ++ (sfx ++ r0)) =
        .ok (.mochaInstr (.unaryOp
          (if long then mapGet D.unaryOpcodes m ||| 1 else mapGet D.unaryOpcodes m) d), r2)) ∧
    (m ∈ ["swp", "pea", "ext", "int"] →
      ∀ i r, unaryBasicInstruction L D (m' ++ r0) = .ok (.mochaInstr i, r) →
        i = .unaryOp (mapGet D.unaryOpcodes m) d ∧ r = r2) ∧
    (m ∈ ["swp", "ext", "int"] →
      unaryBasicInstruction L D (m' ++ r0) =
        .ok (.mochaInstr (.unaryOp (mapGet D.unaryOpcodes m) d), r2)) := by
  have hb : m ∈ ["swp", "pea", "ext", "int"] →
      unaryBasicOpcodes (m' ++ r0) = .ok (.str m, r0) := by
    intro hm
    have key : Alt (["swp", "pea", "ext", "int"].map LiteralIC) (m.data ++ ([] ++ r0)) =
        .ok (.str m, [] ++ r0) := by
      simp only [List.mem_cons, List.mem_singleton, List.not_mem_nil, or_false] at hm
      rcases hm with h | h | h | h <;> subst h <;> rfl
    exact Alt_LiteralIC_variant _ m m' m.data [] [] r0 hcase rfl key
  refine ⟨?_, ?_, ?_⟩
  · intro hm
    have hop : unarySuffixedOpcodes (m' ++ (sfx ++ r0)) = .ok (.str m, sfx ++ r0) := by
      refine alts_mnemonic_suffix _ m m' sfx r0 long hcase hsfx ?_
      intro b
      simp only [List.mem_cons, List.mem_singleton, List.not_mem_nil, or_false] at hm
      rcases hm with h | h | h | h | h | h <;> subst h <;> cases b <;> rfl
    simp only [unarySuffixedInstruction, WithAction, Psec.Seq, seqList, hop,
      suffix_variant long sfx r0 hsfx, Lex.ws1P, hws, hdst, unarySuffixedInstructionAction,
      Val.asList, idx, List.get?, Val.asString, Val.asBool, Val.asOperand, bind, Except.bind,
      pure, Except.pure]
  · intro hm i r h
    simp only [unaryBasicInstruction, WithAction, Psec.Seq, seqList, hb hm, Lex.ws1P, hws, hdst,
      unaryBasicInstructionAction, Val.asList, idx, List.get?, Val.asString, Val.asOperand,
      bind, Except.bind, pure, Except.pure] at h
    split_ifs at h
    simp only [Except.ok.injEq, Prod.mk.injEq, Val.mochaInstr.injEq] at h
    exact ⟨h.1.symm, h.2.symm⟩
  · intro hm
    have hm2 : m ∈ ["swp", "pea", "ext", "int"] := by
      simp only [List.mem_cons, List.mem_singleton, List.not_mem_nil, or_false] at hm ⊢
      rcases hm with h | h | h
      · exact Or.inl h
      · exact Or.inr (Or.inr (Or.inl h))
      · exact Or.inr (Or.inr (Or.inr h))
    have hne : m ≠ "pea" := by
      simp only [List.mem_cons, List.mem_singleton, List.not_mem_nil, or_false] at hm
      rcases hm with h | h | h <;> subst h <;> decide
    simp only [unaryBasicInstruction, WithAction, Psec.Seq, seqList, hb hm2, Lex.ws1P, hws, hdst,
      unaryBasicInstructionAction, Val.asList, idx, List.get?, Val.asString, Val.asOperand,
      bind, Except.bind, pure, Except.pure, hne, false_and, if_false]

/-- C20 at concrete inputs: `NOT.L [A]`, `not.w [A]` and `SWP [A]`. -/
theorem mocha_unary_opcode_bits_witness :
    unarySuffixedInstruction demoLex demoDecls "NOT.L [A]".data =
      .ok (.mochaInstr (.unaryOp 11 (.regSimple 0 .rmIndirect)), []) ∧
    unarySuffixedInstruction demoLex demoDecls "not.w [A]".data =
      .ok (.mochaInstr (.unaryOp 10 (.regSimple 0 .rmIndirect)), []) ∧
    unaryBasicInstruction demoLex demoDecls "SWP [A]".data =
      .ok (.mochaInstr (.unaryOp 2 (.regSimple 0 .rmIndirect)), []) :=
  ⟨(mocha_unary_opcode_bits demoLex demoDecls "not" "NOT".data ".L".data " [A]".data
      "[A]".data [] true (.regSimple 0 .rmIndirect) (by decide) (by decide) rfl rfl).1
      (by decide),
   (mocha_unary_opcode_bits demoLex demoDecls "not" "not".data ".w".data " [A]".data
      "[A]".data [] false (.regSimple 0 .rmIndirect) (by decide) (by decide) rfl rfl).1
      (by decide),
   (mocha_unary_opcode_bits demoLex demoDecls "swp" "SWP".data ".w".data " [A]".data
      "[A]".data [] false (.regSimple 0 .rmIndirect) (by decide) (by decide) rfl rfl).2.2
      (by decide)⟩

/-! ### The size suffix -/

theorem stripLit_some_split (pat : List Char) :
    ∀ (inp r : List Char), stripLit true pat inp = some r →
      ∃ a, inp = a ++ r ∧ a.map lower = pat.map lower := by
  induction pat with
  | nil =>
    intro inp r h
    simp only [stripLit, Option.some.injEq] at h
    exact ⟨[], by simp [h], rfl⟩
  | cons c cs ih =>
    intro inp r h
    cases inp with
    | nil => simp [stripLit] at h
    | cons d ds =>
      simp only [stripLit, if_true] at h
      split_ifs at h with hc
      obtain ⟨a, ha, hm⟩ := ih ds r h
      exact ⟨d :: a, by simp [ha], by simp [hm, hc]⟩

theorem LiteralIC_not_ahead (k : String) (inp : List Char) (h : NotAhead k inp) :
    LiteralIC k inp = .error .noMatch := by
  simp only [LiteralIC]
  cases hs : stripLit true k.data inp with
  | none => rfl
  | some r =>
    obtain ⟨a, ha, hm⟩ := stripLit_some_split k.data inp r hs
    exact absurd hm (h a r ha)

/-- C15: the `suffix` rule yields the long flag true for `.l` and false for
`.w`, in either letter case; when neither is ahead, the optional part yields
nil, and the action does not succeed with a default size: it calls the hook
`core.AsmError` with the location and the message `size suffix required` and
fails with the error `size suffix required`. -/
theorem mocha_suffix_rule (Loc : Type) (loc : Loc) (sfx t inp : List Char) :
    (CaseVariant ".l" sfx → suffix (sfx ++ t) = .ok (.bool true, t)) ∧
    (CaseVariant ".w" sfx → suffix (sfx ++ t) = .ok (.bool false, t)) ∧
    (NotAhead ".l" inp → NotAhead ".w" inp →
      Optional (Alt [LiteralIC ".l", LiteralIC ".w"]) inp = .ok (.nil, inp) ∧
      suffixAsmErrors .nil loc = [(loc, "size suffix required")] ∧
      suffixAction .nil = .error (.failed "size suffix required") ∧
      suffix inp = .error (.failed "size suffix required")) := by
  refine ⟨?_, ?_, ?_⟩
  · intro h
    exact suffix_variant true sfx t h
  · intro h
    exact suffix_variant false sfx t h
  · intro h1 h2
    have ho : Optional (Alt [LiteralIC ".l", LiteralIC ".w"]) inp = .ok (.nil, inp) := by
      simp only [Optional, Alt, LiteralIC_not_ahead _ inp h1, LiteralIC_not_ahead _ inp h2]
    refine ⟨ho, rfl, rfl, ?_⟩
    simp only [suffix, WithAction, ho, suffixAction]

/-- C15 at concrete inputs: `.L`, `.w` and a missing suffix (` A, B`). -/
theorem mocha_suffix_rule_witness :
    suffix ".L A".data = .ok (.bool true, " A".data) ∧
    suffix ".w A".data = .ok (.bool false, " A".data) ∧
    suffix " A, B".data = .error (.failed "size suffix required") ∧
    suffixAsmErrors .nil (7 : Nat) = [(7, "size suffix required")] := by
  have h := mocha_suffix_rule Nat 7 ".L".data " A".data " A, B".data
  have h2 := mocha_suffix_rule Nat 7 ".w".data " A".data " A, B".data
  have n1 : NotAhead ".l" " A, B".data := by
    intro a rest ha hm
    have hl : a.length = 2 := by simpa using congrArg List.length hm
    match a, hl with
    | [x, y], _ =>
      simp only [List.cons_append, List.nil_append] at ha
      have hx : x = ' ' := by
        have := congrArg List.head? ha
        simpa using this.symm
      subst hx
      have h0 : lower ' ' = lower '.' := (List.cons.inj hm).1
      exact absurd h0 (by decide)
  have n2 : NotAhead ".w" " A, B".data := by
    intro a rest ha hm
    have hl : a.length = 2 := by simpa using congrArg List.length hm
    match a, hl with
    | [x, y], _ =>
      simp only [List.cons_append, List.nil_append] at ha
      have hx : x = ' ' := by
        have := congrArg List.head? ha
        simpa using this.symm
      subst hx
      have h0 : lower ' ' = lower '.' := (List.cons.inj hm).1
      exact absurd h0 (by decide)
  have h3 := h.2.2 n1 n2
  exact ⟨h.1 (by decide), h2.2.1 (by decide), h3.2.2.2, h3.2.1⟩

/-! ### `[SP + e]` and `PICK e` -/

/-- C19 (amended): for every expression e, the DCPU operand parsed from the
bracketed form `[SP + e]` carries the register 0, the special code 0x1a and the
offset e, as the operand parsed from `PICK e` does.  (The texts are read by the
lexical grammar: optional whitespace, the operator `+`, the expression.) -/
theorem dcpu_sp_offset_is_pick (L : Lex) (hS : L.Sane) (e : Expression)
    (sp' r0 r1 r2 r3 r4 r5 r6 pk' p0 p1 p2 : List Char)
    (hsp : CaseVariant "sp" sp') (h0 : L.ws r0 = .ok r1)
    (h1 : L.unaryOp r1 = .ok (.PLUS, r2)) (h2 : L.ws r2 = .ok r3)
    (h3 : L.expr r3 = .ok (e, r4)) (h4 : L.ws r4 = .ok r5) (h5 : r5 = ']' :: r6)
    (hpk : CaseVariant "pick" pk') (hp0 : L.ws1 p0 = .ok p1)
    (hp1 : L.expr p1 = .ok (e, p2)) :
    ∃ a b : Dcpu.Arg,
      Dcpu.regIndex L ('[' :: (sp' ++ r0)) = .ok (.arg a, r6) ∧
      Dcpu.pick L (pk' ++ p0) = .ok (.arg b, p2) ∧
      a.reg = b.reg ∧ a.special = b.special ∧ a.offset = b.offset ∧
      a.reg = 0 ∧ a.special = 0x1a ∧ a.offset = some e := by
  subst h5
  have hlen : sp'.length = 2 := by simpa using congrArg List.length hsp
  match sp', hlen, hsp with
  | [x, y], _, hsp =>
    have hx : lower x = 's' := (List.cons.inj hsp).1
    have hnb : startsBlank (x :: y :: r0) = false := by
      simp only [startsBlank, Bool.or_eq_false_iff, decide_eq_false_iff_not]
      refine ⟨⟨⟨?_, ?_⟩, ?_⟩, ?_⟩ <;> (intro hh; subst hh; exact absurd hx (by decide))
    have hgp : ¬ x ∈ "ABCXYZIJabcxyzij".data := by
      intro hh
      rcases gp_cases x hh with h | h | h | h | h | h | h | h | h | h | h | h | h | h | h | h <;>
        (subst h; exact absurd hx (by decide))
    have hw := hS.ws_skip _ hnb
    have hl : Literal "[" ('[' :: x :: y :: r0) = .ok (.str "[", x :: y :: r0) := rfl
    have hreg : Dcpu.reg (x :: y :: r0) = .error .noMatch := by
      simp only [Dcpu.reg, WithAction, OneOf, hgp, if_false]
    have hlit : LiteralIC "sp" (x :: y :: r0) = .ok (.str "sp", r0) :=
      LiteralIC_self_variant "sp" [x, y] r0 hsp
    have hr : Literal "]" (']' :: r6) = .ok (.str "]", r6) := rfl
    have hlow : ToLower "sp" = "sp" := by decide
    refine ⟨{ reg := 0, special := 0x1a, indirect := true, offset := some e },
      { special := 0x1a, offset := some e }, ?_, ?_, rfl, rfl, rfl, rfl, rfl, rfl⟩
    · simp only [List.cons_append, List.nil_append, Dcpu.regIndex, WithAction, Psec.Seq,
        seqList, hl, Lex.wsP, hw, Alt, hreg, hlit,
        h0, Lex.unaryOpP, h1, h2, Lex.exprP, h3, h4, hr, Dcpu.regIndexAction, Val.asList, idx,
        List.get?, Dcpu.regIndexBase, hlow, if_true, Val.asOperator, Val.asExpr, bind,
        Except.bind, pure, Except.pure]
      rfl
    · simp only [Dcpu.pick, WithAction, SeqAt, seqList, LiteralIC_self_variant "pick" pk' p0 hpk,
        Lex.ws1P, hp0, Lex.exprP, hp1, List.get?, Dcpu.pickAction, Val.asExpr, bind,
        Except.bind, pure, Except.pure]

/-- C19 (amended) at a concrete input: `[SP + 3]` and `PICK 3`. -/
theorem dcpu_sp_offset_is_pick_witness :
    Dcpu.regIndex demoLex "[SP + 3]".data =
      .ok (.arg { reg := 0, special := 0x1a, indirect := true, offset := some (.Constant 3) },
        []) ∧
    Dcpu.pick demoLex "PICK 3".data =
      .ok (.arg { reg := 0, special := 0x1a, indirect := false, offset := some (.Constant 3) },
        []) := by
  obtain ⟨a, b, ha, hb, _⟩ := dcpu_sp_offset_is_pick demoLex demoLex_sane (.Constant 3)
    "SP".data " + 3]".data "+ 3]".data " 3]".data "3]".data "]".data "]".data [] "PICK".data
    " 3".data "3".data [] (by decide) rfl rfl rfl rfl rfl rfl (by decide) rfl rfl
  exact ⟨rfl, rfl⟩

/-- C19 as stated fails: the operand of `[SP + 3]` has its indirect flag set,
the operand of `PICK 3` has not, so the two are not equal field for field; and
for no expression do the two actions build the same operand. -/
theorem dcpu_sp_offset_indirect_flag_differs :
    (∃ a b : Dcpu.Arg,
      Dcpu.regIndex demoLex "[SP + 3]".data = .ok (.arg a, []) ∧
      Dcpu.pick demoLex "PICK 3".data = .ok (.arg b, []) ∧
      a.indirect = true ∧ b.indirect = false ∧ a ≠ b) ∧
    (¬ ∃ (e : Expression) (a : Dcpu.Arg),
      Dcpu.regIndexAction (.list [.str "[", .nil, .str "sp", .nil, .operator .PLUS, .nil,
        .expr e, .nil, .str "]"]) = .ok (.arg a) ∧
      Dcpu.pickAction (.expr e) = .ok (.arg a)) := by
  constructor
  · exact ⟨{ reg := 0, special := 0x1a, indirect := true, offset := some (.Constant 3) },
      { special := 0x1a, offset := some (.Constant 3) }, rfl, rfl, rfl, rfl, by decide⟩
  · rintro ⟨e, a, h1, h2⟩
    have e1 : Dcpu.regIndexAction (.list [.str "[", .nil, .str "sp", .nil, .operator .PLUS,
        .nil, .expr e, .nil, .str "]"]) =
        .ok (.arg { reg := 0, special := 0x1a, indirect := true, offset := some e }) := rfl
    have e2 : Dcpu.pickAction (.expr e) = .ok (.arg { special := 0x1a, offset := some e }) := rfl
    rw [e1] at h1
    rw [e2] at h2
    simp only [Except.ok.injEq, Val.arg.injEq] at h1 h2
    rw [← h1] at h2
    simp at h2

/-! ### The reserved-word hook and the grammar builders -/

/-- C13 (amended): `buildDcpuParser` installs the DCPU predicate `reservedWords`
into the hook `core.ReservedWords`, and it does so after its call of
`core.AddBasicParsers`, which runs with the value the hook had before; after
the builder returns, `core.ReservedWords` is the DCPU predicate. -/
theorem dcpu_builder_installs_hook (G : Globals) :
    (Dcpu.buildDcpuParser G).ReservedWords = some Dcpu.reservedWords ∧
    (Dcpu.buildDcpuParser G).basicParsersBuilt = G.basicParsersBuilt ++ [G.ReservedWords] := by
  exact ⟨rfl, rfl⟩

/-- C13 as stated fails: starting with the hook unset, `buildDcpuParser` calls
`core.AddBasicParsers` while the hook is still unset (the predicate is
installed after that call, not before), and `buildMochaParser` returns with
the hook still unset: it makes no assignment to `core.ReservedWords`. -/
theorem builders_hook_order :
    (Dcpu.buildDcpuParser {}).basicParsersBuilt = [none] ∧
    (Dcpu.buildDcpuParser {}).basicParsersBuilt ≠ [some Dcpu.reservedWords] ∧
    (Mocha.buildMochaParser {}).ReservedWords = none ∧
    (∀ G : Globals, (Mocha.buildMochaParser G).ReservedWords = G.ReservedWords) := by
  refine ⟨rfl, ?_, rfl, fun _ => rfl⟩
  intro h
  have h2 : (none : Option (String → Except Err Bool)) = some Dcpu.reservedWords :=
    List.head_eq_of_cons_eq h
  cases h2

/-! ### The DCPU predicate `reservedWords` -/

theorem char_utf8Size_one_iff (c : Char) : c.utf8Size = 1 ↔ c.toNat < 128 := by
  constructor
  · intro h
    unfold Char.utf8Size at h
    simp only at h
    split_ifs at h with h1
    · have h2 : c.val.toNat ≤ 127 := h1
      exact Nat.lt_succ_of_le h2
    · exact absurd h (by decide)
    · exact absurd h (by decide)
    · exact absurd h (by decide)
  · intro h
    unfold Char.utf8Size
    have h1 : c.val ≤ UInt32.ofNatCore 127 (by decide) := by
      show c.val.toNat ≤ 127
      exact Nat.lt_succ_iff.1 h
    simp only
    rw [if_pos h1]

theorem utf8ByteSize_go_ge (cs : List Char) : cs.length ≤ String.utf8ByteSize.go cs := by
  induction cs with
  | nil => simp [String.utf8ByteSize.go]
  | cons c cs ih =>
    have hp := Char.utf8Size_pos c
    simp only [String.utf8ByteSize.go, List.length_cons]
    omega

theorem goLen_eq_one (s : String) (h : goLen s = 1) :
    ∃ c, s.data = [c] ∧ c.toNat < 128 := by
  obtain ⟨data⟩ := s
  cases data with
  | nil => simp [goLen, String.utf8ByteSize, String.utf8ByteSize.go] at h
  | cons c cs =>
    have hp := Char.utf8Size_pos c
    have hg := utf8ByteSize_go_ge cs
    simp only [goLen, String.utf8ByteSize, String.utf8ByteSize.go] at h
    have hcs : cs = [] := List.length_eq_zero.1 (by omega)
    subst hcs
    simp only [String.utf8ByteSize.go, Nat.zero_add] at h
    exact ⟨c, rfl, (char_utf8Size_one_iff c).1 h⟩

theorem goLen_ascii (s : String) (h : Dcpu.IsAscii s) : goLen s = s.data.length := by
  obtain ⟨data⟩ := s
  simp only [goLen, String.utf8ByteSize]
  induction data with
  | nil => rfl
  | cons c cs ih =>
    have hc := (char_utf8Size_one_iff c).2 (h c (List.mem_cons_self c cs))
    have hcs := ih (fun d hd => h d (List.mem_cons_of_mem c hd))
    simp only [String.utf8ByteSize.go, List.length_cons, hc, hcs]

theorem ascii_lower_table :
    ∀ n, n < 128 → unicodeToLower (Char.ofNat n) = lower (Char.ofNat n) ∧
      (lower (Char.ofNat n)).toNat < 128 ∧
      utf8FirstByte (lower (Char.ofNat n)) = (lower (Char.ofNat n)).toNat := by
  decide

theorem ascii_lower (c : Char) (h : c.toNat < 128) :
    unicodeToLower c = lower c ∧ (lower c).toNat < 128 ∧
      utf8FirstByte (lower c) = (lower c).toNat := by
  have := ascii_lower_table c.toNat h
  rwa [Char.ofNat_toNat] at this

theorem ToLower_ascii (s : String) (h : Dcpu.IsAscii s) :
    ToLower s = String.mk (s.data.map lower) := by
  simp only [ToLower]
  congr 1
  apply List.map_congr_left
  intro c hc
  exact (ascii_lower c (h c hc)).1

theorem keywords_any (lc : String) :
    Dcpu.keywords.any (fun res => decide (lc = res)) = true ↔ lc ∈ Dcpu.keywords := by
  simp [List.any_eq_true]

theorem letters_any (ch : Char) :
    "abcxyzij".data.any (fun b => decide (ch.toNat = b.toNat)) = true ↔
      String.mk [ch] ∈ Dcpu.registerLetters := by
  have hd : "abcxyzij".data = ['a', 'b', 'c', 'x', 'y', 'z', 'i', 'j'] := rfl
  have inj : ∀ b : Char, ch.toNat = b.toNat ↔ ch = b := by
    intro b
    constructor
    · intro hh
      rw [← Char.ofNat_toNat ch, ← Char.ofNat_toNat b, hh]
    · intro hh
      rw [hh]
  have e : ∀ b : Char, (String.mk [ch] = String.mk [b]) ↔ ch = b := by
    intro b
    constructor
    · intro hh
      have := congrArg String.data hh
      simpa using this
    · intro hh
      rw [hh]
  have ea : ("a" : String) = String.mk ['a'] := rfl
  have eb : ("b" : String) = String.mk ['b'] := rfl
  have ec : ("c" : String) = String.mk ['c'] := rfl
  have ex : ("x" : String) = String.mk ['x'] := rfl
  have ey : ("y" : String) = String.mk ['y'] := rfl
  have ez : ("z" : String) = String.mk ['z'] := rfl
  have ei : ("i" : String) = String.mk ['i'] := rfl
  have ej : ("j" : String) = String.mk ['j'] := rfl
  simp only [hd, Dcpu.registerLetters, List.any_cons, List.any_nil, Bool.or_false,
    Bool.or_eq_true, decide_eq_true_eq, inj, List.mem_cons, List.mem_singleton,
    List.not_mem_nil, or_false, ea, eb, ec, ex, ey, ez, ei, ej, e]

/-- The function `reservedWords` by cases on `len(s)`. -/
theorem reservedWords_eval (s : String) :
    (goLen s = 1 → ∃ c, s.data = [c] ∧ c.toNat < 128 ∧ ToLower s = String.mk [lower c] ∧
      Dcpu.reservedWords s =
        .ok (decide (ToLower s ∈ Dcpu.registerLetters) || decide (ToLower s ∈ Dcpu.keywords))) ∧
    (goLen s ≠ 1 → Dcpu.reservedWords s = .ok (decide (ToLower s ∈ Dcpu.keywords))) := by
  have hk : ∀ lc : String, Dcpu.keywords.any (fun res => decide (lc = res)) =
      decide (lc ∈ Dcpu.keywords) := by
    intro lc
    rw [Bool.eq_iff_iff, keywords_any]
    simp
  constructor
  · intro h
    obtain ⟨c, hc, hlt⟩ := goLen_eq_one s h
    obtain ⟨h1, h2, h3⟩ := ascii_lower c hlt
    have hlc : ToLower s = String.mk [lower c] := by
      simp only [ToLower, hc, List.map_cons, List.map_nil, h1]
    refine ⟨c, hc, hlt, hlc, ?_⟩
    have hb : byte0 (String.mk [lower c]) = .ok (lower c).toNat := by
      simp only [byte0, h3]
    have hl : "abcxyzij".data.any (fun b => decide ((lower c).toNat = b.toNat)) =
        decide (String.mk [lower c] ∈ Dcpu.registerLetters) := by
      rw [Bool.eq_iff_iff, letters_any]
      simp
    simp only [Dcpu.reservedWords, h, if_true, hlc, hb, hl, hk]
    by_cases hr : String.mk [lower c] ∈ Dcpu.registerLetters <;> simp [hr]
  · intro h
    simp only [Dcpu.reservedWords, h, if_false, hk]

/-- C12 (amended): `reservedWords` is total: on every string, the empty one
included, it returns a value and makes no out-of-range index.  It returns true
if and only if s is one byte long and its lower-cased form is one of the
letters a, b, c, x, y, z, i, j, or the lower-cased s is one of the keywords
push, pop, peek, pick, pc, ex, sp.  For an ASCII string this is: the
lower-cased s is one of the letters or one of the keywords; so on ASCII
strings it gives the same answer on s and on every letter-case variation of
s. -/
theorem dcpu_reservedWords_spec (s s' : String) :
    (∃ b, Dcpu.reservedWords s = .ok b) ∧
    Dcpu.reservedWords "" = .ok false ∧
    (Dcpu.reservedWords s = .ok true ↔
      (goLen s = 1 ∧ ToLower s ∈ Dcpu.registerLetters) ∨ ToLower s ∈ Dcpu.keywords) ∧
    (Dcpu.IsAscii s →
      (Dcpu.reservedWords s = .ok true ↔
        ToLower s ∈ Dcpu.registerLetters ∨ ToLower s ∈ Dcpu.keywords)) ∧
    (Dcpu.IsAscii s → Dcpu.IsAscii s' → s'.data.map lower = s.data.map lower →
      Dcpu.reservedWords s' = Dcpu.reservedWords s) := by
  have hev := reservedWords_eval s
  have hiff : Dcpu.reservedWords s = .ok true ↔
      (goLen s = 1 ∧ ToLower s ∈ Dcpu.registerLetters) ∨ ToLower s ∈ Dcpu.keywords := by
    by_cases h : goLen s = 1
    · obtain ⟨c, _, _, _, hr⟩ := hev.1 h
      rw [hr]
      simp [h]
    · rw [hev.2 h]
      simp [h]
  have hone : ∀ u : String, u ∈ Dcpu.registerLetters → u.data.length = 1 := by decide
  refine ⟨?_, rfl, hiff, ?_, ?_⟩
  · by_cases h : goLen s = 1
    · obtain ⟨c, _, _, _, hr⟩ := hev.1 h
      exact ⟨_, hr⟩
    · exact ⟨_, hev.2 h⟩
  · intro ha
    rw [hiff]
    constructor
    · rintro (⟨_, h⟩ | h)
      · exact Or.inl h
      · exact Or.inr h
    · rintro (h | h)
      · refine Or.inl ⟨?_, h⟩
        have hl := hone _ h
        rw [ToLower_ascii s ha] at hl
        rw [goLen_ascii s ha]
        simpa using hl
      · exact Or.inr h
  · intro ha ha' hv
    have hlc : ToLower s' = ToLower s := by
      rw [ToLower_ascii s ha, ToLower_ascii s' ha', hv]
    have hlen : goLen s' = goLen s := by
      rw [goLen_ascii s ha, goLen_ascii s' ha']
      simpa using congrArg List.length hv
    simp only [Dcpu.reservedWords, hlc, hlen]

/-- C12 (amended) at concrete inputs: `A`, `j`, `Push` and `pEEk` are reserved,
`foo` and the empty string are not, and `PUSH` gets the answer of `push`. -/
theorem dcpu_reservedWords_spec_witness :
    Dcpu.reservedWords "A" = .ok true ∧ Dcpu.reservedWords "j" = .ok true ∧
    Dcpu.reservedWords "Push" = .ok true ∧ Dcpu.reservedWords "pEEk" = .ok true ∧
    Dcpu.reservedWords "foo" = .ok false ∧ Dcpu.reservedWords "" = .ok false ∧
    Dcpu.reservedWords "PUSH" = Dcpu.reservedWords "push" := by
  have h := (dcpu_reservedWords_spec "push" "PUSH").2.2.2.2 (by decide) (by decide) (by decide)
  exact ⟨rfl, rfl, rfl, rfl, rfl, rfl, h⟩

/-- C12 as stated fails: the string of the one code point U+0130 (two bytes
long) has the lower case `i`, a register letter, and `reservedWords` returns
false on it, because the letters are only compared when `len(s) == 1`. -/
theorem dcpu_reservedWords_not_by_lowercase_alone :
    ¬ (∀ s : String, Dcpu.reservedWords s = .ok true ↔
      (ToLower s ∈ Dcpu.registerLetters ∨ ToLower s ∈ Dcpu.keywords)) := by
  intro h
  have h1 : ToLower "İ" = "i" := by decide
  have h2 : Dcpu.reservedWords "İ" = .ok false := rfl
  have h3 := (h "İ").2 (Or.inl (by rw [h1]; decide))
  rw [h2] at h3
  cases h3

/-! ### Determinism of the DCPU opcode parsers -/

theorem Alt_LiteralIC_all_fail (order : List String) (inp : List Char)
    (h : ∀ k ∈ order, LiteralIC k inp = .error .noMatch) :
    Alt (order.map LiteralIC) inp = .error .noMatch := by
  induction order with
  | nil => rfl
  | cons k ks ih =>
    simp only [List.map_cons, Alt, h k (List.mem_cons_self k ks)]
    exact ih (fun k2 hk2 => h k2 (List.mem_cons_of_mem k hk2))

theorem Alt_LiteralIC_one_match (order : List String) (inp : List Char) (k : String)
    (r : List Char) (hk : k ∈ order) (hok : LiteralIC k inp = .ok (.str k, r))
    (hothers : ∀ k2 ∈ order, k2 ≠ k → LiteralIC k2 inp = .error .noMatch) :
    Alt (order.map LiteralIC) inp = .ok (.str k, r) := by
  induction order with
  | nil => simp at hk
  | cons k1 ks ih =>
    simp only [List.map_cons, Alt]
    by_cases h1 : k1 = k
    · subst h1
      rw [hok]
    · rw [hothers k1 (List.mem_cons_self k1 ks) h1]
      have hk2 : k ∈ ks := by
        rcases List.mem_cons.1 hk with h | h
        · exact absurd h.symm h1
        · exact h
      exact ih hk2 (fun k2 hk2 hne => hothers k2 (List.mem_cons_of_mem k1 hk2) hne)

/-- Two literals of the same length that both match an input agree up to
letter case. -/
theorem LiteralIC_match_unique (k k2 : String) (inp r r2 : List Char)
    (hlen : k.data.length = k2.data.length)
    (h : LiteralIC k inp = .ok (.str k, r)) (h2 : LiteralIC k2 inp = .ok (.str k2, r2)) :
    k.data.map lower = k2.data.map lower := by
  simp only [LiteralIC] at h h2
  cases hs : stripLit true k.data inp with
  | none => simp [hs] at h
  | some x =>
    cases hs2 : stripLit true k2.data inp with
    | none => simp [hs2] at h2
    | some x2 =>
      obtain ⟨a, ha, hm⟩ := stripLit_some_split k.data inp x hs
      obtain ⟨a2, ha2, hm2⟩ := stripLit_some_split k2.data inp x2 hs2
      have hl : a.length = a2.length := by
        have e1 : a.length = k.data.length := by simpa using congrArg List.length hm
        have e2 : a2.length = k2.data.length := by simpa using congrArg List.length hm2
        omega
      have haa : a = a2 := (List.append_inj (ha.symm.trans ha2) hl).1
      rw [← hm, ← hm2, haa]

/-- An alternation of case-insensitive literals over keys of one length that
differ beyond letter case gives the same result in every order of the keys. -/
theorem Alt_LiteralIC_order_independent (keys o1 o2 : List String) (inp : List Char)
    (hkeys : ∀ k ∈ keys, ∀ k2 ∈ keys, k.data.length = k2.data.length ∧
      (k.data.map lower = k2.data.map lower → k = k2))
    (h1 : o1.Perm keys) (h2 : o2.Perm keys) :
    Alt (o1.map LiteralIC) inp = Alt (o2.map LiteralIC) inp := by
  by_cases hex : ∃ k ∈ keys, ∃ r, LiteralIC k inp = .ok (.str k, r)
  · obtain ⟨k, hk, r, hok⟩ := hex
    have hoth : ∀ k2 ∈ keys, k2 ≠ k → LiteralIC k2 inp = .error .noMatch := by
      intro k2 hk2 hne
      rcases LiteralIC_cases k2 inp with hf | ⟨r2, hok2⟩
      · exact hf
      · have hh := hkeys k2 hk2 k hk
        exact absurd (hh.2 (LiteralIC_match_unique k2 k inp r2 r hh.1 hok2 hok)) hne
    rw [Alt_LiteralIC_one_match o1 inp k r (h1.mem_iff.2 hk) hok
        (fun k2 hk2 => hoth k2 (h1.mem_iff.1 hk2)),
      Alt_LiteralIC_one_match o2 inp k r (h2.mem_iff.2 hk) hok
        (fun k2 hk2 => hoth k2 (h2.mem_iff.1 hk2))]
  · have hall : ∀ k ∈ keys, LiteralIC k inp = .error .noMatch := by
      intro k hk
      rcases LiteralIC_cases k inp with hf | ⟨r, hok⟩
      · exact hf
      · exact absurd ⟨k, hk, r, hok⟩ hex
    rw [Alt_LiteralIC_all_fail o1 inp (fun k hk => hall k (h1.mem_iff.1 hk)),
      Alt_LiteralIC_all_fail o2 inp (fun k hk => hall k (h2.mem_iff.1 hk))]

/-- C21: all mnemonics of the DCPU maps `binaryOpcodes` and `unaryOpcodes` have
length 3, are pairwise different, and none occurs in both maps; so for every
input and any two orders in which the map iteration can deliver the keys, the
`binary opcode` parser returns the same result, and so does the
`unary opcode` parser; and a mnemonic belongs to one family and has one
opcode in the map of that family. -/
theorem dcpu_opcode_parsers_deterministic (o1 o2 : List String) (inp : List Char) :
    (∀ k ∈ (Dcpu.binaryOpcodesTable ++ Dcpu.unaryOpcodesTable).map Prod.fst, k.length = 3) ∧
    ((Dcpu.binaryOpcodesTable ++ Dcpu.unaryOpcodesTable).map Prod.fst).Nodup ∧
    (∀ k ∈ Dcpu.binaryOpcodesTable.map Prod.fst, k ∉ Dcpu.unaryOpcodesTable.map Prod.fst) ∧
    (Dcpu.IsKeyOrder Dcpu.binaryOpcodesTable o1 → Dcpu.IsKeyOrder Dcpu.binaryOpcodesTable o2 →
      Dcpu.binaryOpcode o1 inp = Dcpu.binaryOpcode o2 inp) ∧
    (Dcpu.IsKeyOrder Dcpu.unaryOpcodesTable o1 → Dcpu.IsKeyOrder Dcpu.unaryOpcodesTable o2 →
      Dcpu.unaryOpcode o1 inp = Dcpu.unaryOpcode o2 inp) ∧
    (∀ m v w, (m, v) ∈ Dcpu.binaryOpcodesTable → (m, w) ∈ Dcpu.binaryOpcodesTable → v = w) ∧
    (∀ m v w, (m, v) ∈ Dcpu.unaryOpcodesTable → (m, w) ∈ Dcpu.unaryOpcodesTable → v = w) := by
  have low := dcpu_keys_lowercase
  have hkeys : ∀ tbl : List (String × Nat),
      (∀ k ∈ tbl.map Prod.fst, k.data.map lower = k.data ∧ k.data.length = 3) →
      ∀ k ∈ tbl.map Prod.fst, ∀ k2 ∈ tbl.map Prod.fst,
        k.data.length = k2.data.length ∧ (k.data.map lower = k2.data.map lower → k = k2) := by
    intro tbl hl k hk k2 hk2
    have a := hl k hk
    have b := hl k2 hk2
    refine ⟨by omega, ?_⟩
    intro hh
    rw [a.1, b.1] at hh
    exact String.ext hh
  have lowB : ∀ k ∈ Dcpu.binaryOpcodesTable.map Prod.fst,
      k.data.map lower = k.data ∧ k.data.length = 3 := fun k hk => low k (by
    simp only [List.map_append, List.mem_append]
    exact Or.inl hk)
  have lowU : ∀ k ∈ Dcpu.unaryOpcodesTable.map Prod.fst,
      k.data.map lower = k.data ∧ k.data.length = 3 := fun k hk => low k (by
    simp only [List.map_append, List.mem_append]
    exact Or.inr hk)
  refine ⟨by decide, by decide, by decide, ?_, ?_, ?_, ?_⟩
  · intro h1 h2
    simp only [Dcpu.binaryOpcode, WithAction,
      Alt_LiteralIC_order_independent _ o1 o2 inp (hkeys _ lowB) h1 h2]
  · intro h1 h2
    simp only [Dcpu.unaryOpcode, WithAction,
      Alt_LiteralIC_order_independent _ o1 o2 inp (hkeys _ lowU) h1 h2]
  · intro m v w hv hw
    have a := dcpu_binary_lookup (m, v) hv
    have b := dcpu_binary_lookup (m, w) hw
    simp only at a b
    rw [a] at b
    exact Option.some.inj b
  · intro m v w hv hw
    have a := dcpu_unary_lookup (m, v) hv
    have b := dcpu_unary_lookup (m, w) hw
    simp only at a b
    rw [a] at b
    exact Option.some.inj b

/-- C21 at concrete inputs: on `Sub a, 1` and on `foo` the `binary opcode`
parser gives the same result with the keys in source order and reversed. -/
theorem dcpu_opcode_parsers_deterministic_witness :
    Dcpu.binaryOpcode (Dcpu.binaryOpcodesTable.map Prod.fst) "Sub a, 1".data =
      Dcpu.binaryOpcode (Dcpu.binaryOpcodesTable.map Prod.fst).reverse "Sub a, 1".data ∧
    Dcpu.binaryOpcode (Dcpu.binaryOpcodesTable.map Prod.fst).reverse "Sub a, 1".data =
      .ok (.uint16 3, " a, 1".data) ∧
    Dcpu.binaryOpcode (Dcpu.binaryOpcodesTable.map Prod.fst) "foo".data =
      Dcpu.binaryOpcode (Dcpu.binaryOpcodesTable.map Prod.fst).reverse "foo".data :=
  ⟨(dcpu_opcode_parsers_deterministic (Dcpu.binaryOpcodesTable.map Prod.fst)
      (Dcpu.binaryOpcodesTable.map Prod.fst).reverse "Sub a, 1".data).2.2.2.1
      (List.Perm.refl _) (List.reverse_perm _),
   rfl,
   (dcpu_opcode_parsers_deterministic (Dcpu.binaryOpcodesTable.map Prod.fst)
      (Dcpu.binaryOpcodesTable.map Prod.fst).reverse "foo".data).2.2.2.1
      (List.Perm.refl _) (List.reverse_perm _)⟩

/-! ### The bare register in the Mocha `operand` -/

/-- In front of a register letter the alternatives of `operand` that come
before `gpReg`, other than the literal `ia`, fail. -/
theorem gp_head_facts (L : Lex) (R : Char) (hR : IsGpLetter R) (t : List Char) :
    amPushPop (R :: t) = .error .noMatch ∧
    amPeek (R :: t) = .error .noMatch ∧
    Mocha.pc (R :: t) = .error .noMatch ∧
    Mocha.sp (R :: t) = .error .noMatch ∧
    Mocha.ex (R :: t) = .error .noMatch ∧
    amPcRel L (R :: t) = .error .noMatch ∧
    amSpRel L (R :: t) = .error .noMatch := by
  rcases gp_cases R hR with h | h | h | h | h | h | h | h | h | h | h | h | h | h | h | h <;>
    subst h <;> exact ⟨rfl, rfl, rfl, rfl, rfl, rfl, rfl⟩

/-- C23: in the Mocha `operand` alternation `gpReg` stands before `am lit`,
and it reads one character: on every input that starts with a register letter
(A B C X Y Z I J, either case) and does not start with `ia` in any letter
case, `operand` succeeds with the direct-register operand of that letter and
leaves everything after the first character; so the result is never an
immediate (a symbol reference included). -/
theorem mocha_operand_bare_register (L : Lex) (R : Char) (t : List Char)
    (hR : IsGpLetter R) (hia : NotAhead "ia" (R :: t)) :
    operand L = Alt [amPushPop, amPeek, amSpecialReg, amPcRel L, amSpRel L, gpReg,
      amRegIncrement L, amRegIndirect L, amLitIndirect L, amLit L] ∧
    operand L (R :: t) = .ok (.operand (regDirect (Mocha.regNumbers R)), t) ∧
    (∀ e ind r, operand L (R :: t) ≠ .ok (.operand (.immediate e ind), r)) := by
  obtain ⟨h1, h2, hpc, hsp, hex, h4, h5⟩ := gp_head_facts L R hR t
  have hlit := LiteralIC_not_ahead "ia" (R :: t) hia
  have h3 : amSpecialReg (R :: t) = .error .noMatch := by
    simp only [amSpecialReg, Alt, hpc, hsp, hex, Mocha.ia, WithAction, hlit]
  have hres : operand L (R :: t) = .ok (.operand (regDirect (Mocha.regNumbers R)), t) := by
    simp only [operand, Alt, h1, h2, h3, h4, h5, gpReg_gp R hR t, regDirect]
  refine ⟨rfl, hres, ?_⟩
  intro e ind r h
  rw [hres] at h
  simp only [regDirect, Except.ok.injEq, Prod.mk.injEq, Val.operand.injEq] at h
  exact Operand.noConfusion h.1

/-- C23 at the inputs `abc` and `counter`, with the sample lexical grammar:
`operand` returns register A and leaves `bc`, register C and leaves `ounter`;
the `am lit` rule alone reads `abc` as a symbol reference. -/
theorem mocha_operand_bare_register_witness :
    operand demoLex "abc".data = .ok (.operand (.regSimple 0 .rmDirect), "bc".data) ∧
    operand demoLex "counter".data =
      .ok (.operand (.regSimple 2 .rmDirect), "ounter".data) ∧
    amLit demoLex "abc".data =
      .ok (.operand (.immediate (.SymbolRef "abc") false), []) :=
  ⟨(mocha_operand_bare_register demoLex 'a' "bc".data (by decide) (by
      intro a rest h hm
      have hl : a.length = 2 := by simpa using congrArg List.length hm
      match a, hl with
      | [x, y], _ =>
        simp only [List.cons_append, List.nil_append, List.cons.injEq] at h
        obtain ⟨hx, hy, _⟩ := h
        subst hx
        subst hy
        exact absurd hm (by decide))).2.1,
   (mocha_operand_bare_register demoLex 'c' "ounter".data (by decide) (by
      intro a rest h hm
      have hl : a.length = 2 := by simpa using congrArg List.length hm
      match a, hl with
      | [x, y], _ =>
        simp only [List.cons_append, List.nil_append, List.cons.injEq] at h
        obtain ⟨hx, hy, _⟩ := h
        subst hx
        subst hy
        exact absurd hm (by decide))).2.1,
   rfl⟩

/-! ### Longer literals come first -/

theorem LiteralIC_ok_prefix (k : String) (inp r : List Char)
    (h : LiteralIC k inp = .ok (.str k, r)) : k.data.map lower <+: inp.map lower := by
  simp only [LiteralIC] at h
  cases hs : stripLit true k.data inp with
  | none => simp [hs] at h
  | some x =>
    obtain ⟨a, ha, hm⟩ := stripLit_some_split k.data inp x hs
    refine ⟨x.map lower, ?_⟩
    rw [ha, List.map_append, hm]

/-- In an alternation whose longer literals come first, the literal that the
alternation returns is at least as long as every literal that matches. -/
theorem Alt_LiteralIC_longest (names : List String) (inp : List Char) (k : String)
    (r : List Char) (hl : LongestFirst names)
    (h : Alt (names.map LiteralIC) inp = .ok (.str k, r)) :
    ∀ k2 ∈ names, ∀ r2, LiteralIC k2 inp = .ok (.str k2, r2) →
      k2.data.length ≤ k.data.length := by
  induction names with
  | nil => simp [Alt] at h
  | cons n ns ih =>
    have hp := List.pairwise_cons.1 hl
    simp only [List.map_cons, Alt] at h
    rcases LiteralIC_cases n inp with hn | ⟨rn, hn⟩
    · rw [hn] at h
      intro k2 hk2 r2 h2
      rcases List.mem_cons.1 hk2 with e | e
      · subst e
        rw [hn] at h2
        cases h2
      · exact ih hp.2 h k2 e r2 h2
    · rw [hn] at h
      simp only [Except.ok.injEq, Prod.mk.injEq, Val.str.injEq] at h
      obtain ⟨hk, _⟩ := h
      subst hk
      intro k2 hk2 r2 h2
      rcases List.mem_cons.1 hk2 with e | e
      · subst e
        exact le_refl _
      · by_contra hlt
        have hlt2 : n.data.length < k2.data.length := by omega
        have p1 := LiteralIC_ok_prefix n inp rn hn
        have p2 := LiteralIC_ok_prefix k2 inp r2 h2
        have hpre : n.data.map lower <+: k2.data.map lower :=
          List.prefix_of_prefix_length_le p1 p2 (by
            simp only [List.length_map]
            omega)
        exact hp.1 k2 e ⟨hpre, hlt2⟩

/-- C22: in every alternation of case-insensitive literals that the grammars
write out, a literal that is a proper prefix of another comes after it, so the
alternation returns the longest literal that matches: `symbol` and `define`
are read whole by the keyword alternation of `dir:symbol`, `bzrd`, `bnzd`,
`bngd` by `unary branch opcode`, `szrd`, `snzd`, `sngd`, `spsd` by
`unary skip opcode`, whatever follows; and the Mocha `operand` reads the
literal `[SP]+` by `am push/pop`, as the operand that adjusts SP, not as
peek followed by a plus sign. -/
theorem literal_alternations_longest_first :
    (∀ names ∈ literalAlternations, LongestFirst names) ∧
    (∀ (names : List String) (inp : List Char) (k : String) (r : List Char),
      LongestFirst names → Alt (names.map LiteralIC) inp = .ok (.str k, r) →
      ∀ k2 ∈ names, ∀ r2, LiteralIC k2 inp = .ok (.str k2, r2) →
        k2.data.length ≤ k.data.length) ∧
    (∀ L : Lex, dirSymbol L = WithAction
      (Psec.Seq [Alt (["symbol", "sym", "equ", "set", "define", "def"].map LiteralIC),
        L.ws1P, L.identifierP, L.wsP, Literal ",", L.wsP, L.exprP]) dirSymbolAction) ∧
    (∀ k ∈ ["symbol", "define"], ∀ v t : List Char, CaseVariant k v →
      Alt (["symbol", "sym", "equ", "set", "define", "def"].map LiteralIC) (v ++ t) =
        .ok (.str k, t)) ∧
    (∀ k ∈ ["bzrd", "bnzd", "bngd"], ∀ v t : List Char, CaseVariant k v →
      unaryBranchOpcode (v ++ t) = .ok (.str k, t)) ∧
    (∀ k ∈ ["szrd", "snzd", "sngd", "spsd"], ∀ v t : List Char, CaseVariant k v →
      unarySkipOpcode (v ++ t) = .ok (.str k, t)) ∧
    (∀ (L : Lex) (v t : List Char), CaseVariant "[SP]+" v →
      operand L (v ++ t) = .ok (.operand (.spRel true none), t)) := by
  refine ⟨by decide, ?_, fun _ => rfl, ?_, ?_, ?_, ?_⟩
  · intro names inp k r hl h
    exact Alt_LiteralIC_longest names inp k r hl h
  · intro k hk v t hv
    simp only [List.mem_cons, List.mem_singleton, List.not_mem_nil, or_false] at hk
    refine Alt_LiteralIC_variant _ k v k.data [] [] t hv rfl ?_
    rcases hk with h | h <;> subst h <;> rfl
  · intro k hk v t hv
    simp only [List.mem_cons, List.mem_singleton, List.not_mem_nil, or_false] at hk
    refine Alt_LiteralIC_variant unaryBranchNames k v k.data [] [] t hv rfl ?_
    rcases hk with h | h | h <;> subst h <;> rfl
  · intro k hk v t hv
    simp only [List.mem_cons, List.mem_singleton, List.not_mem_nil, or_false] at hk
    refine Alt_LiteralIC_variant unarySkipNames k v k.data [] [] t hv rfl ?_
    rcases hk with h | h | h | h <;> subst h <;> rfl
  · intro L v t hv
    have h : Alt [LiteralIC "push", LiteralIC "pop", LiteralIC "-[SP]", LiteralIC "[SP]+"]
        (v ++ t) = .ok (.str "[SP]+", t) :=
      Alt_LiteralIC_variant ["push", "pop", "-[SP]", "[SP]+"] "[SP]+" v "[SP]+".data [] [] t
        hv rfl rfl
    have hpp : amPushPop (v ++ t) = .ok (.operand (.spRel true none), t) := by
      simp only [amPushPop, WithAction, h]
    simp only [operand, Alt, hpp]

/-- C22 at concrete inputs: `SYMBOL x` gives the keyword `symbol`,
`bzrd.l a` the mnemonic `bzrd`, `spsd b` the mnemonic `spsd`, and the
operand `[sp]+` adjusts SP, where `am peek` alone reads `[sp]` and leaves the
plus sign. -/
theorem literal_alternations_longest_first_witness :
    Alt (["symbol", "sym", "equ", "set", "define", "def"].map LiteralIC) "SYMBOL x".data =
      .ok (.str "symbol", " x".data) ∧
    unaryBranchOpcode "bzrd.l a".data = .ok (.str "bzrd", ".l a".data) ∧
    unarySkipOpcode "spsd b".data = .ok (.str "spsd", " b".data) ∧
    operand demoLex "[sp]+, a".data = .ok (.operand (.spRel true none), ", a".data) ∧
    amPeek "[sp]+, a".data = .ok (.operand (.spRel false none), "+, a".data) :=
  ⟨literal_alternations_longest_first.2.2.2.1 "symbol" (by decide) "SYMBOL".data " x".data
      (by decide),
   literal_alternations_longest_first.2.2.2.2.1 "bzrd" (by decide) "bzrd".data ".l a".data
      (by decide),
   literal_alternations_longest_first.2.2.2.2.2.1 "spsd" (by decide) "spsd".data " b".data
      (by decide),
   literal_alternations_longest_first.2.2.2.2.2.2 demoLex "[sp]+".data ", a".data
      (by decide),
   rfl⟩

end Drasm
